import Mathlib

/-!
# cpp-argparsy: the option resolution and consumption engine

A shallow embedding of `program_options.hpp` and `program_options.cpp`, and
properties of `process_arguments` and of the `consume` methods.

* `std::string` is a list of `char`s, the token buffer (`program_option_type`)
  a list of strings.
* Caller variables bound to options live in a `Store` addressed by `Ref`;
  the local `bool help` of `process_arguments` has its own address.
* Option descriptors are heap objects: the manager owns a heap of
  `OptionValueBase` records and its two vectors hold pointers (heap indices).
* `operator>>` of `std::istringstream` is the standard library's (C++11
  rules, classic locale, decimal base); it is embedded by `extract`.
* `std::sort` is embedded as an insertion sort (`std_sort`).
* A loop over an iterator `it` is a recursion over the tokens from `it` on,
  with the tokens before `it` as an accumulator.
* An iterator moved past the end of the buffer and a dangling pointer are
  undefined behaviour (`Outcome.undefined`). The rescan loop of the vector
  option has a step budget; `Outcome.unfinished` would mean it is used up,
  which never happens (`consume_finishes`).
* A temporary `T tmp;` of arithmetic type that an extraction did not write
  holds `Scalar.indeterminate`; `push_back(tmp)` appends that value.
-/

namespace ArgParsy

/-! ## Strings -/

/-- The type `std::string`; one list element per `char`. -/
abbrev Str := List Char

/-- The typedef `program_option_type` (`std::vector<std::string>`). -/
abbrev program_option_type := List Str

/-- The expression `s[0]`: the first character, `'\0'` when `s` is empty. -/
def front (s : Str) : Char := s.headD (Char.ofNat 0)

/-- The call `s.substr(pos)`. -/
def substr (s : Str) (pos : Nat) : Str := s.drop pos

/-- The call `s.substr(pos, len)`. -/
def substr2 (s : Str) (pos len : Nat) : Str := (s.drop pos).take len

/-- Lexicographic `operator<` of `std::string`. -/
def str_lt : Str → Str → Bool
  | [], [] => false
  | [], _ :: _ => true
  | _ :: _, [] => false
  | a :: as, b :: bs =>
    if a.toNat < b.toNat then true
    else if b.toNat < a.toNat then false
    else str_lt as bs

/-! ## Values and the caller's storage -/

/-- Element types `T` an option can be instantiated with. -/
inductive Ty
  | uint
  | int
  | string
  deriving DecidableEq, Repr

/-- A value of scalar type; `indeterminate` is what a variable of arithmetic
type holds that was declared without an initialiser and never written. -/
inductive Scalar
  | uint (n : Nat)
  | int (z : Int)
  | str (s : Str)
  | bool (b : Bool)
  | indeterminate
  deriving DecidableEq, Repr

/-- The content of a caller variable: a scalar or a `std::vector`. -/
inductive Val
  | scalar (v : Scalar)
  | vec (vs : List Scalar)
  deriving DecidableEq, Repr

/-- The address of a destination variable: a variable of the caller, or the
local `help` of `process_arguments`. -/
inductive Ref
  | var (i : Nat)
  | help
  deriving DecidableEq, Repr

/-- The variables the descriptors refer to (`ReferenceWrapper<T>` targets). -/
abbrev Store := Ref → Val

/-- Assignment through a reference. -/
def Store.set (s : Store) (r : Ref) (v : Val) : Store :=
  fun q => if q = r then v else s q

/-- The call `value_.get().push_back(x)`. A destination of vector type always
holds a vector; the second case only makes the function total. -/
def Store.push_back (s : Store) (r : Ref) (x : Scalar) : Store :=
  match s r with
  | Val.vec vs => s.set r (Val.vec (vs ++ [x]))
  | Val.scalar _ => s.set r (Val.vec [x])

/-! ## Stream extraction (`std::istringstream`, `operator>>`) -/

def UINT_MAX : Nat := 4294967295

def INT_MAX : Int := 2147483647

def INT_MIN : Int := -2147483648

/-- The predicate `isspace` of the classic locale. -/
def isspace (c : Char) : Bool :=
  c == ' ' || c == '\t' || c == '\n' || c == '\r' || c.toNat == 11 || c.toNat == 12

/-- The predicate `isdigit`. -/
def isdigit (c : Char) : Bool := decide (48 ≤ c.toNat) && decide (c.toNat ≤ 57)

/-- Numeric value of a decimal digit character. -/
def digit_value (c : Char) : Nat := c.toNat - 48

/-- The number denoted by a run of decimal digits. -/
def digits_value (ds : List Char) : Nat :=
  ds.foldl (fun acc c => 10 * acc + digit_value c) 0

/-- What one `ssin >> x` did: the value stored into `x` (`none`: `x` was not
written) and the stream state bits afterwards. -/
structure Extracted where
  value : Option Scalar
  failbit : Bool
  eofbit : Bool
  deriving DecidableEq, Repr

/-- The test `!ssin.good() && !ssin.eof()` of the consume functions. -/
def Extracted.bad (r : Extracted) : Bool :=
  !(!r.failbit && !r.eofbit) && !r.eofbit

/-- An optional sign in front of a number: whether it is `-`, and the rest. -/
def read_sign : Str → Bool × Str
  | '-' :: cs => (true, cs)
  | '+' :: cs => (false, cs)
  | cs => (false, cs)

/-- The extraction `ssin >> x` for `unsigned int x` on a fresh stream over
`s`: skip white space (end of input there fails the sentry and leaves `x`
alone), read an optional sign and the decimal digits; no digit stores 0 and
sets failbit, a magnitude above `UINT_MAX` stores `UINT_MAX` and sets
failbit, a minus sign negates modulo 2^32; eofbit is set when the input was
read to its end. -/
def extract_uint (s : Str) : Extracted :=
  let s1 := s.dropWhile isspace
  if s1.isEmpty then ⟨none, true, true⟩
  else
    let sg := read_sign s1
    let ds := sg.2.takeWhile isdigit
    let eof := (sg.2.dropWhile isdigit).isEmpty
    if ds.isEmpty then ⟨some (Scalar.uint 0), true, eof⟩
    else
      let mag := digits_value ds
      if UINT_MAX < mag then ⟨some (Scalar.uint UINT_MAX), true, eof⟩
      else ⟨some (Scalar.uint (if sg.1 then (UINT_MAX + 1 - mag) % (UINT_MAX + 1) else mag)), false, eof⟩

/-- The extraction `ssin >> x` for `int x`: as for `unsigned int`, the value
being clamped to `INT_MIN`/`INT_MAX` with failbit when out of range. -/
def extract_int (s : Str) : Extracted :=
  let s1 := s.dropWhile isspace
  if s1.isEmpty then ⟨none, true, true⟩
  else
    let sg := read_sign s1
    let ds := sg.2.takeWhile isdigit
    let eof := (sg.2.dropWhile isdigit).isEmpty
    if ds.isEmpty then ⟨some (Scalar.int 0), true, eof⟩
    else
      let mag : Int := digits_value ds
      let v : Int := if sg.1 then -mag else mag
      if v < INT_MIN then ⟨some (Scalar.int INT_MIN), true, eof⟩
      else if INT_MAX < v then ⟨some (Scalar.int INT_MAX), true, eof⟩
      else ⟨some (Scalar.int v), false, eof⟩

/-- The extraction `ssin >> x` for `std::string x`: skip white space, then
take the characters up to the next white space or the end of input. -/
def extract_string (s : Str) : Extracted :=
  let s1 := s.dropWhile isspace
  if s1.isEmpty then ⟨none, true, true⟩
  else
    ⟨some (Scalar.str (s1.takeWhile (fun c => !isspace c))), false,
      (s1.dropWhile (fun c => !isspace c)).isEmpty⟩

/-- The extraction `ssin >> x` for `x` of type `T`. -/
def extract : Ty → Str → Extracted
  | Ty.uint => extract_uint
  | Ty.int => extract_int
  | Ty.string => extract_string

/-- The value of a default-initialised `T tmp;`: an empty string, or an
indeterminate value for the arithmetic types. -/
def Ty.default_init : Ty → Scalar
  | Ty.string => Scalar.str []
  | Ty.uint => Scalar.indeterminate
  | Ty.int => Scalar.indeterminate

/-- The statement `ssin >> value_.get()`: the destination is written when the
extraction stored something. -/
def Extracted.assign (r : Extracted) (s : Store) (ref : Ref) : Store :=
  match r.value with
  | some v => s.set ref (Val.scalar v)
  | none => s

/-- The template predicate `is_numeric<T>::value`. -/
def is_numeric : Ty → Bool
  | Ty.uint => true
  | Ty.int => true
  | Ty.string => false

/-- Conversion of a scalar to `unsigned int` (`u = t` in `do_assign<true>`);
`none` for a scalar that holds no number. -/
def to_unsigned : Scalar → Option Nat
  | Scalar.uint n => some (n % (UINT_MAX + 1))
  | Scalar.int z => some (z % ((UINT_MAX : Int) + 1)).toNat
  | Scalar.str _ => none
  | Scalar.bool _ => none
  | Scalar.indeterminate => none

/-- The call `traits<T>::assign_to(u, t)` for `unsigned int u`: the value
assigned to `u`, or `none` when the call returns false. -/
def traits_assign_to (ty : Ty) (t : Val) : Option Nat :=
  if is_numeric ty && is_numeric Ty.uint then
    match t with
    | Val.scalar v => to_unsigned v
    | Val.vec _ => none
  else none

/-- How a piece of code ends: normally with a result, in undefined behaviour
(a past-the-end iterator is advanced or dereferenced, a dangling pointer is
followed), or `unfinished` when the
step budget of a loop of this embedding is used up. -/
inductive Outcome (α : Type)
  | done (a : α)
  | undefined
  | unfinished
  deriving DecidableEq, Repr

/-! ## Option descriptors -/

/-- The members the subclasses of `OptionValueBase` add; one constructor per
class: `NameValue<T>`, `NameValue<std::vector<T>>`, `NameValue<bool>`,
`FlagValue<T>`, `PositionalValue<T>`, `PositionalValue<std::vector<T>>`.
`count_dependent_` is a pointer into the heap of descriptors. -/
inductive OptionImpl
  | NameValue (ty : Ty) (value_ : Ref)
  | NameValueVector (ty : Ty) (value_ : Ref) (max_count_ : Nat)
  | NameValueBool (value_ : Ref)
  | FlagValue (value_ : Ref) (value_to_assign_ : Scalar)
  | PositionalValue (ty : Ty) (value_ : Ref)
  | PositionalValueVector (ty : Ty) (value_ : Ref) (count_ : Nat) (exact_count_ : Bool)
      (max_count_ : Nat) (count_dependent_ : Option Nat)
  deriving DecidableEq, Repr

/-- The class `OptionValueBase` with the members of its dynamic type. -/
structure OptionValueBase where
  short_name_ : Str
  long_name_ : Str
  help_name_ : Str
  consumed_ : Bool
  required_ : Bool
  impl : OptionImpl
  deriving DecidableEq, Repr

/-- Constructor for flags and value options: the long name is the help name. -/
def OptionValueBase.named (short_name long_name : Str) (required : Bool)
    (impl : OptionImpl) : OptionValueBase :=
  ⟨short_name, long_name, long_name, false, required, impl⟩

/-- Constructor for positional options: no short or long name. -/
def OptionValueBase.positional (help_name : Str) (required : Bool)
    (impl : OptionImpl) : OptionValueBase :=
  ⟨[], [], help_name, false, required, impl⟩

/-- The method `match_short_name`. -/
def OptionValueBase.match_short_name (self : OptionValueBase) (arg : Str) : Bool :=
  front arg == '-'
    && decide (arg.length > 1)
    && arg.getD 1 (Char.ofNat 0) != '-'
    && substr2 arg 1 1 == self.short_name_

/-- The match test of the four named `consume` loops:
`(it->size() == 2 && it->substr(1) == short_name_)
 || (it->size() > 1 && it->substr(2) == long_name_)`. -/
def OptionValueBase.name_match (self : OptionValueBase) (it : Str) : Bool :=
  (it.length == 2 && substr it 1 == self.short_name_)
    || (decide (it.length > 1) && substr it 2 == self.long_name_)

/-- The method `uint_assign_to`: the value assigned to the argument, `none`
when the method returns false. -/
def OptionValueBase.uint_assign_to (self : OptionValueBase) (store : Store) : Option Nat :=
  match self.impl with
  | OptionImpl.NameValue ty value_ => traits_assign_to ty (store value_)
  | OptionImpl.PositionalValue ty value_ => traits_assign_to ty (store value_)
  | OptionImpl.NameValueVector _ _ _ => none
  | OptionImpl.NameValueBool _ => none
  | OptionImpl.FlagValue _ _ => none
  | OptionImpl.PositionalValueVector _ _ _ _ _ _ => none

/-- What a call of `consume` leaves behind: its return value, the object it
was called on, the caller's variables and the token buffer. -/
structure ConsumeResult where
  ret : Bool
  self : OptionValueBase
  store : Store
  opts : program_option_type

/-- The method `NameValue<T>::consume`; `pre` holds the tokens before the
iterator `it`, the last argument the tokens from `it` on. -/
def NameValue.consume (self : OptionValueBase) (ty : Ty) (value_ : Ref) (store : Store) :
    program_option_type → program_option_type → ConsumeResult
  | pre, [] => ⟨true, self, store, pre⟩
  | pre, it :: rest =>
    if self.name_match it then
      match rest with
      | [] => ⟨false, self, store, pre ++ [it]⟩
      | next :: after =>
        if front next == '-' then ⟨false, self, store, pre ++ it :: next :: after⟩
        else
          let r := extract ty next
          if r.bad then ⟨false, self, r.assign store value_, pre ++ it :: next :: after⟩
          else ⟨true, { self with consumed_ := true }, r.assign store value_, pre ++ after⟩
    else NameValue.consume self ty value_ store (pre ++ [it]) rest

/-- The methods `NameValue<bool>::consume` (with `v` = true) and
`FlagValue<T>::consume` (with `v` = `value_to_assign_`): erase the first
matching token and assign. -/
def Flag.consume (self : OptionValueBase) (value_ : Ref) (v : Scalar) (store : Store) :
    program_option_type → program_option_type → ConsumeResult
  | pre, [] => ⟨true, self, store, pre⟩
  | pre, it :: rest =>
    if self.name_match it then
      ⟨true, { self with consumed_ := true }, store.set value_ (Val.scalar v), pre ++ rest⟩
    else Flag.consume self value_ v store (pre ++ [it]) rest

/-- The method `PositionalValue<T>::consume`: the state of the stream after
the extraction is not looked at. -/
def PositionalValue.consume (self : OptionValueBase) (ty : Ty) (value_ : Ref) (store : Store) :
    program_option_type → program_option_type → ConsumeResult
  | pre, [] => ⟨true, self, store, pre⟩
  | pre, it :: rest =>
    if front it != '-' then
      ⟨true, { self with consumed_ := true }, (extract ty it).assign store value_, pre ++ rest⟩
    else PositionalValue.consume self ty value_ store (pre ++ [it]) rest

/-- The temporary `tmp` after `T tmp; ssin >> tmp;`. -/
def extracted_tmp (ty : Ty) (r : Extracted) : Scalar :=
  match r.value with
  | some v => v
  | none => ty.default_init

/-- How the inner `while` loop of `NameValue<std::vector<T>>::consume` ends:
its condition fails (`stop`, with the tokens from `it+1` on), or it returns
false after a bad extraction (`bad`). -/
inductive Values
  | stop (count : Nat) (rest : program_option_type) (store : Store)
  | bad (store : Store)

/-- The inner `while` loop of `NameValue<std::vector<T>>::consume`; the list
holds the tokens from `it+1` on. The `if` at the head of its body repeats
the negated loop condition and is never taken. The value is pushed before the
stream state is tested. -/
def NameValueVector.read_values (ty : Ty) (value_ : Ref) (max_count_ : Nat) :
    Nat → program_option_type → Store → Values
  | count, [], store => Values.stop count [] store
  | count, next :: after, store =>
    if front next != '-' && decide (count < max_count_) then
      let r := extract ty next
      let tmp := extracted_tmp ty r
      if r.bad then Values.bad (store.push_back value_ tmp)
      else NameValueVector.read_values ty value_ max_count_ (count + 1) after
        (store.push_back value_ tmp)
    else Values.stop count (next :: after) store

/-- The `for` loop of `NameValue<std::vector<T>>::consume` up to the next
erase; `restart` is what follows `it = opts.begin()`. -/
def NameValueVector.scan (ty : Ty) (value_ : Ref) (max_count_ : Nat)
    (restart : OptionValueBase → Store → program_option_type → Outcome ConsumeResult)
    (self : OptionValueBase) (store : Store) :
    program_option_type → program_option_type → Outcome ConsumeResult
  | pre, [] => Outcome.done ⟨true, self, store, pre⟩
  | pre, it :: rest =>
    if self.name_match it then
      match NameValueVector.read_values ty value_ max_count_ 0 rest store with
      | Values.bad store1 => Outcome.done ⟨false, self, store1, pre ++ it :: rest⟩
      | Values.stop count rest1 store1 =>
        if count != max_count_ then Outcome.done ⟨false, self, store1, pre ++ it :: rest⟩
        else restart { self with consumed_ := true } store1 (pre ++ rest1)
    else NameValueVector.scan ty value_ max_count_ restart self store (pre ++ [it]) rest

/-- The `for` loop of `NameValue<std::vector<T>>::consume`. After an erase
the iterator is set to `opts.begin()` and then incremented by the loop
header: the scan goes on at the second token, and the increment leaves the
buffer when the buffer is empty. Each erase removes at least the matching
token, so `fuel` bounds the number of erases. -/
def NameValueVector.loop (ty : Ty) (value_ : Ref) (max_count_ : Nat) :
    Nat → OptionValueBase → Store → program_option_type → program_option_type →
      Outcome ConsumeResult
  | 0, _, _, _, _ => Outcome.unfinished
  | fuel + 1, self, store, pre, suf =>
    NameValueVector.scan ty value_ max_count_
      (fun self1 store1 opts1 =>
        match opts1 with
        | [] => Outcome.undefined
        | first :: more => NameValueVector.loop ty value_ max_count_ fuel self1 store1 [first] more)
      self store pre suf

/-- The method `NameValue<std::vector<T>>::consume`. -/
def NameValueVector.consume (self : OptionValueBase) (ty : Ty) (value_ : Ref)
    (max_count_ : Nat) (store : Store) (opts : program_option_type) : Outcome ConsumeResult :=
  NameValueVector.loop ty value_ max_count_ (opts.length + 1) self store [] opts

/-- The call `std::swap(v[i], v[j])`. -/
def swap_at (v : program_option_type) (i j : Nat) : program_option_type :=
  (v.set i (v.getD j [])).set j (v.getD i [])

/-- The local state of the loop of `PositionalValue<std::vector<T>>::consume`
at its exit, with the buffer as the swaps left it. -/
structure VectorScan where
  count_ : Nat
  mark : Nat
  cont_flag : Bool
  store : Store
  opts : program_option_type

/-- The `for` loop of `PositionalValue<std::vector<T>>::consume`; `scanned`
holds the tokens before `it` (as swapped so far), the last argument the tokens
from `it` on. -/
def PositionalValueVector.scan (ty : Ty) (value_ : Ref) (max_count_ : Nat) :
    Nat → Nat → Store → program_option_type → program_option_type → Outcome VectorScan
  | count_, mark, store, scanned, [] => Outcome.done ⟨count_, mark, true, store, scanned⟩
  | count_, mark, store, scanned, it :: rest =>
    if count_ < max_count_ then
      if front it != '-' then
        let r := extract ty it
        if r.bad then Outcome.done ⟨count_, mark, false, store, scanned ++ it :: rest⟩
        else
          PositionalValueVector.scan ty value_ max_count_ (count_ + 1) (mark + 1)
            (store.push_back value_ (extracted_tmp ty r))
            (swap_at (scanned ++ [it]) mark scanned.length) rest
      else PositionalValueVector.scan ty value_ max_count_ count_ mark store (scanned ++ [it]) rest
    else Outcome.done ⟨count_, mark, true, store, scanned ++ it :: rest⟩

/-- The object of class `PositionalValue<std::vector<T>>` with new `count_`
and `max_count_`. -/
def PositionalValueVector.update (self : OptionValueBase) (ty : Ty) (value_ : Ref)
    (count_ : Nat) (exact_count_ : Bool) (max_count_ : Nat) (count_dependent_ : Option Nat) :
    OptionValueBase :=
  { self with
    impl := OptionImpl.PositionalValueVector ty value_ count_ exact_count_ max_count_
      count_dependent_ }

/-- The method `PositionalValue<std::vector<T>>::consume` after `max_count_`
has been settled. -/
def PositionalValueVector.consume_counted (self : OptionValueBase) (ty : Ty) (value_ : Ref)
    (count_ : Nat) (exact_count_ : Bool) (max_count_ : Nat) (count_dependent_ : Option Nat)
    (store : Store) (opts : program_option_type) : Outcome ConsumeResult :=
  match PositionalValueVector.scan ty value_ max_count_ count_ 0 store [] opts with
  | Outcome.undefined => Outcome.undefined
  | Outcome.unfinished => Outcome.unfinished
  | Outcome.done s =>
    let self1 := PositionalValueVector.update self ty value_ s.count_ exact_count_ max_count_
      count_dependent_
    let opts1 := s.opts.drop s.mark
    if !s.cont_flag then Outcome.done ⟨false, self1, s.store, opts1⟩
    else if exact_count_ && s.count_ != max_count_ then Outcome.done ⟨false, self1, s.store, opts1⟩
    else Outcome.done ⟨true, { self1 with consumed_ := true }, s.store, opts1⟩

/-- The method `PositionalValue<std::vector<T>>::consume`; `heap` is what
`count_dependent_` points into. The result of `uint_assign_to` is not used:
when it returns false `max_count_` stays 0. -/
def PositionalValueVector.consume (heap : List OptionValueBase) (self : OptionValueBase)
    (ty : Ty) (value_ : Ref) (count_ : Nat) (exact_count_ : Bool) (max_count_ : Nat)
    (count_dependent_ : Option Nat) (store : Store) (opts : program_option_type) :
    Outcome ConsumeResult :=
  if max_count_ == 0 then
    match count_dependent_ with
    | some q =>
      match heap[q]? with
      | none => Outcome.undefined
      | some target =>
        PositionalValueVector.consume_counted self ty value_ count_ exact_count_
          ((target.uint_assign_to store).getD max_count_) count_dependent_ store opts
    | none => Outcome.done ⟨false, self, store, opts⟩
  else
    PositionalValueVector.consume_counted self ty value_ count_ exact_count_ max_count_
      count_dependent_ store opts

/-- The virtual method `consume`, dispatched on the dynamic type. -/
def OptionValueBase.consume (heap : List OptionValueBase) (self : OptionValueBase)
    (store : Store) (opts : program_option_type) : Outcome ConsumeResult :=
  match self.impl with
  | OptionImpl.NameValue ty value_ =>
    Outcome.done (NameValue.consume self ty value_ store [] opts)
  | OptionImpl.NameValueVector ty value_ max_count_ =>
    NameValueVector.consume self ty value_ max_count_ store opts
  | OptionImpl.NameValueBool value_ =>
    Outcome.done (Flag.consume self value_ (Scalar.bool true) store [] opts)
  | OptionImpl.FlagValue value_ value_to_assign_ =>
    Outcome.done (Flag.consume self value_ value_to_assign_ store [] opts)
  | OptionImpl.PositionalValue ty value_ =>
    Outcome.done (PositionalValue.consume self ty value_ store [] opts)
  | OptionImpl.PositionalValueVector ty value_ count_ exact_count_ max_count_ count_dependent_ =>
    PositionalValueVector.consume heap self ty value_ count_ exact_count_ max_count_
      count_dependent_ store opts

/-! ## The manager -/

/-- The struct `CountDependentOption`. -/
structure CountDependentOption where
  name : Str
  dependent : Option Nat
  force_exact_count : Bool
  deriving DecidableEq, Repr

/-- The helper `count_depends_on`. -/
def count_depends_on (name : Str) : CountDependentOption := ⟨name, none, true⟩

/-- The class `ProgramOptionManager`: the descriptors it owns (`heap`, in
allocation order) and its vectors of pointers to them. -/
structure ProgramOptionManager where
  heap : List OptionValueBase
  opts_ : List Nat
  positionals_ : List Nat
  deriving DecidableEq, Repr

/-- The constructor: no descriptor yet. -/
def ProgramOptionManager.new : ProgramOptionManager := ⟨[], [], []⟩

/-- The statement `opts_.push_back(new ...)`. -/
def ProgramOptionManager.push_opt (m : ProgramOptionManager) (d : OptionValueBase) :
    ProgramOptionManager :=
  { m with heap := m.heap ++ [d], opts_ := m.opts_ ++ [m.heap.length] }

/-- The statement `positionals_.push_back(new ...)`. -/
def ProgramOptionManager.push_positional (m : ProgramOptionManager) (d : OptionValueBase) :
    ProgramOptionManager :=
  { m with heap := m.heap ++ [d], positionals_ := m.positionals_ ++ [m.heap.length] }

/-- Overload `add_option(short_name, long_name, T& value, desc, required)` for
a `T` other than `bool`. -/
def ProgramOptionManager.add_option_value (m : ProgramOptionManager) (short_name long_name : Str)
    (ty : Ty) (value : Ref) (required : Bool) : ProgramOptionManager :=
  m.push_opt (OptionValueBase.named short_name long_name required (OptionImpl.NameValue ty value))

/-- Overload `add_option(short_name, long_name, bool& value, desc, required)`. -/
def ProgramOptionManager.add_option_flag (m : ProgramOptionManager) (short_name long_name : Str)
    (value : Ref) (required : Bool) : ProgramOptionManager :=
  m.push_opt (OptionValueBase.named short_name long_name required (OptionImpl.NameValueBool value))

/-- Overload `add_option(short_name, long_name, std::vector<T>& value, count,
desc, required)`. -/
def ProgramOptionManager.add_option_vector (m : ProgramOptionManager) (short_name long_name : Str)
    (ty : Ty) (value : Ref) (count : Nat) (required : Bool) : ProgramOptionManager :=
  m.push_opt (OptionValueBase.named short_name long_name required
    (OptionImpl.NameValueVector ty value count))

/-- Overload `add_option(short_name, long_name, T& value, T value_to_assign,
desc, required)`. -/
def ProgramOptionManager.add_option_flag_value (m : ProgramOptionManager)
    (short_name long_name : Str) (value : Ref) (value_to_assign : Scalar) (required : Bool) :
    ProgramOptionManager :=
  m.push_opt (OptionValueBase.named short_name long_name required
    (OptionImpl.FlagValue value value_to_assign))

/-- Overload `add_option(help_name, T& value, desc, required)`. -/
def ProgramOptionManager.add_option_positional (m : ProgramOptionManager) (help_name : Str)
    (ty : Ty) (value : Ref) (required : Bool) : ProgramOptionManager :=
  m.push_positional (OptionValueBase.positional help_name required
    (OptionImpl.PositionalValue ty value))

/-- Overload `add_option(help_name, std::vector<T>& value, count, desc,
required)`: `count_` 0, `exact_count_` false, no dependency. -/
def ProgramOptionManager.add_option_positional_vector (m : ProgramOptionManager)
    (help_name : Str) (ty : Ty) (value : Ref) (count : Nat) (required : Bool) :
    ProgramOptionManager :=
  m.push_positional (OptionValueBase.positional help_name required
    (OptionImpl.PositionalValueVector ty value 0 false count none))

/-- The first pointer of `ptrs` whose descriptor satisfies `p`. -/
def find_descriptor (heap : List OptionValueBase) (p : OptionValueBase → Bool)
    (ptrs : List Nat) : Option Nat :=
  ptrs.find? (fun q => match heap[q]? with
    | some d => p d
    | none => false)

/-- The two search loops of the `CountDependentOption` overload of
`add_option`: first the named options by short or long name, then the
positionals by help name. -/
def ProgramOptionManager.find_dependent (m : ProgramOptionManager) (name : Str) : Option Nat :=
  match find_descriptor m.heap (fun d => name == d.short_name_ || name == d.long_name_) m.opts_ with
  | some q => some q
  | none => find_descriptor m.heap (fun d => name == d.help_name_) m.positionals_

/-- Overload `add_option(help_name, std::vector<T>& value,
CountDependentOption opt, desc, required)`. -/
def ProgramOptionManager.add_option_dependent (m : ProgramOptionManager) (help_name : Str)
    (ty : Ty) (value : Ref) (opt : CountDependentOption) (required : Bool) :
    ProgramOptionManager :=
  match m.find_dependent opt.name with
  | none => m
  | some q =>
    m.push_positional (OptionValueBase.positional help_name required
      (OptionImpl.PositionalValueVector ty value 0 opt.force_exact_count 0 (some q)))

/-! ## Argument processing -/

/-- The comparison `sln_sort`. -/
def sln_sort (a b : OptionValueBase) : Bool :=
  if a.short_name_.isEmpty || b.short_name_.isEmpty then str_lt a.long_name_ b.long_name_
  else str_lt a.short_name_ b.short_name_

/-- The comparison `sln_sort` on pointers. -/
def sln_sort_ptr (heap : List OptionValueBase) (a b : Nat) : Bool :=
  match heap[a]?, heap[b]? with
  | some x, some y => sln_sort x y
  | _, _ => false

/-- Insertion of `x` into a sorted list, before the first element that is
not smaller than `x`. -/
def sorted_insert {α : Type} (lt : α → α → Bool) (x : α) : List α → List α
  | [] => [x]
  | y :: ys => if lt y x then y :: sorted_insert lt x ys else x :: y :: ys

/-- The call `std::sort(first, last, lt)`, as an insertion sort. Where `lt`
is a strict total order on the elements every sorting algorithm gives this
result (for `sln_sort`: where the descriptors all have short names, no two the
same, see `distinct_short_names`). Elsewhere the language does not fix the
result of `std::sort` (the order of equivalent elements is unspecified, a
comparison that is no strict weak ordering is undefined behaviour) and this
definition picks one order. -/
def std_sort {α : Type} (lt : α → α → Bool) : List α → List α
  | [] => []
  | x :: xs => sorted_insert lt x (std_sort lt xs)

/-- The loop condition of `back_insert_args::operator()`: some option's short
name matches `arg` and `arg` is longer than two characters. -/
def splits (heap : List OptionValueBase) (opts_ : List Nat) (arg : Str) : Bool :=
  opts_.any (fun p => match heap[p]? with
    | some d => d.match_short_name arg && decide (arg.length > 2)
    | none => false)

/-- The functor `back_insert_args`, applied to one argument. -/
def back_insert_args (heap : List OptionValueBase) (opts_ : List Nat)
    (argvv : program_option_type) (arg : Str) : program_option_type :=
  if splits heap opts_ arg then argvv ++ [substr2 arg 0 2, substr arg 2]
  else argvv ++ [arg]

/-- The call `std::for_each(argv+1, argv+argc, back_insert_args(opts_, argvv))`
on an empty `argvv`. -/
def preprocess (heap : List OptionValueBase) (opts_ : List Nat) (args : List Str) :
    program_option_type :=
  args.foldl (back_insert_args heap opts_) []

/-- The objects `process_arguments` works on: the descriptors, the caller's
variables and the local buffer `argvv`. -/
structure State where
  heap : List OptionValueBase
  store : Store
  argvv : program_option_type

/-- The call `p->consume(argvv)` for a pointer `p`. -/
def consume_at (p : Nat) (st : State) : Outcome (Bool × State) :=
  match st.heap[p]? with
  | none => Outcome.undefined
  | some d =>
    match d.consume st.heap st.store st.argvv with
    | Outcome.undefined => Outcome.undefined
    | Outcome.unfinished => Outcome.unfinished
    | Outcome.done r => Outcome.done (r.ret, ⟨st.heap.set p r.self, r.store, r.opts⟩)

/-- The loop over `opts_` in `process_arguments`: it stops at the first
`consume` that returns false. -/
def consume_named : List Nat → State → Outcome (Bool × State)
  | [], st => Outcome.done (true, st)
  | p :: ps, st =>
    match consume_at p st with
    | Outcome.undefined => Outcome.undefined
    | Outcome.unfinished => Outcome.unfinished
    | Outcome.done (ret, st1) =>
      if ret then consume_named ps st1 else Outcome.done (false, st1)

/-- The loop over `positionals_` in `process_arguments`: the value returned
by `consume` is dropped. -/
def consume_positionals : List Nat → State → Outcome State
  | [], st => Outcome.done st
  | p :: ps, st =>
    match consume_at p st with
    | Outcome.undefined => Outcome.undefined
    | Outcome.unfinished => Outcome.unfinished
    | Outcome.done (_, st1) => consume_positionals ps st1

/-- The first descriptor of a vector of pointers for which
`(*it)->required() && !(*it)->consumed()` holds. -/
def first_missing (heap : List OptionValueBase) : List Nat → Option OptionValueBase
  | [] => none
  | p :: ps =>
    match heap[p]? with
    | some d => if d.required_ && !d.consumed_ then some d else first_missing heap ps
    | none => first_missing heap ps

/-- What `process_arguments` prints before it returns. -/
inductive Report
  | named_error (argvv : program_option_type)
  | help
  | unprocessed (argvv : program_option_type)
  | missing_value (help_name : Str)
  | missing_option (opt_name : Str)
  | nothing
  deriving DecidableEq, Repr

/-- The name printed for a missing named option. -/
def opt_name (d : OptionValueBase) : Str :=
  if d.long_name_.isEmpty then d.help_name_ else '-' :: '-' :: d.long_name_

/-- The final `else` branch of `process_arguments`: the first positional,
then the first named option, that is required and not consumed. -/
def check_required (heap : List OptionValueBase) (positionals_ opts_ : List Nat) : Int × Report :=
  match first_missing heap positionals_ with
  | some d => (-1, Report.missing_value d.help_name_)
  | none =>
    match first_missing heap opts_ with
    | some d => (-1, Report.missing_option (opt_name d))
    | none => (1, Report.nothing)

/-- What `process_arguments` returns and leaves behind. -/
structure Result where
  retval : Int
  report : Report
  manager : ProgramOptionManager
  store : Store
  argvv : program_option_type

/-- The checks of `process_arguments` after the two consume loops. -/
def finish (m : ProgramOptionManager) (st : State) : Result :=
  let m1 : ProgramOptionManager := ⟨st.heap, m.opts_, m.positionals_⟩
  if st.store Ref.help == Val.scalar (Scalar.bool true) then
    ⟨0, Report.help, m1, st.store, st.argvv⟩
  else if !st.argvv.isEmpty then
    ⟨-1, Report.unprocessed st.argvv, m1, st.store, st.argvv⟩
  else
    let c := check_required st.heap m.positionals_ m.opts_
    ⟨c.1, c.2, m1, st.store, st.argvv⟩

/-- The manager after `add_option("h", "help", help, ...)` and
`std::sort(opts_.begin(), opts_.end(), sln_sort)`. -/
def ProgramOptionManager.prepare (m : ProgramOptionManager) : ProgramOptionManager :=
  let m1 := m.add_option_flag ['h'] ['h', 'e', 'l', 'p'] Ref.help false
  { m1 with opts_ := std_sort (sln_sort_ptr m1.heap) m1.opts_ }

/-- The method `process_arguments`; `args` is `argv[1..argc)`, `store` the
caller's variables. -/
def ProgramOptionManager.process_arguments (m : ProgramOptionManager) (store : Store)
    (args : List Str) : Outcome Result :=
  let m1 := m.prepare
  let st0 : State :=
    ⟨m1.heap, store.set Ref.help (Val.scalar (Scalar.bool false)), preprocess m1.heap m1.opts_ args⟩
  match consume_named m1.opts_ st0 with
  | Outcome.undefined => Outcome.undefined
  | Outcome.unfinished => Outcome.unfinished
  | Outcome.done (ret, st1) =>
    if !ret then
      Outcome.done ⟨-1, Report.named_error st1.argvv, ⟨st1.heap, m1.opts_, m1.positionals_⟩,
        st1.store, st1.argvv⟩
    else
      match consume_positionals m1.positionals_ st1 with
      | Outcome.undefined => Outcome.undefined
      | Outcome.unfinished => Outcome.unfinished
      | Outcome.done st2 => Outcome.done (finish m1 st2)

/-! ## Observations and configurations used by the properties -/

/-- Apply a function to a normal result. -/
def Outcome.map {α β : Type} (f : α → β) : Outcome α → Outcome β
  | Outcome.done a => Outcome.done (f a)
  | Outcome.undefined => Outcome.undefined
  | Outcome.unfinished => Outcome.unfinished

/-- The decimal numeral of `n`, without leading zeros. -/
def decimal (n : Nat) : Str :=
  if n < 10 then [Nat.digitChar n] else decimal (n / 10) ++ [Nat.digitChar (n % 10)]
termination_by n
decreasing_by omega

/-- Caller variables that all hold the unsigned value `n`. -/
def const_store (n : Nat) : Store := fun _ => Val.scalar (Scalar.uint n)

/-- Caller variables that all hold an empty vector. -/
def empty_vectors : Store := fun _ => Val.vec []

/-- The store after `push_back` of each of `xs`, in order. -/
def Store.push_all (s : Store) (r : Ref) (xs : List Scalar) : Store :=
  xs.foldl (fun acc x => acc.push_back r x) s

/-- The descriptor made by `add_option("h", "help", help, ...)` in
`process_arguments`. -/
def help_option : OptionValueBase :=
  OptionValueBase.named ['h'] ['h', 'e', 'l', 'p'] false (OptionImpl.NameValueBool Ref.help)

/-- The option `-c` (`--count`) of `count_manager false`. -/
def option_c : OptionValueBase :=
  OptionValueBase.named ['c'] ['c', 'o', 'u', 'n', 't'] false (OptionImpl.NameValue Ty.uint (Ref.var 0))

/-- The option `-u` (`--uint`) of `test/main.cpp`. -/
def option_u : OptionValueBase :=
  OptionValueBase.named ['u'] ['u', 'i', 'n', 't'] false (OptionImpl.NameValue Ty.uint (Ref.var 2))

/-- The flag `-b` (`--bool`) of `test/main.cpp`. -/
def flag_b : OptionValueBase :=
  OptionValueBase.named ['b'] ['b', 'o', 'o', 'l'] false (OptionImpl.NameValueBool (Ref.var 4))

/-- A manager whose only registered option is `-c` (`--count`) with an unsigned value, bound to
the caller variable 0. -/
def count_manager (required : Bool) : ProgramOptionManager :=
  ProgramOptionManager.new.add_option_value ['c'] ['c', 'o', 'u', 'n', 't'] Ty.uint (Ref.var 0)
    required

/-- A manager whose only registered option is `-v` (`--vector`) with `count`
values of type `int`, bound to the caller variable 0. -/
def vector_manager (count : Nat) (required : Bool) : ProgramOptionManager :=
  ProgramOptionManager.new.add_option_vector ['v'] ['v', 'e', 'c', 't', 'o', 'r'] Ty.int
    (Ref.var 0) count required

/-- The registrations of `main` in `test/main.cpp`; the caller variables are
0 `count`, 1 `values`, 2 `l`, 3 `v`, 4 `b`, 5 `st`. -/
def demo_manager : ProgramOptionManager :=
  ((((((ProgramOptionManager.new.add_option_positional
    ['c', 'o', 'u', 'n', 't'] Ty.uint (Ref.var 0) true).add_option_dependent
    ['p', 'o', 's', '2'] Ty.string (Ref.var 1) (count_depends_on ['c', 'o', 'u', 'n', 't'])
      true).add_option_value
    ['u'] ['u', 'i', 'n', 't'] Ty.uint (Ref.var 2) false).add_option_vector
    ['v'] ['v', 'e', 'c', 't', 'o', 'r'] Ty.int (Ref.var 3) 3 false).add_option_flag
    ['b'] ['b', 'o', 'o', 'l'] (Ref.var 4) false).add_option_flag_value
    ['O'] ['O', 'N', 'E'] (Ref.var 5) (Scalar.int 1) false).add_option_flag_value
    ['T'] ['T', 'W', 'O'] (Ref.var 5) (Scalar.int 2) false

/-- The two flags `-O` (`--ONE`) and `-T` (`--TWO`) of `test/main.cpp`, both writing
the caller variable 0. -/
def flags_manager : ProgramOptionManager :=
  (ProgramOptionManager.new.add_option_flag_value
    ['O'] ['O', 'N', 'E'] (Ref.var 0) (Scalar.int 1) false).add_option_flag_value
    ['T'] ['T', 'W', 'O'] (Ref.var 0) (Scalar.int 2) false

/-- A manager whose only registered option has the short name `-`. -/
def dash_manager : ProgramOptionManager :=
  ProgramOptionManager.new.add_option_value ['-'] ['d', 'a', 's', 'h'] Ty.uint (Ref.var 0) false

/-- A manager whose only registered option is a required positional vector
of two strings, bound to the caller variable 0. -/
def pair_manager : ProgramOptionManager :=
  ProgramOptionManager.new.add_option_positional_vector ['p', 'a', 'i', 'r'] Ty.string
    (Ref.var 0) 2 true

/-- A manager with the option `-n` (`--num`) bound to the unsigned caller
variable 0 and a required positional vector of strings whose count depends on
`n`, bound to the caller variable 1. -/
def dependent_manager : ProgramOptionManager :=
  (ProgramOptionManager.new.add_option_value ['n'] ['n', 'u', 'm'] Ty.uint (Ref.var 0)
    false).add_option_dependent
    ['v', 'a', 'l', 's'] Ty.string (Ref.var 1) (count_depends_on ['n']) true

/-- A manager with one required option of each class that `process_arguments`
reports as missing: a single value, a vector, a flag, a flag with a value and
a single positional. -/
def required_manager : ProgramOptionManager :=
  ((((ProgramOptionManager.new.add_option_value ['c'] ['c', 'o', 'u', 'n', 't'] Ty.uint
    (Ref.var 0) true).add_option_vector
    ['v'] ['v', 'e', 'c', 't', 'o', 'r'] Ty.int (Ref.var 1) 3 true).add_option_flag
    ['b'] ['b', 'o', 'o', 'l'] (Ref.var 2) true).add_option_flag_value
    ['O'] ['O', 'N', 'E'] (Ref.var 3) (Scalar.int 1) true).add_option_positional
    ['f', 'i', 'l', 'e'] Ty.string (Ref.var 4) true

/-- The option `-v` (`--vector`) with `k` values of type `int`, bound to the
caller variable 0. -/
def option_v (k : Nat) : OptionValueBase :=
  OptionValueBase.named ['v'] ['v', 'e', 'c', 't', 'o', 'r'] false
    (OptionImpl.NameValueVector Ty.int (Ref.var 0) k)

/-- Continue with `f` after a normal result. -/
def Outcome.bind {α β : Type} (o : Outcome α) (f : α → Outcome β) : Outcome β :=
  match o with
  | Outcome.done a => f a
  | Outcome.undefined => Outcome.undefined
  | Outcome.unfinished => Outcome.unfinished

/-- The state in which `process_arguments` enters its loop over `opts_`: the
help flag is registered, `opts_` is sorted, `help` is false and `argvv` holds
the preprocessed arguments. -/
def ProgramOptionManager.start (m : ProgramOptionManager) (store : Store) (args : List Str) :
    State :=
  ⟨m.prepare.heap, store.set Ref.help (Val.scalar (Scalar.bool false)),
    preprocess m.prepare.heap m.prepare.opts_ args⟩

/-- Caller variables for a count and its values: variable 1 holds an empty
vector, every other one the unsigned value 0. -/
def count_and_values : Store := (const_store 0).set (Ref.var 1) (Val.vec [])

/-- A manager with a required positional `count` bound to the unsigned caller
variable 0 and a positional vector of strings that is not required and whose
exact count depends on `count`, bound to the caller variable 1. -/
def optional_values_manager : ProgramOptionManager :=
  (ProgramOptionManager.new.add_option_positional ['c', 'o', 'u', 'n', 't'] Ty.uint (Ref.var 0)
    true).add_option_dependent
    ['v', 'a', 'l', 's'] Ty.string (Ref.var 1) (count_depends_on ['c', 'o', 'u', 'n', 't']) false

/-- A manager whose only registered option is a positional vector of strings
with the fixed count 0, not required, bound to the caller variable 0. -/
def zero_arity_manager : ProgramOptionManager :=
  ProgramOptionManager.new.add_option_positional_vector ['l', 'i', 's', 't'] Ty.string
    (Ref.var 0) 0 false

/-- A manager with a positional vector of one `int`, bound to the caller
variable 0, and a single positional string, bound to the caller variable 1,
neither of them required. -/
def number_then_name_manager : ProgramOptionManager :=
  (ProgramOptionManager.new.add_option_positional_vector ['n', 'u', 'm'] Ty.int (Ref.var 0) 1
    false).add_option_positional ['n', 'a', 'm', 'e'] Ty.string (Ref.var 1) false

/-- A manager with the flag `-b` (`--bool`) bound to the caller variable 0 and a
required positional vector of strings whose count depends on `b`, bound to
the caller variable 1. -/
def flag_count_manager : ProgramOptionManager :=
  (ProgramOptionManager.new.add_option_flag ['b'] ['b', 'o', 'o', 'l'] (Ref.var 0)
    false).add_option_dependent
    ['v', 'a', 'l', 's'] Ty.string (Ref.var 1) (count_depends_on ['b']) true

/-- A manager with the flags `-O` (`--ONE`) and `-T` (`--TWO`), both writing the
caller variable 0, and between them in the sorted order the option `-P`
(`--PORT`) with an unsigned value, bound to the caller variable 1. -/
def shared_manager : ProgramOptionManager :=
  ((ProgramOptionManager.new.add_option_flag_value
    ['O'] ['O', 'N', 'E'] (Ref.var 0) (Scalar.int 1) false).add_option_value
    ['P'] ['P', 'O', 'R', 'T'] Ty.uint (Ref.var 1) false).add_option_flag_value
    ['T'] ['T', 'W', 'O'] (Ref.var 0) (Scalar.int 2) false

/-- A manager with the flag `-b` (`--bool`) bound to the caller variable 2, a
single positional `count` bound to the unsigned caller variable 0 and a single
positional `name` bound to the string caller variable 1. -/
def two_positionals_manager : ProgramOptionManager :=
  ((ProgramOptionManager.new.add_option_flag ['b'] ['b', 'o', 'o', 'l'] (Ref.var 2)
    false).add_option_positional ['c', 'o', 'u', 'n', 't'] Ty.uint (Ref.var 0)
    true).add_option_positional ['n', 'a', 'm', 'e'] Ty.string (Ref.var 1) true

/-- A manager with a single positional whose help name is `n`, bound to the
caller variable 2, and, registered after it, the option `-n` (`--num`) bound to
the caller variable 0. -/
def both_n_manager : ProgramOptionManager :=
  (ProgramOptionManager.new.add_option_positional ['n'] Ty.uint (Ref.var 2)
    true).add_option_value ['n'] ['n', 'u', 'm'] Ty.uint (Ref.var 0) false

/-- What two calls of `consume` on the same buffer, first of `a` and then of
`b`, leave behind: the two return values, the two objects, the caller's
variables and the token buffer. -/
structure PairResult where
  ret_a : Bool
  ret_b : Bool
  self_a : OptionValueBase
  self_b : OptionValueBase
  store : Store
  opts : program_option_type

/-- The same result with the roles of the two descriptors exchanged. -/
def PairResult.swap (r : PairResult) : PairResult :=
  ⟨r.ret_b, r.ret_a, r.self_b, r.self_a, r.store, r.opts⟩

/-- The calls `a.consume(opts)` and then `b.consume(opts)`. -/
def consume_both (heap : List OptionValueBase) (a b : OptionValueBase) (store : Store)
    (opts : program_option_type) : Outcome PairResult :=
  (a.consume heap store opts).bind (fun ra =>
    (b.consume heap ra.store ra.opts).map (fun rb =>
      ⟨ra.ret, rb.ret, ra.self, rb.self, rb.store, rb.opts⟩))

/-- A manager with the option `-a` (`--all`) with an unsigned value, bound to the
caller variable 2, and the flag `-b` (`--bool`), bound to the caller variable 4:
the option sorts in front of the flag. -/
def value_first_manager : ProgramOptionManager :=
  (ProgramOptionManager.new.add_option_value ['a'] ['a', 'l', 'l'] Ty.uint (Ref.var 2)
    false).add_option_flag ['b'] ['b', 'o', 'o', 'l'] (Ref.var 4) false

/-- The same manager with the option called `-u` (`--uint`): the flag sorts in
front of the option. -/
def flag_first_manager : ProgramOptionManager :=
  (ProgramOptionManager.new.add_option_value ['u'] ['u', 'i', 'n', 't'] Ty.uint (Ref.var 2)
    false).add_option_flag ['b'] ['b', 'o', 'o', 'l'] (Ref.var 4) false

/-- Three flags for the comparison `sln_sort`: `-b` (`--x`), a flag with the long
name `--y` and no short name, and `-a` (`--z`). -/
def sort_b_x : OptionValueBase :=
  OptionValueBase.named ['b'] ['x'] false (OptionImpl.NameValueBool (Ref.var 0))

/-- The flag `--y`, without a short name. -/
def sort_y : OptionValueBase :=
  OptionValueBase.named [] ['y'] false (OptionImpl.NameValueBool (Ref.var 1))

/-- The flag `-a` (`--z`). -/
def sort_a_z : OptionValueBase :=
  OptionValueBase.named ['a'] ['z'] false (OptionImpl.NameValueBool (Ref.var 2))

/-- The positional vector of two strings of `pair_manager`. -/
def pair_option : OptionValueBase :=
  OptionValueBase.positional ['p', 'a', 'i', 'r'] true
    (OptionImpl.PositionalValueVector Ty.string (Ref.var 0) 0 false 2 none)

/-! ## Predicates used by the properties -/

/-- Whether a descriptor is of one of the four named classes (it then lives
in `opts_`); the two positional classes live in `positionals_`. -/
def OptionValueBase.is_named (self : OptionValueBase) : Bool :=
  match self.impl with
  | OptionImpl.NameValue _ _ => true
  | OptionImpl.NameValueVector _ _ _ => true
  | OptionImpl.NameValueBool _ => true
  | OptionImpl.FlagValue _ _ => true
  | OptionImpl.PositionalValue _ _ => false
  | OptionImpl.PositionalValueVector _ _ _ _ _ _ => false

/-- Whether a descriptor is a `PositionalValue<std::vector<T>>`. -/
def OptionValueBase.is_positional_vector (self : OptionValueBase) : Bool :=
  match self.impl with
  | OptionImpl.PositionalValueVector _ _ _ _ _ _ => true
  | _ => false

/-- The destination variable a descriptor is bound to. -/
def OptionValueBase.value_ (self : OptionValueBase) : Ref :=
  match self.impl with
  | OptionImpl.NameValue _ r => r
  | OptionImpl.NameValueVector _ r _ => r
  | OptionImpl.NameValueBool r => r
  | OptionImpl.FlagValue r _ => r
  | OptionImpl.PositionalValue _ r => r
  | OptionImpl.PositionalValueVector _ r _ _ _ _ => r

/-- The pointer `count_dependent_` of a descriptor that has one. -/
def OptionValueBase.dependent (self : OptionValueBase) : Option Nat :=
  match self.impl with
  | OptionImpl.PositionalValueVector _ _ _ _ _ q => q
  | _ => none

/-- A rest of a token that does not start with a digit. -/
def no_digit_head (rest : Str) : Prop := ∀ c tl, rest = c :: tl → isdigit c = false

/-- A token that is not empty, holds no white space and does not begin with
`-`. -/
def plain_token (t : Str) : Bool :=
  !t.isEmpty && t.all (fun c => !isspace c) && front t != '-'

/-- The tokens of the C3 scenario: plain, and matched by no named option of
the demonstration program. -/
def demo_free (t : Str) : Prop :=
  plain_token t = true
    ∧ ∀ d ∈ demo_manager.prepare.heap, d.is_named = true → d.name_match t = false

/-- The descriptor `d1` is `d` after some calls of its `consume`: the names,
the flags other than `consumed_`, the destination and the dependency are
those of `d`, and so are all class members unless `d` is a positional vector
(whose `count_` and `max_count_` change). -/
def same_option (d d1 : OptionValueBase) : Prop :=
  d1.short_name_ = d.short_name_ ∧ d1.long_name_ = d.long_name_ ∧ d1.help_name_ = d.help_name_
    ∧ d1.required_ = d.required_ ∧ d1.value_ = d.value_ ∧ d1.is_named = d.is_named
    ∧ d1.dependent = d.dependent ∧ d1.is_positional_vector = d.is_positional_vector
    ∧ (d.is_positional_vector = false → d1.impl = d.impl)

/-- What a call `d.consume` with result `r` does to its surroundings: tokens
are only removed (`sub`); a token that begins with `-` and, for a named
descriptor, is not matched by it stays (`keep`); only the destination of `d`
is written (`frame`); `d` keeps its identity (`same`). -/
structure Effect (d : OptionValueBase) (store : Store) (opts : program_option_type)
    (r : ConsumeResult) : Prop where
  sub : ∀ t ∈ r.opts, t ∈ opts
  keep : ∀ t ∈ opts, front t = '-' → (d.is_named = true → d.name_match t = false) → t ∈ r.opts
  frame : ∀ q, q ≠ d.value_ → r.store q = store q
  same : same_option d r.self

/-- The effect of the `consume` of a named descriptor with destination
`value_`, in terms of its loop: tokens are only removed, a token that begins
with `-` and does not match stays, only `value_` is written, and the object
changes at most in `consumed_`. -/
def NamedEffect (self : OptionValueBase) (value_ : Ref) (store : Store)
    (opts : program_option_type) (r : ConsumeResult) : Prop :=
  (∀ t ∈ r.opts, t ∈ opts)
    ∧ (∀ t ∈ opts, front t = '-' → self.name_match t = false → t ∈ r.opts)
    ∧ (∀ q, q ≠ value_ → r.store q = store q)
    ∧ (r.self = self ∨ r.self = { self with consumed_ := true })

/-- The heap of `process_arguments` as the help flag needs it, `n` being the
pointer of the help flag: no other named descriptor is matched by the token
`-h`, no other descriptor writes the local `help`, and the object at `n` is
the help flag. -/
def help_heap (n : Nat) (heap : List OptionValueBase) : Prop :=
  (∀ q d, heap[q]? = some d → q ≠ n →
      (d.is_named = true → d.name_match ['-', 'h'] = false) ∧ d.value_ ≠ Ref.help)
    ∧ ∃ d, heap[n]? = some d ∧ same_option help_option d

/-- The token buffer holds nothing for the descriptor `d`: no token that a
named `d` matches, no token without a leading `-` for a positional `d`. -/
def omitted (d : OptionValueBase) (argvv : program_option_type) : Prop :=
  (d.is_named = true → ∀ t ∈ argvv, d.name_match t = false)
    ∧ (d.is_named = false → ∀ t ∈ argvv, front t = '-')

/-- Every `count_dependent_` pointer of the heap points into the heap. -/
def dependents_valid (heap : List OptionValueBase) : Prop :=
  ∀ d ∈ heap, ∀ q, d.dependent = some q → q < heap.length

/-- The pointers of a manager point to descriptors it owns. -/
def ProgramOptionManager.valid (m : ProgramOptionManager) : Prop :=
  (∀ p ∈ m.opts_, p < m.heap.length) ∧ (∀ p ∈ m.positionals_, p < m.heap.length)
    ∧ dependents_valid m.heap

/-- The token `t` is a well-formed value of type `ty` that does not begin with
`-`: the extraction of the vector loops passes the test of the stream state
and leaves `v` in the temporary. -/
def reads (ty : Ty) (t : Str) (v : Scalar) : Prop :=
  front t ≠ '-' ∧ (extract ty t).bad = false ∧ extracted_tmp ty (extract ty t) = v

/-- No `consume` of a named descriptor returned false: the loop of
`process_arguments` over `opts_` ran to its end. -/
def named_phase_ok (m : ProgramOptionManager) (store : Store) (args : List Str) : Prop :=
  ∃ st1, consume_named m.prepare.opts_ (m.start store args) = Outcome.done (true, st1)

/-- Every descriptor reached through the pointers `ps` that is required is
consumed. -/
def all_required_consumed (heap : List OptionValueBase) (ps : List Nat) : Prop :=
  ∀ p ∈ ps, ∀ d, heap[p]? = some d → d.required_ = true → d.consumed_ = true

/-- The pointers `ps` point to single positionals whose value types and
destinations are `xs`, in this order. -/
def single_positionals (heap : List OptionValueBase) (ps : List Nat) (xs : List (Ty × Ref)) :
    Prop :=
  List.Forall₂ (fun p x => ∃ d, heap[p]? = some d ∧ d.impl = OptionImpl.PositionalValue x.1 x.2)
    ps xs

/-- The statements `ssin >> value_.get()` of single positionals with the value
types and destinations `xs` that take the tokens `ts`, one each and in this
order. -/
def assign_each (store : Store) : List (Ty × Ref) → List Str → Store
  | x :: xs, t :: ts => assign_each ((extract x.1 t).assign store x.2) xs ts
  | _, _ => store

/-- The test of the first search loop of the dependent `add_option`: the
short or the long name of `d` is `name`. -/
def named_as (name : Str) (d : OptionValueBase) : Bool :=
  name == d.short_name_ || name == d.long_name_

/-- The test of the second search loop of the dependent `add_option`: the
help name of `d` is `name`. -/
def helped_as (name : Str) (d : OptionValueBase) : Bool :=
  name == d.help_name_

/-- The pointer `q` is the first of `ptrs` whose descriptor satisfies `P`. -/
def first_pointer (heap : List OptionValueBase) (P : OptionValueBase → Bool) (ptrs : List Nat)
    (q : Nat) : Prop :=
  ∃ l1 l2 d, ptrs = l1 ++ q :: l2 ∧ heap[q]? = some d ∧ P d = true
    ∧ ∀ p ∈ l1, ∀ e, heap[p]? = some e → P e = false

/-- No descriptor reached through `ptrs` satisfies `P`. -/
def no_pointer (heap : List OptionValueBase) (P : OptionValueBase → Bool) (ptrs : List Nat) :
    Prop :=
  ∀ p ∈ ptrs, ∀ e, heap[p]? = some e → P e = false

/-- The descriptor that the dependent `add_option` makes once it has bound
the target `q`. -/
def dependent_vector (help_name : Str) (ty : Ty) (value : Ref) (opt : CountDependentOption)
    (required : Bool) (q : Nat) : OptionValueBase :=
  OptionValueBase.positional help_name required
    (OptionImpl.PositionalValueVector ty value 0 opt.force_exact_count 0 (some q))

/-- Whether a descriptor is a flag: a `NameValue<bool>` or a `FlagValue<T>`. -/
def OptionValueBase.is_flag (self : OptionValueBase) : Bool :=
  match self.impl with
  | OptionImpl.NameValueBool _ => true
  | OptionImpl.FlagValue _ _ => true
  | _ => false

/-- Whether a descriptor is a named option that takes at most one value: a
`NameValue<T>` for a `T` other than a vector, or a flag. -/
def OptionValueBase.is_single (self : OptionValueBase) : Bool :=
  match self.impl with
  | OptionImpl.NameValue _ _ => true
  | OptionImpl.NameValueBool _ => true
  | OptionImpl.FlagValue _ _ => true
  | _ => false

/-- In the buffer `opts` the token that follows the first token matched by
`a` is not matched by `b`. -/
def next_free (a b : OptionValueBase) (opts : program_option_type) : Prop :=
  ∀ pre it next after, opts = pre ++ it :: next :: after →
    (∀ t ∈ pre, a.name_match t = false) → a.name_match it = true → b.name_match next = false

/-- The split condition in the words of the specification: the argument has
more than two characters, begins with `-`, its second character is not `-`,
and that second character is the short name of some registered named
descriptor. -/
def spec_splits (heap : List OptionValueBase) (opts_ : List Nat) : Str → Bool
  | c0 :: c1 :: _ :: _ =>
    c0 == '-' && c1 != '-' && opts_.any (fun p => match heap[p]? with
      | some d => d.short_name_ == [c1]
      | none => false)
  | _ => false

/-- The tokens of one argument in the words of the specification: its first
two characters and the rest when it is split, the argument itself
otherwise. -/
def spec_tokens (heap : List OptionValueBase) (opts_ : List Nat) (arg : Str) : List Str :=
  if spec_splits heap opts_ arg then [arg.take 2, arg.drop 2] else [arg]

/-- The token buffer in the words of the specification: the tokens of the
arguments, in argument order. -/
def spec_preprocess (heap : List OptionValueBase) (opts_ : List Nat) : List Str → List Str
  | [] => []
  | arg :: args => spec_tokens heap opts_ arg ++ spec_preprocess heap opts_ args

/-- The tokens of a buffer that do not begin with `-`, in buffer order. -/
def non_flag (opts : program_option_type) : program_option_type :=
  opts.filter (fun t => front t != '-')

/-- The variable `ref` holds a vector whose size is a multiple of `k`. -/
def holds_multiple (store : Store) (ref : Ref) (k : Nat) : Prop :=
  ∃ vals j, store ref = Val.vec vals ∧ vals.length = j * k

/-- Among the descriptors reached through `ps` only fixed-arity vector
options of arity `k` are bound to the variable `ref`. -/
def only_vectors (heap : List OptionValueBase) (ps : List Nat) (ref : Ref) (k : Nat) : Prop :=
  ∀ p ∈ ps, ∀ d, heap[p]? = some d →
    (∃ ty, d.impl = OptionImpl.NameValueVector ty ref k) ∨ d.value_ ≠ ref

/-- No descriptor reached through `ps` is bound to the variable `ref`. -/
def not_bound (heap : List OptionValueBase) (ps : List Nat) (ref : Ref) : Prop :=
  ∀ p ∈ ps, ∀ d, heap[p]? = some d → d.value_ ≠ ref

/-- Every dependent positional of `positionals_` is bound to a target that is
in `opts_` or stands in front of it in `positionals_`. -/
def dependency_ordered (m : ProgramOptionManager) : Prop :=
  ∀ l1 p l2 d q, m.positionals_ = l1 ++ p :: l2 → m.heap[p]? = some d → d.dependent = some q →
    q ∈ m.opts_ ∨ q ∈ l1

/-- The dependency ordering invariant of a manager whose pointers are
valid. -/
def ProgramOptionManager.ordered (m : ProgramOptionManager) : Prop :=
  m.valid ∧ dependency_ordered m

/-- The short name of the descriptor the pointer `p` points to (empty when it
points to none). -/
def short_name_at (heap : List OptionValueBase) (p : Nat) : Str :=
  match heap[p]? with
  | some d => d.short_name_
  | none => []

/-- The descriptors reached through `ps` all have a short name, no two of them
the same one: `sln_sort` then compares short names only and is a strict total
order on `ps`, so that `std::sort` has one possible result. -/
def distinct_short_names (heap : List OptionValueBase) (ps : List Nat) : Prop :=
  [] ∉ ps.map (short_name_at heap) ∧ (ps.map (short_name_at heap)).Nodup

/-- Among the descriptors reached through `ps` only the one at `q` is matched
by the token `t`. -/
def only_match (heap : List OptionValueBase) (ps : List Nat) (q : Nat) (t : Str) : Prop :=
  ∀ p ∈ ps, p ≠ q → ∀ d, heap[p]? = some d → d.name_match t = false

/-- Every descriptor reached through `ps`, other than the one at `q`, that is
bound to the variable `ref` has a short name smaller than that of `q`. -/
def sorts_last (heap : List OptionValueBase) (ps : List Nat) (q : Nat) (ref : Ref) : Prop :=
  ∀ p ∈ ps, p ≠ q → ∀ d, heap[p]? = some d → d.value_ = ref →
    str_lt d.short_name_ (short_name_at heap q) = true


/-! ## Properties

### Characters, numerals and stream extraction -/

theorem digitChar_spec (d : Nat) (h : d < 10) :
    isdigit (Nat.digitChar d) = true ∧ digit_value (Nat.digitChar d) = d := by
  interval_cases d <;> decide

theorem isdigit_toNat {c : Char} (h : isdigit c = true) : 48 ≤ c.toNat ∧ c.toNat ≤ 57 := by
  simpa [isdigit] using h

theorem isdigit_not_space {c : Char} (h : isdigit c = true) : isspace c = false := by
  have h1 := isdigit_toNat h
  simp only [isspace, Bool.or_eq_false_iff, beq_eq_false_iff_ne, ne_eq]
  refine ⟨⟨⟨⟨⟨?_, ?_⟩, ?_⟩, ?_⟩, ?_⟩, ?_⟩
  · rintro rfl; revert h1; decide
  · rintro rfl; revert h1; decide
  · rintro rfl; revert h1; decide
  · rintro rfl; revert h1; decide
  · omega
  · omega

theorem isdigit_ne_minus {c : Char} (h : isdigit c = true) : c ≠ '-' := by
  rintro rfl; revert h; decide

theorem isdigit_ne_plus {c : Char} (h : isdigit c = true) : c ≠ '+' := by
  rintro rfl; revert h; decide

theorem decimal_unfold (n : Nat) :
    decimal n
      = if n < 10 then [Nat.digitChar n] else decimal (n / 10) ++ [Nat.digitChar (n % 10)] := by
  rw [decimal]

theorem decimal_digits (n : Nat) : ∀ c ∈ decimal n, isdigit c = true := by
  induction n using Nat.strong_induction_on with
  | _ n ih =>
    rw [decimal_unfold]
    split
    · intro c hc
      simp only [List.mem_singleton] at hc
      subst hc
      exact (digitChar_spec n (by assumption)).1
    · intro c hc
      rw [List.mem_append] at hc
      rcases hc with hc | hc
      · exact ih (n / 10) (by omega) c hc
      · simp only [List.mem_singleton] at hc
        subst hc
        exact (digitChar_spec (n % 10) (by omega)).1

theorem decimal_ne_nil (n : Nat) : decimal n ≠ [] := by
  rw [decimal_unfold]
  split <;> simp

theorem digits_value_append (ds : List Char) (c : Char) :
    digits_value (ds ++ [c]) = 10 * digits_value ds + digit_value c := by
  simp [digits_value, List.foldl_append]

theorem digits_value_decimal (n : Nat) : digits_value (decimal n) = n := by
  induction n using Nat.strong_induction_on with
  | _ n ih =>
    rw [decimal_unfold]
    split
    · simp [digits_value, (digitChar_spec n (by assumption)).2]
    · rw [digits_value_append, ih (n / 10) (by omega), (digitChar_spec (n % 10) (by omega)).2]
      omega

theorem takeWhile_digits (ds rest : Str) (hds : ∀ c ∈ ds, isdigit c = true)
    (hrest : no_digit_head rest) : (ds ++ rest).takeWhile isdigit = ds := by
  induction ds with
  | nil =>
    cases rest with
    | nil => rfl
    | cons c tl => simp [List.takeWhile, hrest c tl rfl]
  | cons d ds ih =>
    rw [List.cons_append, List.takeWhile_cons, hds d (List.mem_cons_self _ _),
      ih (fun c hc => hds c (List.mem_cons_of_mem _ hc))]
    rfl

theorem dropWhile_digits (ds rest : Str) (hds : ∀ c ∈ ds, isdigit c = true)
    (hrest : no_digit_head rest) : (ds ++ rest).dropWhile isdigit = rest := by
  induction ds with
  | nil =>
    cases rest with
    | nil => rfl
    | cons c tl => simp [List.dropWhile, hrest c tl rfl]
  | cons d ds ih =>
    rw [List.cons_append, List.dropWhile_cons, hds d (List.mem_cons_self _ _)]
    exact ih (fun c hc => hds c (List.mem_cons_of_mem _ hc))

theorem read_sign_of_ne (c : Char) (cs : Str) (h1 : c ≠ '-') (h2 : c ≠ '+') :
    read_sign (c :: cs) = (false, c :: cs) := by
  unfold read_sign
  split
  · rename_i heq; cases heq; exact absurd rfl h1
  · rename_i heq; cases heq; exact absurd rfl h2
  · rfl

/-- Extraction of an `unsigned int` from a run of digits followed by
something that is no digit: the run is converted, failbit stays clear, and
eofbit is set exactly when nothing follows. -/
theorem extract_uint_digits (ds rest : Str) (hds : ∀ c ∈ ds, isdigit c = true) (hne : ds ≠ [])
    (hrest : no_digit_head rest) (hmax : digits_value ds ≤ UINT_MAX) :
    extract_uint (ds ++ rest) = ⟨some (Scalar.uint (digits_value ds)), false, rest.isEmpty⟩ := by
  obtain ⟨d, ds1, rfl⟩ := List.exists_cons_of_ne_nil hne
  have hd := hds d (List.mem_cons_self _ _)
  have hsp : (d :: ds1 ++ rest).dropWhile isspace = d :: ds1 ++ rest := by
    simp [List.dropWhile, isdigit_not_space hd]
  have hsg : read_sign (d :: ds1 ++ rest) = (false, d :: ds1 ++ rest) :=
    read_sign_of_ne d (ds1 ++ rest) (isdigit_ne_minus hd) (isdigit_ne_plus hd)
  unfold extract_uint
  simp only [hsp, hsg, takeWhile_digits _ _ hds hrest, dropWhile_digits _ _ hds hrest]
  simp [Nat.not_lt.mpr hmax]

theorem extract_uint_decimal (n : Nat) (hn : n ≤ UINT_MAX) :
    extract Ty.uint (decimal n) = ⟨some (Scalar.uint n), false, true⟩ := by
  have h := extract_uint_digits (decimal n) [] (decimal_digits n) (decimal_ne_nil n)
    (fun c tl hc => by cases hc) (by rw [digits_value_decimal]; exact hn)
  rw [List.append_nil, digits_value_decimal] at h
  exact h

theorem front_of_digits {ds : Str} (hds : ∀ c ∈ ds, isdigit c = true) :
    (front ds == '-') = false := by
  cases ds with
  | nil => decide
  | cons d ds1 =>
    simp only [front, List.headD_cons, beq_eq_false_iff_ne, ne_eq]
    exact isdigit_ne_minus (hds d (List.mem_cons_self _ _))

theorem front_decimal (n : Nat) : (front (decimal n) == '-') = false :=
  front_of_digits (decimal_digits n)

/-! ### The token preprocessor -/

theorem splits_of_front {heap : List OptionValueBase} {opts_ : List Nat} {arg : Str}
    (h : (front arg == '-') = false) : splits heap opts_ arg = false := by
  unfold splits
  rw [List.any_eq_false]
  intro p _
  cases heap[p]? with
  | none => simp
  | some d => simp [OptionValueBase.match_short_name, h]

/-! ### C1: round trip of a single value -/

theorem count_prepare (required : Bool) :
    (count_manager required).prepare =
      ⟨[OptionValueBase.named ['c'] ['c', 'o', 'u', 'n', 't'] required
          (OptionImpl.NameValue Ty.uint (Ref.var 0)),
        OptionValueBase.named ['h'] ['h', 'e', 'l', 'p'] false (OptionImpl.NameValueBool Ref.help)],
       [0, 1], []⟩ := by
  rfl

/-- C1: with `-c` (`--count`) bound to an unsigned variable as the only
registered option, `process_arguments` on `["-c", decimal(n)]` returns 1,
leaves `n` in the variable and leaves the token buffer empty, for every `n`
that fits an `unsigned int`. -/
theorem C1_round_trip (required : Bool) (store : Store) (n : Nat) (hn : n ≤ UINT_MAX) :
    ∃ r, (count_manager required).process_arguments store [['-', 'c'], decimal n] = Outcome.done r
      ∧ r.retval = 1 ∧ r.store (Ref.var 0) = Val.scalar (Scalar.uint n) ∧ r.argvv = [] := by
  have hpre : preprocess (count_manager required).prepare.heap
      (count_manager required).prepare.opts_ [['-', 'c'], decimal n]
        = [['-', 'c'], decimal n] := by
    rw [count_prepare]
    simp only [preprocess, List.foldl, back_insert_args, splits_of_front (front_decimal n)]
    rfl
  unfold ProgramOptionManager.process_arguments
  simp only [hpre]
  rw [count_prepare]
  simp [consume_named, consume_at, OptionValueBase.consume, NameValue.consume,
    OptionValueBase.named, OptionValueBase.name_match, substr, front_decimal,
    extract_uint_decimal n hn, Extracted.bad, Flag.consume, consume_positionals, finish,
    Extracted.assign, Store.set, check_required, first_missing]

theorem decimal_five : decimal 5 = ['5'] := by
  rw [decimal_unfold]; decide

/-- C1 at `["-c", "5"]` with `count` initially 0: the result is 1, `count == 5`
and nothing is left over. -/
theorem C1_round_trip_witness :
    (5 ≤ UINT_MAX) ∧
    ∃ r, (count_manager false).process_arguments (const_store 0) [['-', 'c'], ['5']]
        = Outcome.done r
      ∧ r.retval = 1 ∧ r.store (Ref.var 0) = Val.scalar (Scalar.uint 5) ∧ r.argvv = [] := by
  have h := C1_round_trip false (const_store 0) 5 (by decide)
  rw [decimal_five] at h
  exact ⟨by decide, h⟩


/-! ### Descriptors that find no matching token -/

theorem set_of_get {α : Type} (l : List α) (p : Nat) (d : α) (h : l[p]? = some d) :
    l.set p d = l := by
  induction l generalizing p with
  | nil => rfl
  | cons a l ih =>
    cases p with
    | zero => simp at h; simp [h]
    | succ p => simp at h; simp [ih p (by simpa using h)]

theorem NameValue_consume_no_match (self : OptionValueBase) (ty : Ty) (value_ : Ref)
    (store : Store) (pre suf : program_option_type)
    (h : ∀ t ∈ suf, self.name_match t = false) :
    NameValue.consume self ty value_ store pre suf = ⟨true, self, store, pre ++ suf⟩ := by
  induction suf generalizing pre with
  | nil => simp [NameValue.consume]
  | cons it rest ih =>
    have hit := h it (List.mem_cons_self _ _)
    simp only [NameValue.consume, hit, Bool.false_eq_true, if_false]
    rw [ih (pre ++ [it]) (fun t ht => h t (List.mem_cons_of_mem _ ht))]
    simp

theorem Flag_consume_no_match (self : OptionValueBase) (value_ : Ref) (v : Scalar)
    (store : Store) (pre suf : program_option_type)
    (h : ∀ t ∈ suf, self.name_match t = false) :
    Flag.consume self value_ v store pre suf = ⟨true, self, store, pre ++ suf⟩ := by
  induction suf generalizing pre with
  | nil => simp [Flag.consume]
  | cons it rest ih =>
    have hit := h it (List.mem_cons_self _ _)
    simp only [Flag.consume, hit, Bool.false_eq_true, if_false]
    rw [ih (pre ++ [it]) (fun t ht => h t (List.mem_cons_of_mem _ ht))]
    simp

theorem NameValueVector_scan_no_match (ty : Ty) (value_ : Ref) (max_count_ : Nat)
    (restart : OptionValueBase → Store → program_option_type → Outcome ConsumeResult)
    (self : OptionValueBase) (store : Store) (pre suf : program_option_type)
    (h : ∀ t ∈ suf, self.name_match t = false) :
    NameValueVector.scan ty value_ max_count_ restart self store pre suf
      = Outcome.done ⟨true, self, store, pre ++ suf⟩ := by
  induction suf generalizing pre with
  | nil => simp [NameValueVector.scan]
  | cons it rest ih =>
    have hit := h it (List.mem_cons_self _ _)
    simp only [NameValueVector.scan, hit, Bool.false_eq_true, if_false]
    rw [ih (pre ++ [it]) (fun t ht => h t (List.mem_cons_of_mem _ ht))]
    simp

theorem NameValueVector_consume_no_match (self : OptionValueBase) (ty : Ty) (value_ : Ref)
    (max_count_ : Nat) (store : Store) (opts : program_option_type)
    (h : ∀ t ∈ opts, self.name_match t = false) :
    NameValueVector.consume self ty value_ max_count_ store opts
      = Outcome.done ⟨true, self, store, opts⟩ := by
  rw [NameValueVector.consume, NameValueVector.loop, NameValueVector_scan_no_match _ _ _ _ _ _ _ _ h]
  simp

/-- A named descriptor none of whose tokens match returns true and changes
nothing. -/
theorem consume_no_match (heap : List OptionValueBase) (d : OptionValueBase) (store : Store)
    (opts : program_option_type) (hd : d.is_named = true)
    (h : ∀ t ∈ opts, d.name_match t = false) :
    d.consume heap store opts = Outcome.done ⟨true, d, store, opts⟩ := by
  unfold OptionValueBase.consume
  unfold OptionValueBase.is_named at hd
  split
  · rw [NameValue_consume_no_match _ _ _ _ _ _ h]; simp
  · exact NameValueVector_consume_no_match _ _ _ _ _ _ h
  · rw [Flag_consume_no_match _ _ _ _ _ _ h]; simp
  · rw [Flag_consume_no_match _ _ _ _ _ _ h]; simp
  · rename_i heq; rw [heq] at hd; cases hd
  · rename_i heq; rw [heq] at hd; cases hd

theorem consume_at_no_match (p : Nat) (heap : List OptionValueBase) (store : Store)
    (argvv : program_option_type) (d : OptionValueBase) (hp : heap[p]? = some d)
    (hd : d.is_named = true) (h : ∀ t ∈ argvv, d.name_match t = false) :
    consume_at p ⟨heap, store, argvv⟩ = Outcome.done (true, ⟨heap, store, argvv⟩) := by
  simp only [consume_at, hp, consume_no_match heap d store argvv hd h, set_of_get heap p d hp]

theorem consume_named_no_match (ps : List Nat) (heap : List OptionValueBase) (store : Store)
    (argvv : program_option_type)
    (h : ∀ p ∈ ps, ∃ d, heap[p]? = some d ∧ d.is_named = true
      ∧ ∀ t ∈ argvv, d.name_match t = false) :
    consume_named ps ⟨heap, store, argvv⟩ = Outcome.done (true, ⟨heap, store, argvv⟩) := by
  induction ps with
  | nil => rfl
  | cons p ps ih =>
    obtain ⟨d, hp, hd, hm⟩ := h p (List.mem_cons_self _ _)
    rw [consume_named, consume_at_no_match p heap store argvv d hp hd hm]
    simp only [if_true]
    exact ih (fun q hq => h q (List.mem_cons_of_mem _ hq))


/-! ### Positional vectors over plain tokens -/

theorem swap_at_self (v : program_option_type) (i : Nat) : swap_at v i i = v := by
  unfold swap_at
  rw [List.set_set]
  by_cases h : i < v.length
  · exact set_of_get v i _ (by simp [List.getD, h])
  · exact List.set_eq_of_length_le (Nat.le_of_not_lt h)

theorem plain_token_spec {t : Str} (h : plain_token t = true) :
    t ≠ [] ∧ (∀ c ∈ t, isspace c = false) ∧ (front t != '-') = true := by
  simp only [plain_token, Bool.and_eq_true, Bool.not_eq_true', List.isEmpty_eq_false,
    List.all_eq_true] at h
  exact ⟨h.1.1, by simpa using h.1.2, h.2⟩

theorem takeWhile_all {α : Type} (p : α → Bool) (l : List α) (h : ∀ a ∈ l, p a = true) :
    l.takeWhile p = l := by
  induction l with
  | nil => rfl
  | cons a l ih =>
    rw [List.takeWhile_cons, h a (List.mem_cons_self _ _), if_pos rfl,
      ih (fun b hb => h b (List.mem_cons_of_mem _ hb))]

theorem dropWhile_all {α : Type} (p : α → Bool) (l : List α) (h : ∀ a ∈ l, p a = true) :
    l.dropWhile p = [] := by
  induction l with
  | nil => rfl
  | cons a l ih =>
    rw [List.dropWhile_cons, h a (List.mem_cons_self _ _), if_pos rfl]
    exact ih (fun b hb => h b (List.mem_cons_of_mem _ hb))

/-- Extraction of a `std::string` from a plain token takes the whole token. -/
theorem extract_string_plain {t : Str} (h : plain_token t = true) :
    extract Ty.string t = ⟨some (Scalar.str t), false, true⟩ := by
  obtain ⟨hne, hsp, _⟩ := plain_token_spec h
  obtain ⟨c, cs, rfl⟩ := List.exists_cons_of_ne_nil hne
  have h1 : (c :: cs).dropWhile isspace = c :: cs := by
    rw [List.dropWhile_cons, hsp c (List.mem_cons_self _ _)]; rfl
  have h2 : ∀ a ∈ c :: cs, (fun c => !isspace c) a = true := fun a ha => by simp [hsp a ha]
  simp only [extract, extract_string, h1, takeWhile_all _ _ h2, dropWhile_all _ _ h2]
  rfl

theorem push_all_append (s : Store) (r : Ref) (xs : List Scalar) (x : Scalar) :
    s.push_all r (xs ++ [x]) = (s.push_all r xs).push_back r x := by
  simp [Store.push_all, List.foldl_append]

theorem push_all_cons (s : Store) (r : Ref) (xs : List Scalar) (x : Scalar) :
    s.push_all r (x :: xs) = (s.push_back r x).push_all r xs := rfl

/-- The scan of a positional vector of strings over plain tokens: it takes
the first `max_count_ - count_` of them, in order, and swaps nothing. -/
theorem PositionalValueVector_scan_plain (value_ : Ref) (max_count_ : Nat)
    (ts : program_option_type) (hts : ∀ t ∈ ts, plain_token t = true) :
    ∀ (count_ : Nat) (store : Store) (scanned : program_option_type),
      PositionalValueVector.scan Ty.string value_ max_count_ count_ scanned.length store scanned ts
        = Outcome.done ⟨count_ + min ts.length (max_count_ - count_),
            scanned.length + min ts.length (max_count_ - count_), true,
            store.push_all value_ ((ts.take (max_count_ - count_)).map Scalar.str),
            scanned ++ ts⟩ := by
  induction ts with
  | nil => intro count_ store scanned; simp [PositionalValueVector.scan, Store.push_all]
  | cons t ts ih =>
    intro count_ store scanned
    have ht := hts t (List.mem_cons_self _ _)
    have hf := (plain_token_spec ht).2.2
    by_cases hc : count_ < max_count_
    · have hstep := ih (fun u hu => hts u (List.mem_cons_of_mem _ hu)) (count_ + 1)
        (store.push_back value_ (Scalar.str t)) (scanned ++ [t])
      simp only [PositionalValueVector.scan, hc, if_true, hf, extract_string_plain ht,
        Extracted.bad, extracted_tmp, Bool.not_true, Bool.and_false, Bool.not_false,
        Bool.false_and, Bool.false_eq_true, if_false, swap_at_self]
      have hl : (scanned ++ [t]).length = scanned.length + 1 := by simp
      rw [hl] at hstep
      rw [hstep]
      obtain ⟨k, hk⟩ : ∃ k, max_count_ - count_ = k + 1 := ⟨max_count_ - count_ - 1, by omega⟩
      have hk2 : max_count_ - (count_ + 1) = k := by omega
      simp only [hk, hk2, List.take_succ_cons, List.map_cons, push_all_cons, List.length_cons,
        List.append_assoc, List.singleton_append]
      congr 2 <;> omega
    · have hz : max_count_ - count_ = 0 := by omega
      simp [PositionalValueVector.scan, hc, hz, Store.push_all]


/-! ### C3: dependent arity in the demonstration program -/

theorem foldl_back_insert (heap : List OptionValueBase) (opts_ : List Nat) (args : List Str)
    (h : ∀ a ∈ args, (front a == '-') = false) (acc : program_option_type) :
    args.foldl (back_insert_args heap opts_) acc = acc ++ args := by
  induction args generalizing acc with
  | nil => simp
  | cons a args ih =>
    rw [List.foldl_cons, back_insert_args, splits_of_front (h a (List.mem_cons_self _ _)),
      if_neg (by simp), ih (fun b hb => h b (List.mem_cons_of_mem _ hb))]
    simp

/-- Arguments that do not begin with `-` pass the preprocessor unchanged. -/
theorem preprocess_plain (heap : List OptionValueBase) (opts_ : List Nat) (args : List Str)
    (h : ∀ a ∈ args, (front a == '-') = false) : preprocess heap opts_ args = args := by
  rw [preprocess, foldl_back_insert heap opts_ args h]; rfl

/-- A token made of digits matches no descriptor whose names are not empty
and do not start with a digit. -/
theorem name_match_digits (d : OptionValueBase) (t : Str) (ht : ∀ c ∈ t, isdigit c = true)
    (hs : ∀ c ∈ d.short_name_, isdigit c = false) (hs0 : d.short_name_ ≠ [])
    (hl : ∀ c ∈ d.long_name_, isdigit c = false) (hl0 : d.long_name_ ≠ []) :
    d.name_match t = false := by
  have key : ∀ (k : Nat) (nm : Str), (∀ c ∈ nm, isdigit c = false) → nm ≠ [] → t.drop k ≠ nm := by
    intro k nm h1 h2 heq
    obtain ⟨c, cs, rfl⟩ := List.exists_cons_of_ne_nil h2
    have hc : c ∈ t := List.mem_of_mem_drop (by rw [heq]; exact List.mem_cons_self _ _)
    have := h1 c (List.mem_cons_self _ _)
    rw [ht c hc] at this
    cases this
  simp only [OptionValueBase.name_match, substr, Bool.or_eq_false_iff, Bool.and_eq_false_iff,
    beq_eq_false_iff_ne, ne_eq]
  exact ⟨Or.inr (key 1 _ hs hs0), Or.inr (key 2 _ hl hl0)⟩

theorem demo_prepare :
    demo_manager.prepare =
      ⟨[OptionValueBase.positional ['c', 'o', 'u', 'n', 't'] true
          (OptionImpl.PositionalValue Ty.uint (Ref.var 0)),
        OptionValueBase.positional ['p', 'o', 's', '2'] true
          (OptionImpl.PositionalValueVector Ty.string (Ref.var 1) 0 true 0 (some 0)),
        OptionValueBase.named ['u'] ['u', 'i', 'n', 't'] false
          (OptionImpl.NameValue Ty.uint (Ref.var 2)),
        OptionValueBase.named ['v'] ['v', 'e', 'c', 't', 'o', 'r'] false
          (OptionImpl.NameValueVector Ty.int (Ref.var 3) 3),
        OptionValueBase.named ['b'] ['b', 'o', 'o', 'l'] false (OptionImpl.NameValueBool (Ref.var 4)),
        OptionValueBase.named ['O'] ['O', 'N', 'E'] false
          (OptionImpl.FlagValue (Ref.var 5) (Scalar.int 1)),
        OptionValueBase.named ['T'] ['T', 'W', 'O'] false
          (OptionImpl.FlagValue (Ref.var 5) (Scalar.int 2)),
        OptionValueBase.named ['h'] ['h', 'e', 'l', 'p'] false (OptionImpl.NameValueBool Ref.help)],
       [5, 6, 4, 7, 2, 3], [0, 1]⟩ := by
  decide

theorem demo_named_names :
    ∀ p ∈ demo_manager.prepare.opts_, ∃ d, demo_manager.prepare.heap[p]? = some d
      ∧ d ∈ demo_manager.prepare.heap ∧ d.is_named = true
      ∧ (∀ c ∈ d.short_name_, isdigit c = false) ∧ d.short_name_ ≠ []
      ∧ (∀ c ∈ d.long_name_, isdigit c = false) ∧ d.long_name_ ≠ [] := by
  rw [demo_prepare]
  intro p hp
  simp only [List.mem_cons, List.mem_singleton, List.not_mem_nil, or_false] at hp
  rcases hp with rfl | rfl | rfl | rfl | rfl | rfl <;> exact ⟨_, rfl, by decide⟩

theorem push_back_other (s : Store) (r q : Ref) (x : Scalar) (h : q ≠ r) :
    (s.push_back r x) q = s q := by
  unfold Store.push_back
  cases s r <;> simp [Store.set, h]

theorem push_back_same (s : Store) (r : Ref) (x : Scalar) (vs : List Scalar)
    (h : s r = Val.vec vs) : (s.push_back r x) r = Val.vec (vs ++ [x]) := by
  unfold Store.push_back
  rw [h]
  simp [Store.set]

theorem push_all_other (s : Store) (r q : Ref) (xs : List Scalar) (h : q ≠ r) :
    (s.push_all r xs) q = s q := by
  induction xs generalizing s with
  | nil => rfl
  | cons x xs ih => rw [push_all_cons, ih, push_back_other s r q x h]

theorem push_all_same (s : Store) (r : Ref) (xs vs : List Scalar) (h : s r = Val.vec vs) :
    (s.push_all r xs) r = Val.vec (vs ++ xs) := by
  induction xs generalizing s vs with
  | nil => simpa [Store.push_all] using h
  | cons x xs ih =>
    rw [push_all_cons, ih (s.push_back r x) (vs ++ [x]) (push_back_same s r x vs h)]
    simp

/-- The demonstration program on `decimal(n)` followed by free tokens: `count`
becomes `n`, `values` takes the first `n` tokens, the others are left over,
and the result is 1 exactly when there are `n` tokens. -/
theorem demo_run (store : Store) (n : Nat) (ts : List Str) (hn : n ≤ UINT_MAX)
    (hv : store (Ref.var 1) = Val.vec []) (hts : ∀ t ∈ ts, demo_free t) :
    ∃ r, demo_manager.process_arguments store (decimal n :: ts) = Outcome.done r
      ∧ r.retval = (if ts.length = n then 1 else -1)
      ∧ r.store (Ref.var 0) = Val.scalar (Scalar.uint n)
      ∧ r.store (Ref.var 1) = Val.vec ((ts.take n).map Scalar.str)
      ∧ r.argvv = ts.drop n := by
  have hfront : ∀ a ∈ decimal n :: ts, (front a == '-') = false := by
    intro a ha
    rcases List.mem_cons.mp ha with rfl | ha
    · exact front_decimal n
    · have := (plain_token_spec (hts a ha).1).2.2
      simpa using this
  have hnamed : ∀ p ∈ demo_manager.prepare.opts_, ∃ d, demo_manager.prepare.heap[p]? = some d
      ∧ d.is_named = true ∧ ∀ t ∈ decimal n :: ts, d.name_match t = false := by
    intro p hp
    obtain ⟨d, h1, h2, h3, h4, h5, h6, h7⟩ := demo_named_names p hp
    refine ⟨d, h1, h3, ?_⟩
    intro t ht
    rcases List.mem_cons.mp ht with rfl | ht
    · exact name_match_digits d _ (decimal_digits n) h4 h5 h6 h7
    · exact (hts t ht).2 d h2 h3
  unfold ProgramOptionManager.process_arguments
  simp only [preprocess_plain _ _ _ hfront, consume_named_no_match _ _ _ _ hnamed]
  rw [demo_prepare]
  have hplain : ∀ t ∈ ts, plain_token t = true := fun t ht => (hts t ht).1
  have hscan := fun st => PositionalValueVector_scan_plain (Ref.var 1) n ts hplain 0 st []
  simp only [List.length_nil, Nat.zero_add, Nat.sub_zero, List.nil_append] at hscan
  have hmod : n % (UINT_MAX + 1) = n := Nat.mod_eq_of_lt (by omega)
  have hf : ¬ front (decimal n) = '-' := by simpa using front_decimal n
  simp [consume_positionals, consume_at, OptionValueBase.consume, PositionalValue.consume,
    OptionValueBase.positional, hf, extract_uint_decimal n hn, Extracted.assign,
    PositionalValueVector.consume, OptionValueBase.uint_assign_to, traits_assign_to, is_numeric,
    to_unsigned, Store.set, hmod, PositionalValueVector.consume_counted, hscan]
  have hs1 : ((store.set Ref.help (Val.scalar (Scalar.bool false))).set (Ref.var 0)
      (Val.scalar (Scalar.uint n))) (Ref.var 1) = Val.vec [] := by
    simpa [Store.set] using hv
  by_cases hlt : ts.length < n
  · have hne : ts.length ≠ n := by omega
    have hdrop : List.drop n ts = [] := List.drop_eq_nil_of_le (by omega)
    simp [hlt, hne, hdrop, finish, check_required, first_missing, PositionalValueVector.update,
      push_all_other, push_all_same _ _ _ _ hs1, Store.set, Nat.min_eq_left (Nat.le_of_lt hlt)]
  · have hmin : ts.length ⊓ n = n := Nat.min_eq_right (by omega)
    by_cases heq : ts.length = n
    · have hdrop : List.drop n ts = [] := List.drop_eq_nil_of_le (by omega)
      simp [hlt, heq, hdrop, hmin, finish, check_required, first_missing,
        PositionalValueVector.update,
        push_all_other, push_all_same _ _ _ _ hs1, Store.set, OptionValueBase.named]
    · have hdrop : List.drop n ts ≠ [] := by
        intro h
        have := List.drop_eq_nil_iff.mp h
        omega
      simp [hlt, heq, hdrop, hmin, finish, check_required, first_missing,
        PositionalValueVector.update,
        push_all_other, push_all_same _ _ _ _ hs1, Store.set, OptionValueBase.named]


/-- C3: in the configuration of the demonstration program, `process_arguments`
on `[decimal(n), t1, ..., tm]` (plain tokens matched by no named option)
returns 1 iff `m = n`; then `values` holds `t1..tn` in order; with `m = n+1`
the call fails and the extra token is left in the buffer; with `m = n-1` the
call fails. -/
theorem C3_dependent_arity (store : Store) (n : Nat) (ts : List Str) (hn : n ≤ UINT_MAX)
    (hv : store (Ref.var 1) = Val.vec []) (hts : ∀ t ∈ ts, demo_free t) :
    ∃ r, demo_manager.process_arguments store (decimal n :: ts) = Outcome.done r
      ∧ (r.retval = 1 ↔ ts.length = n)
      ∧ (ts.length = n → r.store (Ref.var 1) = Val.vec (ts.map Scalar.str))
      ∧ (ts.length = n + 1 → r.retval = -1 ∧ r.argvv = ts.drop n ∧ (ts.drop n).length = 1)
      ∧ (ts.length + 1 = n → r.retval = -1) := by
  obtain ⟨r, hr, h1, _, h3, h4⟩ := demo_run store n ts hn hv hts
  refine ⟨r, hr, ?_, ?_, ?_, ?_⟩
  · rw [h1]
    by_cases h : ts.length = n <;> simp [h]
  · intro h
    rw [h3, ← h, List.take_length]
  · intro h
    refine ⟨?_, h4, ?_⟩
    · rw [h1, if_neg (by omega)]
    · rw [List.length_drop]; omega
  · intro h
    rw [h1, if_neg (by omega)]

/-- C3 with `n = 3` and the tokens `a`, `b`, `c`. -/
theorem C3_dependent_arity_witness :
    ∃ r, demo_manager.process_arguments empty_vectors (decimal 3 :: [['a'], ['b'], ['c']])
        = Outcome.done r
      ∧ (r.retval = 1 ↔ [['a'], ['b'], ['c']].length = 3)
      ∧ ([['a'], ['b'], ['c']].length = 3 →
          r.store (Ref.var 1) = Val.vec ([['a'], ['b'], ['c']].map Scalar.str))
      ∧ ([['a'], ['b'], ['c']].length = 3 + 1 →
          r.retval = -1 ∧ r.argvv = [['a'], ['b'], ['c']].drop 3
            ∧ ([['a'], ['b'], ['c']].drop 3).length = 1)
      ∧ ([['a'], ['b'], ['c']].length + 1 = 3 → r.retval = -1) :=
  C3_dependent_arity empty_vectors 3 [['a'], ['b'], ['c']] (by decide) rfl (by
    intro t ht
    simp only [List.mem_cons, List.mem_singleton, List.not_mem_nil, or_false] at ht
    rcases ht with rfl | rfl | rfl <;> exact ⟨by decide, by decide⟩)

/-! ### C4: a combined short token and its space-separated form -/

theorem sorted_insert_perm {α : Type} (lt : α → α → Bool) (x : α) (l : List α) :
    (sorted_insert lt x l).Perm (x :: l) := by
  induction l with
  | nil => exact List.Perm.refl _
  | cons y ys ih =>
    unfold sorted_insert
    split
    · exact (List.Perm.cons y ih).trans (List.Perm.swap x y ys)
    · exact List.Perm.refl _

/-- Sorting permutes. -/
theorem std_sort_perm {α : Type} (lt : α → α → Bool) (l : List α) : (std_sort lt l).Perm l := by
  induction l with
  | nil => exact List.Perm.refl _
  | cons x xs ih =>
    unfold std_sort
    exact (sorted_insert_perm lt x _).trans (List.Perm.cons x ih)

theorem prepare_heap (m : ProgramOptionManager) :
    m.prepare.heap = m.heap ++ [OptionValueBase.named ['h'] ['h', 'e', 'l', 'p'] false
      (OptionImpl.NameValueBool Ref.help)] := rfl

theorem prepare_positionals (m : ProgramOptionManager) :
    m.prepare.positionals_ = m.positionals_ := rfl

theorem prepare_opts_perm (m : ProgramOptionManager) :
    m.prepare.opts_.Perm (m.opts_ ++ [m.heap.length]) :=
  std_sort_perm _ _

theorem mem_prepare_opts (m : ProgramOptionManager) (p : Nat) :
    p ∈ m.prepare.opts_ ↔ p ∈ m.opts_ ∨ p = m.heap.length := by
  rw [(prepare_opts_perm m).mem_iff]; simp

theorem prepare_get (m : ProgramOptionManager) (p : Nat) (d : OptionValueBase)
    (h : m.heap[p]? = some d) : m.prepare.heap[p]? = some d := by
  rw [prepare_heap]
  have hlt : p < m.heap.length := by
    by_contra hge
    rw [List.getElem?_eq_none (Nat.le_of_not_lt hge)] at h
    cases h
  rw [List.getElem?_append_left hlt]
  exact h

theorem splits_iff (heap : List OptionValueBase) (opts_ : List Nat) (arg : Str) :
    splits heap opts_ arg = true ↔
      ∃ p ∈ opts_, ∃ d, heap[p]? = some d ∧ d.match_short_name arg = true ∧ 2 < arg.length := by
  unfold splits
  rw [List.any_eq_true]
  constructor
  · rintro ⟨p, hp, h⟩
    cases hg : heap[p]? with
    | none => rw [hg] at h; cases h
    | some d =>
      rw [hg] at h
      simp only [Bool.and_eq_true, decide_eq_true_eq] at h
      exact ⟨p, hp, d, hg, h.1, h.2⟩
  · rintro ⟨p, hp, d, hg, h1, h2⟩
    refine ⟨p, hp, ?_⟩
    rw [hg]
    simp [h1, h2]

theorem back_insert_acc (heap : List OptionValueBase) (opts_ : List Nat)
    (acc : program_option_type) (arg : Str) :
    back_insert_args heap opts_ acc arg = acc ++ back_insert_args heap opts_ [] arg := by
  unfold back_insert_args
  split <;> simp

theorem foldl_back_insert_acc (heap : List OptionValueBase) (opts_ : List Nat) (args : List Str)
    (acc : program_option_type) :
    args.foldl (back_insert_args heap opts_) acc
      = acc ++ args.foldl (back_insert_args heap opts_) [] := by
  induction args generalizing acc with
  | nil => simp
  | cons a args ih =>
    rw [List.foldl_cons, List.foldl_cons, ih (back_insert_args heap opts_ acc a),
      ih (back_insert_args heap opts_ [] a), back_insert_acc, List.append_assoc]

/-- The preprocessor works argument by argument. -/
theorem preprocess_append (heap : List OptionValueBase) (opts_ : List Nat) (xs ys : List Str) :
    preprocess heap opts_ (xs ++ ys) = preprocess heap opts_ xs ++ preprocess heap opts_ ys := by
  unfold preprocess
  rw [List.foldl_append, foldl_back_insert_acc]

/-- C4 (as amended): for a registered named option with the one-character
short name `c`, `c` other than `-`, and a non-empty value text `v` that does
not begin with `-`, the combined argument `-cv` and the two arguments `-c`,
`v` give the same token buffer at any place of the argument list, hence the
same outcome of `process_arguments`. -/
theorem C4_combined_short_token (m : ProgramOptionManager) (store : Store) (p : Nat)
    (d : OptionValueBase) (c : Char) (v : Str) (before after : List Str)
    (hp : p ∈ m.opts_) (hd : m.heap[p]? = some d) (hs : d.short_name_ = [c])
    (hc : c ≠ '-') (hv : v ≠ []) (hfront : front v ≠ '-') :
    preprocess m.prepare.heap m.prepare.opts_ (before ++ ['-' :: c :: v] ++ after)
        = preprocess m.prepare.heap m.prepare.opts_ (before ++ [['-', c], v] ++ after)
      ∧ m.process_arguments store (before ++ ['-' :: c :: v] ++ after)
        = m.process_arguments store (before ++ [['-', c], v] ++ after) := by
  have h1 : preprocess m.prepare.heap m.prepare.opts_ ['-' :: c :: v] = [['-', c], v] := by
    have hsplit : splits m.prepare.heap m.prepare.opts_ ('-' :: c :: v) = true := by
      rw [splits_iff]
      refine ⟨p, (mem_prepare_opts m p).mpr (Or.inl hp), d, prepare_get m p d hd, ?_, ?_⟩
      · simp [OptionValueBase.match_short_name, front, substr2, hs, hc]
      · obtain ⟨a, w, rfl⟩ := List.exists_cons_of_ne_nil hv
        simp
    simp [preprocess, back_insert_args, hsplit, substr2, substr]
  have h2 : preprocess m.prepare.heap m.prepare.opts_ [['-', c], v] = [['-', c], v] := by
    have hs1 : splits m.prepare.heap m.prepare.opts_ ['-', c] = false := by
      cases h : splits m.prepare.heap m.prepare.opts_ ['-', c] with
      | false => rfl
      | true =>
        obtain ⟨_, _, _, _, _, hlen⟩ := (splits_iff _ _ _).mp h
        simp at hlen
    have hs2 : splits m.prepare.heap m.prepare.opts_ v = false :=
      splits_of_front (by simpa using hfront)
    simp [preprocess, back_insert_args, hs1, hs2]
  have h3 : preprocess m.prepare.heap m.prepare.opts_ (before ++ ['-' :: c :: v] ++ after)
      = preprocess m.prepare.heap m.prepare.opts_ (before ++ [['-', c], v] ++ after) := by
    rw [preprocess_append, preprocess_append, preprocess_append _ _ _ after,
      preprocess_append _ _ _ [['-', c], v], h1, h2]
  refine ⟨h3, ?_⟩
  simp only [ProgramOptionManager.process_arguments, h3]

/-- C4 for the option `-c` of `count_manager` and the value `5`: `["-c5"]`
behaves as `["-c", "5"]`. -/
theorem C4_combined_short_token_witness :
    preprocess (count_manager false).prepare.heap (count_manager false).prepare.opts_
        ([] ++ ['-' :: 'c' :: ['5']] ++ [])
        = preprocess (count_manager false).prepare.heap (count_manager false).prepare.opts_
          ([] ++ [['-', 'c'], ['5']] ++ [])
      ∧ (count_manager false).process_arguments (const_store 0) ([] ++ ['-' :: 'c' :: ['5']] ++ [])
        = (count_manager false).process_arguments (const_store 0) ([] ++ [['-', 'c'], ['5']] ++ []) :=
  C4_combined_short_token (count_manager false) (const_store 0) 0
    (OptionValueBase.named ['c'] ['c', 'o', 'u', 'n', 't'] false (OptionImpl.NameValue Ty.uint
      (Ref.var 0))) 'c' ['5'] [] [] (by decide) (by decide) rfl (by decide) (by decide) (by decide)

/-- C4 as stated fails for the short name `-`: the argument `--5` is not
split, so `["--5"]` and `["--", "5"]` give different buffers and different
results. -/
theorem C4_counterexample :
    preprocess dash_manager.prepare.heap dash_manager.prepare.opts_ [['-', '-', '5']]
        ≠ preprocess dash_manager.prepare.heap dash_manager.prepare.opts_ [['-', '-'], ['5']]
      ∧ (dash_manager.process_arguments (const_store 0) [['-', '-', '5']]).map
          (fun r => (r.retval, r.store (Ref.var 0))) = Outcome.done (-1, Val.scalar (Scalar.uint 0))
      ∧ (dash_manager.process_arguments (const_store 0) [['-', '-'], ['5']]).map
          (fun r => (r.retval, r.store (Ref.var 0))) = Outcome.done (1, Val.scalar (Scalar.uint 5)) := by
  decide


/-! ### C2, C9, C10: evaluations of the code -/

/-- C2 at `-v 1 2 3` with arity 3: `NameValue<std::vector<T>>::consume` reads
the three values and erases the four tokens, then the loop header increments
the iterator it has just reset to `begin()` of the now empty buffer:
`process_arguments` does not return 1 but runs into undefined behaviour. With
a token in front of `-v` the same call returns 1 with the values `[1, 2, 3]`. -/
theorem C2_fixed_arity_scan_leaves_buffer :
    ((vector_manager 3 false).process_arguments empty_vectors
        [['-', 'v'], ['1'], ['2'], ['3']]).map (fun r => (r.retval, r.store (Ref.var 0)))
        = Outcome.undefined
      ∧ (NameValueVector.consume (OptionValueBase.named ['v'] ['v', 'e', 'c', 't', 'o', 'r'] false
          (OptionImpl.NameValueVector Ty.int (Ref.var 0) 3)) Ty.int (Ref.var 0) 3 empty_vectors
          [['-', 'v'], ['1'], ['2'], ['3']]).map (fun r => r.ret) = Outcome.undefined
      ∧ (NameValueVector.consume (OptionValueBase.named ['v'] ['v', 'e', 'c', 't', 'o', 'r'] false
          (OptionImpl.NameValueVector Ty.int (Ref.var 0) 3)) Ty.int (Ref.var 0) 3 empty_vectors
          [['x'], ['-', 'v'], ['1'], ['2'], ['3']]).map (fun r => (r.ret, r.store (Ref.var 0), r.opts))
        = Outcome.done (true, Val.vec [Scalar.int 1, Scalar.int 2, Scalar.int 3], [['x']]) := by
  decide

/-- C9 at `-c 5abc`: the extraction stops in front of `abc` with the stream
still good, so `consume` stores the truncated value 5, erases both tokens and
returns true, and `process_arguments` returns 1. -/
theorem C9_partial_parse_accepted :
    extract Ty.uint ['5', 'a', 'b', 'c'] = ⟨some (Scalar.uint 5), false, false⟩
      ∧ (extract Ty.uint ['5', 'a', 'b', 'c']).bad = false
      ∧ (let r := NameValue.consume option_c Ty.uint (Ref.var 0) (const_store 7) []
            [['-', 'c'], ['5', 'a', 'b', 'c']]
         (r.ret, r.self.consumed_, r.store (Ref.var 0), r.opts))
        = (true, true, Val.scalar (Scalar.uint 5), [])
      ∧ ((count_manager false).process_arguments (const_store 7)
          [['-', 'c'], ['5', 'a', 'b', 'c']]).map (fun r => (r.retval, r.store (Ref.var 0), r.argvv))
        = Outcome.done (1, Val.scalar (Scalar.uint 5), []) := by
  decide

/-- C10 at the tokens `ab` and `xxcount`: the match test of the named
`consume` loops never looks at the leading characters, so the flag `-b` matches
and erases the token `ab`, and the option `-u` (`--uint`) matches `xxuint` and
takes the next token as its value. In the demonstration program `0 ab` sets
`b` and `0 xxuint 7` sets `l` to 7, both returning 1. -/
theorem C10_match_ignores_leading_characters :
    flag_b.name_match ['a', 'b'] = true
      ∧ option_u.name_match ['x', 'x', 'u', 'i', 'n', 't'] = true
      ∧ (let r := Flag.consume flag_b (Ref.var 4) (Scalar.bool true) empty_vectors [] [['a', 'b']]
         (r.ret, r.self.consumed_, r.store (Ref.var 4), r.opts))
        = (true, true, Val.scalar (Scalar.bool true), [])
      ∧ (demo_manager.process_arguments empty_vectors [['0'], ['a', 'b']]).map
          (fun r => (r.retval, r.store (Ref.var 4), r.argvv))
        = Outcome.done (1, Val.scalar (Scalar.bool true), [])
      ∧ (demo_manager.process_arguments empty_vectors
          [['0'], ['x', 'x', 'u', 'i', 'n', 't'], ['7']]).map
          (fun r => (r.retval, r.store (Ref.var 2), r.argvv))
        = Outcome.done (1, Val.scalar (Scalar.uint 7), []) := by
  decide

/-! ### Counterexamples to C5, C6, C7, C8 as stated -/

/-- C5 fails for required positional vectors: on the empty argument list the
`consume` of a fixed-arity positional vector of two strings sets `consumed_`
without a token, and so does the one of a dependent-arity vector whose count
option holds 0; `process_arguments` returns 1 both times. -/
theorem C5_counterexample :
    (pair_manager.process_arguments empty_vectors []).map (fun r => (r.retval, r.store (Ref.var 0)))
        = Outcome.done (1, Val.vec [])
      ∧ (dependent_manager.process_arguments (const_store 0) []).map (fun r => r.retval)
        = Outcome.done 1 := by
  decide

/-- C6 fails when a named option fails: on `-c -h` the consume of `-c` returns
false and `process_arguments` returns -1 before it looks at `help`. -/
theorem C6_counterexample :
    ((count_manager false).process_arguments (const_store 0) [['-', 'c'], ['-', 'h']]).map
        (fun r => r.retval) ≠ Outcome.done 0
      ∧ ((count_manager false).process_arguments (const_store 0) [['-', 'c'], ['-', 'h']]).map
        (fun r => r.retval) = Outcome.done (-1) := by
  decide

/-- C7 fails on `-T -O`: the destination holds TWO, not the constant ONE of
the textually later flag. -/
theorem C7_counterexample :
    (flags_manager.process_arguments (const_store 0) [['-', 'T'], ['-', 'O']]).map
        (fun r => r.store (Ref.var 0)) ≠ Outcome.done (Val.scalar (Scalar.int 1))
      ∧ (flags_manager.process_arguments (const_store 0) [['-', 'T'], ['-', 'O']]).map
        (fun r => (r.retval, r.store (Ref.var 0))) = Outcome.done (1, Val.scalar (Scalar.int 2)) := by
  decide

theorem assign_other (r : Extracted) (s : Store) (ref q : Ref) (h : q ≠ ref) :
    (r.assign s ref) q = s q := by
  unfold Extracted.assign
  cases r.value <;> simp [Store.set, h]

/-- The four ways `NameValue<T>::consume` ends: no token matches; the first
match has no value after it; its value does not convert; its value
converts. -/
theorem NameValue_consume_cases (self : OptionValueBase) (ty : Ty) (value_ : Ref)
    (store : Store) (pre suf : program_option_type) :
    ((∀ t ∈ suf, self.name_match t = false)
        ∧ NameValue.consume self ty value_ store pre suf = ⟨true, self, store, pre ++ suf⟩)
      ∨ (∃ a it rest, suf = a ++ it :: rest ∧ (∀ t ∈ a, self.name_match t = false)
        ∧ self.name_match it = true ∧ (rest = [] ∨ ∃ next after, rest = next :: after
          ∧ front next = '-')
        ∧ NameValue.consume self ty value_ store pre suf = ⟨false, self, store, pre ++ suf⟩)
      ∨ (∃ a it next after, suf = a ++ it :: next :: after
        ∧ (∀ t ∈ a, self.name_match t = false) ∧ self.name_match it = true ∧ front next ≠ '-'
        ∧ (extract ty next).bad = true
        ∧ NameValue.consume self ty value_ store pre suf
          = ⟨false, self, (extract ty next).assign store value_, pre ++ suf⟩)
      ∨ (∃ a it next after, suf = a ++ it :: next :: after
        ∧ (∀ t ∈ a, self.name_match t = false) ∧ self.name_match it = true ∧ front next ≠ '-'
        ∧ (extract ty next).bad = false
        ∧ NameValue.consume self ty value_ store pre suf
          = ⟨true, { self with consumed_ := true }, (extract ty next).assign store value_,
              pre ++ a ++ after⟩) := by
  induction suf generalizing pre with
  | nil => left; exact ⟨(fun t ht => absurd ht (List.not_mem_nil t)), by simp [NameValue.consume]⟩
  | cons it rest ih =>
    by_cases hm : self.name_match it = true
    · cases rest with
      | nil =>
        right; left
        exact ⟨[], it, [], rfl, (fun t ht => absurd ht (List.not_mem_nil t)), hm, Or.inl rfl,
          by simp [NameValue.consume, hm]⟩
      | cons next after =>
        by_cases hf : front next = '-'
        · right; left
          exact ⟨[], it, next :: after, rfl, (fun t ht => absurd ht (List.not_mem_nil t)), hm,
            Or.inr ⟨next, after, rfl, hf⟩, by simp [NameValue.consume, hm, hf]⟩
        · by_cases hb : (extract ty next).bad = true
          · right; right; left
            exact ⟨[], it, next, after, rfl, (fun t ht => absurd ht (List.not_mem_nil t)), hm, hf, hb,
              by simp [NameValue.consume, hm, hf, hb]⟩
          · have hb2 : (extract ty next).bad = false := by simpa using hb
            right; right; right
            exact ⟨[], it, next, after, rfl, (fun t ht => absurd ht (List.not_mem_nil t)), hm, hf, hb2,
              by simp [NameValue.consume, hm, hf, hb2]⟩
    · have hm2 : self.name_match it = false := by simpa using hm
      have hstep : NameValue.consume self ty value_ store pre (it :: rest)
          = NameValue.consume self ty value_ store (pre ++ [it]) rest := by
        simp [NameValue.consume, hm2]
      have hcons : ∀ a : program_option_type, (∀ t ∈ a, self.name_match t = false) →
          ∀ t ∈ it :: a, self.name_match t = false := by
        intro a ha t ht
        rcases List.mem_cons.mp ht with rfl | ht
        · exact hm2
        · exact ha t ht
      rw [hstep]
      rcases ih (pre ++ [it]) with ⟨h1, h2⟩ | ⟨a, x, r, rfl, h1, h2, h3, h4⟩
        | ⟨a, x, nx, af, rfl, h1, h2, h3, h4, h5⟩ | ⟨a, x, nx, af, rfl, h1, h2, h3, h4, h5⟩
      · left
        exact ⟨hcons rest h1, by rw [h2]; simp⟩
      · right; left
        exact ⟨it :: a, x, r, rfl, hcons a h1, h2, h3, by rw [h4]; simp⟩
      · right; right; left
        exact ⟨it :: a, x, nx, af, rfl, hcons a h1, h2, h3, h4, by rw [h5]; simp⟩
      · right; right; right
        exact ⟨it :: a, x, nx, af, rfl, hcons a h1, h2, h3, h4, by rw [h5]; simp⟩

/-- The two ways the `consume` of a flag ends: no token matches, or the first
match is erased and the destination assigned. -/
theorem Flag_consume_cases (self : OptionValueBase) (value_ : Ref) (v : Scalar)
    (store : Store) (pre suf : program_option_type) :
    ((∀ t ∈ suf, self.name_match t = false)
        ∧ Flag.consume self value_ v store pre suf = ⟨true, self, store, pre ++ suf⟩)
      ∨ (∃ a it after, suf = a ++ it :: after ∧ (∀ t ∈ a, self.name_match t = false)
        ∧ self.name_match it = true
        ∧ Flag.consume self value_ v store pre suf
          = ⟨true, { self with consumed_ := true }, store.set value_ (Val.scalar v),
              pre ++ a ++ after⟩) := by
  induction suf generalizing pre with
  | nil => left; exact ⟨(fun t ht => absurd ht (List.not_mem_nil t)), by simp [Flag.consume]⟩
  | cons it rest ih =>
    by_cases hm : self.name_match it = true
    · right
      exact ⟨[], it, rest, rfl, (fun t ht => absurd ht (List.not_mem_nil t)), hm, by simp [Flag.consume, hm]⟩
    · have hm2 : self.name_match it = false := by simpa using hm
      have hstep : Flag.consume self value_ v store pre (it :: rest)
          = Flag.consume self value_ v store (pre ++ [it]) rest := by
        simp [Flag.consume, hm2]
      have hcons : ∀ a : program_option_type, (∀ t ∈ a, self.name_match t = false) →
          ∀ t ∈ it :: a, self.name_match t = false := by
        intro a ha t ht
        rcases List.mem_cons.mp ht with rfl | ht
        · exact hm2
        · exact ha t ht
      rw [hstep]
      rcases ih (pre ++ [it]) with ⟨h1, h2⟩ | ⟨a, x, af, rfl, h1, h2, h3⟩
      · left
        exact ⟨hcons rest h1, by rw [h2]; simp⟩
      · right
        exact ⟨it :: a, x, af, rfl, hcons a h1, h2, by rw [h3]; simp⟩

/-- The two ways `PositionalValue<T>::consume` ends: every token begins with
`-`, or the first token that does not is taken. -/
theorem PositionalValue_consume_cases (self : OptionValueBase) (ty : Ty) (value_ : Ref)
    (store : Store) (pre suf : program_option_type) :
    ((∀ t ∈ suf, front t = '-')
        ∧ PositionalValue.consume self ty value_ store pre suf = ⟨true, self, store, pre ++ suf⟩)
      ∨ (∃ a it after, suf = a ++ it :: after ∧ (∀ t ∈ a, front t = '-') ∧ front it ≠ '-'
        ∧ PositionalValue.consume self ty value_ store pre suf
          = ⟨true, { self with consumed_ := true }, (extract ty it).assign store value_,
              pre ++ a ++ after⟩) := by
  induction suf generalizing pre with
  | nil => left; exact ⟨(fun t ht => absurd ht (List.not_mem_nil t)), by simp [PositionalValue.consume]⟩
  | cons it rest ih =>
    by_cases hf : front it = '-'
    · have hstep : PositionalValue.consume self ty value_ store pre (it :: rest)
          = PositionalValue.consume self ty value_ store (pre ++ [it]) rest := by
        simp [PositionalValue.consume, hf]
      have hcons : ∀ a : program_option_type, (∀ t ∈ a, front t = '-') →
          ∀ t ∈ it :: a, front t = '-' := by
        intro a ha t ht
        rcases List.mem_cons.mp ht with rfl | ht
        · exact hf
        · exact ha t ht
      rw [hstep]
      rcases ih (pre ++ [it]) with ⟨h1, h2⟩ | ⟨a, x, af, rfl, h1, h2, h3⟩
      · left
        exact ⟨hcons rest h1, by rw [h2]; simp⟩
      · right
        exact ⟨it :: a, x, af, rfl, hcons a h1, h2, by rw [h3]; simp⟩
    · right
      exact ⟨[], it, rest, rfl, (fun t ht => absurd ht (List.not_mem_nil t)), hf,
        by simp [PositionalValue.consume, hf]⟩


theorem set_other (s : Store) (r q : Ref) (v : Val) (h : q ≠ r) : (s.set r v) q = s q := by
  simp [Store.set, h]

/-- The inner loop of the vector `consume` takes a run of tokens that do not
begin with `-` and writes only the destination. -/
theorem NameValueVector_read_values_cases (ty : Ty) (value_ : Ref) (max_count_ : Nat)
    (rest : program_option_type) :
    ∀ (count : Nat) (store : Store),
      match NameValueVector.read_values ty value_ max_count_ count rest store with
      | Values.stop c rest1 store1 =>
        ∃ vals, rest = vals ++ rest1 ∧ (∀ t ∈ vals, front t ≠ '-') ∧ c = count + vals.length
          ∧ ∀ q, q ≠ value_ → store1 q = store q
      | Values.bad store1 => ∀ q, q ≠ value_ → store1 q = store q := by
  induction rest with
  | nil =>
    intro count store
    simp only [NameValueVector.read_values]
    refine ⟨[], ?_, ?_, ?_, ?_⟩ <;> simp
  | cons next after ih =>
    intro count store
    by_cases hc : (front next != '-' && decide (count < max_count_)) = true
    · simp only [NameValueVector.read_values, hc, if_true]
      by_cases hb : (extract ty next).bad = true
      · simp only [hb, if_true]
        exact fun q hq => push_back_other _ _ _ _ hq
      · simp only [hb, Bool.false_eq_true, if_false]
        have := ih (count + 1) (store.push_back value_ (extracted_tmp ty (extract ty next)))
        revert this
        cases NameValueVector.read_values ty value_ max_count_ (count + 1) after
            (store.push_back value_ (extracted_tmp ty (extract ty next))) with
        | stop c rest1 store1 =>
          rintro ⟨vals, rfl, h1, h2, h3⟩
          refine ⟨next :: vals, rfl, ?_, by simp [h2]; omega, ?_⟩
          · intro t ht
            rcases List.mem_cons.mp ht with rfl | ht
            · simp only [Bool.and_eq_true, bne_iff_ne, ne_eq] at hc
              exact hc.1
            · exact h1 t ht
          · intro q hq
            rw [h3 q hq, push_back_other _ _ _ _ hq]
        | bad store1 =>
          intro h3 q hq
          rw [h3 q hq, push_back_other _ _ _ _ hq]
    · simp only [NameValueVector.read_values, hc, Bool.false_eq_true, if_false]
      refine ⟨[], ?_, ?_, ?_, ?_⟩ <;> simp

theorem name_match_consumed (self : OptionValueBase) (t : Str) :
    OptionValueBase.name_match { self with consumed_ := true } t = self.name_match t := rfl

theorem NameValueVector_scan_effect (ty : Ty) (value_ : Ref) (max_count_ : Nat)
    (restart : OptionValueBase → Store → program_option_type → Outcome ConsumeResult)
    (hrestart : ∀ self1 store1 opts1 r, restart self1 store1 opts1 = Outcome.done r →
      NamedEffect self1 value_ store1 opts1 r)
    (self : OptionValueBase) (store : Store) (suf : program_option_type) :
    ∀ (pre : program_option_type) (r : ConsumeResult),
      NameValueVector.scan ty value_ max_count_ restart self store pre suf = Outcome.done r →
      NamedEffect self value_ store (pre ++ suf) r := by
  induction suf with
  | nil =>
    intro pre r h
    simp only [NameValueVector.scan, Outcome.done.injEq] at h
    subst h
    exact ⟨fun t ht => by simpa using ht, fun t ht _ _ => by simpa using ht, fun q _ => rfl,
      Or.inl rfl⟩
  | cons it rest ih =>
    intro pre r h
    by_cases hm : self.name_match it = true
    · simp only [NameValueVector.scan, hm, if_true] at h
      have hv := NameValueVector_read_values_cases ty value_ max_count_ rest 0 store
      revert h hv
      cases NameValueVector.read_values ty value_ max_count_ 0 rest store with
      | bad store1 =>
        intro h hv
        simp only [Outcome.done.injEq] at h
        subst h
        exact ⟨fun t ht => ht, fun t ht _ _ => ht, hv, Or.inl rfl⟩
      | stop c rest1 store1 =>
        intro h hv
        obtain ⟨vals, rfl, h1, _, h3⟩ := hv
        by_cases hc : (c != max_count_) = true
        · simp only [hc, if_true, Outcome.done.injEq] at h
          subst h
          exact ⟨fun t ht => ht, fun t ht _ _ => ht, h3, Or.inl rfl⟩
        · simp only [hc, Bool.false_eq_true, if_false] at h
          obtain ⟨e1, e2, e3, e4⟩ := hrestart _ _ _ _ h
          refine ⟨?_, ?_, ?_, ?_⟩
          · intro t ht
            have := e1 t ht
            simp only [List.mem_append, List.mem_cons] at this ⊢
            tauto
          · intro t ht hf hnm
            apply e2 t _ hf (by rw [name_match_consumed]; exact hnm)
            simp only [List.mem_append, List.mem_cons] at ht ⊢
            rcases ht with ht | rfl | ht | ht
            · exact Or.inl ht
            · rw [hm] at hnm; cases hnm
            · exact absurd hf (h1 t ht)
            · exact Or.inr ht
          · intro q hq
            rw [e3 q hq, h3 q hq]
          · rcases e4 with e4 | e4 <;> exact Or.inr e4
    · have hm2 : self.name_match it = false := by simpa using hm
      simp only [NameValueVector.scan, hm2, Bool.false_eq_true, if_false] at h
      have := ih (pre ++ [it]) r h
      simpa using this

theorem NameValueVector_loop_effect (ty : Ty) (value_ : Ref) (max_count_ : Nat) (fuel : Nat) :
    ∀ (self : OptionValueBase) (store : Store) (pre suf : program_option_type)
      (r : ConsumeResult),
      NameValueVector.loop ty value_ max_count_ fuel self store pre suf = Outcome.done r →
      NamedEffect self value_ store (pre ++ suf) r := by
  induction fuel with
  | zero => intro self store pre suf r h; simp [NameValueVector.loop] at h
  | succ fuel ih =>
    intro self store pre suf r h
    rw [NameValueVector.loop] at h
    refine NameValueVector_scan_effect ty value_ max_count_ _ ?_ self store suf pre r h
    intro self1 store1 opts1 r1 h1
    cases opts1 with
    | nil => simp at h1
    | cons first more =>
      have := ih self1 store1 [first] more r1 h1
      simpa using this

theorem NameValueVector_consume_effect (self : OptionValueBase) (ty : Ty) (value_ : Ref)
    (max_count_ : Nat) (store : Store) (opts : program_option_type) (r : ConsumeResult)
    (h : NameValueVector.consume self ty value_ max_count_ store opts = Outcome.done r) :
    NamedEffect self value_ store opts r := by
  have := NameValueVector_loop_effect ty value_ max_count_ _ self store [] opts r h
  simpa using this


theorem getD_append_last (ms : program_option_type) (x : Str) :
    (ms ++ [x]).getD ms.length [] = x := by
  induction ms with
  | nil => rfl
  | cons m ms ih => simp [ih]

theorem set_append_last (ms : program_option_type) (x y : Str) :
    (ms ++ [x]).set ms.length y = ms ++ [y] := by
  induction ms with
  | nil => rfl
  | cons m ms ih => simp [ih]

theorem swap_at_cons (x : Str) (v : program_option_type) (i j : Nat) :
    swap_at (x :: v) (i + 1) (j + 1) = x :: swap_at v i j := by
  simp [swap_at]

/-- The swap of the loop when `mark` is behind `it`: the token at `it` goes
to `mark`, the token at `mark` to the place of `it`. -/
theorem swap_at_rotate (a ms : program_option_type) (m it : Str) :
    swap_at (a ++ m :: (ms ++ [it])) a.length (a.length + ms.length + 1)
      = a ++ it :: (ms ++ [m]) := by
  induction a with
  | nil =>
    have h1 : (m :: (ms ++ [it])).getD (ms.length + 1) [] = it := by
      simp [getD_append_last ms it]
    simp only [swap_at, List.nil_append, List.length_nil, Nat.zero_add, h1, List.set_cons_zero,
      List.getD_cons_zero, List.set_cons_succ, set_append_last]
  | cons x a ih =>
    have : (x :: a).length + ms.length + 1 = (a.length + ms.length + 1) + 1 := by
      simp only [List.length_cons]; omega
    rw [this, List.length_cons, List.cons_append, swap_at_cons, ih]
    rfl

theorem swap_at_length (v : program_option_type) (i j : Nat) :
    (swap_at v i j).length = v.length := by
  simp [swap_at]

theorem swap_at_drop (scanned : program_option_type) (it : Str) (mark : Nat)
    (h : mark ≤ scanned.length) (t : Str) :
    t ∈ (swap_at (scanned ++ [it]) mark scanned.length).drop (mark + 1) ↔ t ∈ scanned.drop mark := by
  obtain ⟨a, mid, rfl, rfl⟩ : ∃ a mid, scanned = a ++ mid ∧ a.length = mark :=
    ⟨scanned.take mark, scanned.drop mark, (List.take_append_drop _ _).symm,
      List.length_take_of_le h⟩
  cases mid with
  | nil =>
    simp only [List.append_nil, swap_at_self]
    simp
  | cons m ms =>
    have e1 : (a ++ m :: ms ++ [it]) = a ++ m :: (ms ++ [it]) := by simp
    have e2 : (a ++ m :: ms).length = a.length + ms.length + 1 := by simp; omega
    rw [e1, e2, swap_at_rotate]
    simp only [List.drop_left', List.drop_succ_cons, List.drop_zero, List.mem_append,
      List.mem_singleton, List.mem_cons]
    have : List.drop (a.length + 1) (a ++ it :: (ms ++ [m])) = ms ++ [m] := by
      rw [List.drop_append_eq_append_drop]
      simp
    rw [this]
    simp only [List.mem_append, List.mem_singleton]
    tauto

/-- The loop of the positional vector `consume`: behind `mark` the buffer
keeps, up to their order, the tokens that were not accepted, among them every
token that begins with `-`; only the destination is written. -/
theorem PositionalValueVector_scan_effect (ty : Ty) (value_ : Ref) (max_count_ : Nat)
    (suf : program_option_type) :
    ∀ (count_ mark : Nat) (store : Store) (scanned : program_option_type) (s : VectorScan),
      mark ≤ scanned.length →
      PositionalValueVector.scan ty value_ max_count_ count_ mark store scanned suf
        = Outcome.done s →
      (∀ t ∈ s.opts.drop s.mark, t ∈ scanned.drop mark ++ suf)
        ∧ (∀ t ∈ scanned.drop mark ++ suf, front t = '-' → t ∈ s.opts.drop s.mark)
        ∧ (∀ q, q ≠ value_ → s.store q = store q) := by
  induction suf with
  | nil =>
    intro count_ mark store scanned s _ h
    simp only [PositionalValueVector.scan, Outcome.done.injEq] at h
    subst h
    refine ⟨?_, ?_, ?_⟩
    · intro t ht; simpa using ht
    · intro t ht _; simpa using ht
    · intro q _; rfl
  | cons it rest ih =>
    intro count_ mark store scanned s hmark h
    have hdrop : (scanned ++ [it]).drop mark = scanned.drop mark ++ [it] := by
      rw [List.drop_append_eq_append_drop]
      have : mark - scanned.length = 0 := by omega
      simp [this]
    have hdrop2 : (scanned ++ it :: rest).drop mark = scanned.drop mark ++ it :: rest := by
      rw [List.drop_append_eq_append_drop]
      have : mark - scanned.length = 0 := by omega
      simp [this]
    by_cases hc : count_ < max_count_
    · by_cases hf : front it = '-'
      · simp only [PositionalValueVector.scan, hc, if_true, hf, bne_self_eq_false,
          Bool.false_eq_true, if_false] at h
        obtain ⟨h1, h2, h3⟩ := ih count_ mark store (scanned ++ [it]) s
          (by simp; omega) h
        rw [hdrop] at h1 h2
        refine ⟨?_, ?_, h3⟩
        · intro t ht
          have := h1 t ht
          simpa using this
        · intro t ht hft
          exact h2 t (by simpa using ht) hft
      · have hf2 : (front it != '-') = true := by simpa using hf
        by_cases hb : (extract ty it).bad = true
        · simp only [PositionalValueVector.scan, hc, if_true, hf2, hb,
            Outcome.done.injEq] at h
          subst h
          simp only [hdrop2]
          exact ⟨fun t ht => ht, fun t ht _ => ht, fun q _ => trivial⟩
        · simp only [PositionalValueVector.scan, hc, if_true, hf2, hb, Bool.false_eq_true,
            if_false] at h
          obtain ⟨h1, h2, h3⟩ := ih (count_ + 1) (mark + 1)
            (store.push_back value_ (extracted_tmp ty (extract ty it)))
            (swap_at (scanned ++ [it]) mark scanned.length) s
            (by rw [swap_at_length]; simp; omega) h
          refine ⟨?_, ?_, ?_⟩
          · intro t ht
            rcases List.mem_append.mp (h1 t ht) with h | h
            · exact List.mem_append_left _ ((swap_at_drop scanned it mark hmark t).mp h)
            · exact List.mem_append_right _ (List.mem_cons_of_mem _ h)
          · intro t ht hft
            apply h2 t _ hft
            rcases List.mem_append.mp ht with h | h
            · exact List.mem_append_left _ ((swap_at_drop scanned it mark hmark t).mpr h)
            · rcases List.mem_cons.mp h with rfl | h
              · exact absurd hft hf
              · exact List.mem_append_right _ h
          · intro q hq
            rw [h3 q hq, push_back_other _ _ _ _ hq]
    · simp only [PositionalValueVector.scan, hc, if_false, Outcome.done.injEq] at h
      subst h
      simp only [hdrop2]
      exact ⟨fun t ht => ht, fun t ht _ => ht, fun q _ => trivial⟩


theorem same_option_refl (d : OptionValueBase) : same_option d d :=
  ⟨rfl, rfl, rfl, rfl, rfl, rfl, rfl, rfl, fun _ => rfl⟩

theorem same_option_consumed (d : OptionValueBase) :
    same_option d { d with consumed_ := true } :=
  ⟨rfl, rfl, rfl, rfl, rfl, rfl, rfl, rfl, fun _ => rfl⟩

theorem same_option_trans {a b c : OptionValueBase} (h1 : same_option a b)
    (h2 : same_option b c) : same_option a c := by
  obtain ⟨a1, a2, a3, a4, a5, a6, a7, a8, a9⟩ := h1
  obtain ⟨b1, b2, b3, b4, b5, b6, b7, b8, b9⟩ := h2
  refine ⟨b1.trans a1, b2.trans a2, b3.trans a3, b4.trans a4, b5.trans a5, b6.trans a6,
    b7.trans a7, b8.trans a8, fun h => ?_⟩
  rw [b9 (by rw [a8]; exact h), a9 h]

theorem NameValue_consume_named_effect (self : OptionValueBase) (ty : Ty) (value_ : Ref)
    (store : Store) (opts : program_option_type) :
    NamedEffect self value_ store opts (NameValue.consume self ty value_ store [] opts) := by
  rcases NameValue_consume_cases self ty value_ store [] opts with ⟨_, h⟩
    | ⟨a, x, r, rfl, _, _, _, h⟩ | ⟨a, x, nx, af, rfl, _, _, _, _, h⟩
    | ⟨a, x, nx, af, rfl, _, h2, h3, _, h⟩
  · rw [h]
    exact ⟨fun t ht => by simpa using ht, fun t ht _ _ => by simpa using ht, fun q _ => rfl,
      Or.inl rfl⟩
  · rw [h]
    exact ⟨fun t ht => by simpa using ht, fun t ht _ _ => by simpa using ht, fun q _ => rfl,
      Or.inl rfl⟩
  · rw [h]
    exact ⟨fun t ht => by simpa using ht, fun t ht _ _ => by simpa using ht,
      fun q hq => assign_other _ _ _ _ hq, Or.inl rfl⟩
  · rw [h]
    refine ⟨?_, ?_, fun q hq => assign_other _ _ _ _ hq, Or.inr rfl⟩
    · intro t ht
      simp only [List.nil_append, List.mem_append, List.mem_cons] at ht ⊢
      tauto
    · intro t ht hf hnm
      simp only [List.nil_append, List.mem_append, List.mem_cons] at ht ⊢
      rcases ht with ht | rfl | rfl | ht
      · exact Or.inl ht
      · rw [h2] at hnm; cases hnm
      · exact absurd hf h3
      · exact Or.inr ht

theorem Flag_consume_named_effect (self : OptionValueBase) (value_ : Ref) (v : Scalar)
    (store : Store) (opts : program_option_type) :
    NamedEffect self value_ store opts (Flag.consume self value_ v store [] opts) := by
  rcases Flag_consume_cases self value_ v store [] opts with ⟨_, h⟩ | ⟨a, x, af, rfl, _, h2, h⟩
  · rw [h]
    exact ⟨fun t ht => by simpa using ht, fun t ht _ _ => by simpa using ht, fun q _ => rfl,
      Or.inl rfl⟩
  · rw [h]
    refine ⟨?_, ?_, fun q hq => set_other _ _ _ _ hq, Or.inr rfl⟩
    · intro t ht
      simp only [List.nil_append, List.mem_append, List.mem_cons] at ht ⊢
      tauto
    · intro t ht _ hnm
      simp only [List.nil_append, List.mem_append, List.mem_cons] at ht ⊢
      rcases ht with ht | rfl | ht
      · exact Or.inl ht
      · rw [h2] at hnm; cases hnm
      · exact Or.inr ht

theorem effect_of_named {d : OptionValueBase} {value_ : Ref} {store : Store}
    {opts : program_option_type} {r : ConsumeResult} (hnamed : d.is_named = true)
    (hv : d.value_ = value_) (h : NamedEffect d value_ store opts r) : Effect d store opts r := by
  obtain ⟨h1, h2, h3, h4⟩ := h
  refine ⟨h1, fun t ht hf hn => h2 t ht hf (hn hnamed),
    fun q hq => h3 q (by rw [← hv]; exact hq), ?_⟩
  rcases h4 with h4 | h4 <;> rw [h4]
  · exact same_option_refl d
  · exact same_option_consumed d

theorem PositionalValue_consume_full_effect (d : OptionValueBase) (ty : Ty) (value_ : Ref)
    (hd : d.impl = OptionImpl.PositionalValue ty value_) (store : Store)
    (opts : program_option_type) :
    Effect d store opts (PositionalValue.consume d ty value_ store [] opts) := by
  have hv : d.value_ = value_ := by simp [OptionValueBase.value_, hd]
  rcases PositionalValue_consume_cases d ty value_ store [] opts with ⟨_, h⟩
    | ⟨a, x, af, rfl, _, h2, h⟩
  · rw [h]
    exact ⟨fun t ht => by simpa using ht, fun t ht _ _ => by simpa using ht, fun q _ => rfl,
      same_option_refl d⟩
  · rw [h]
    refine ⟨?_, ?_, fun q hq => assign_other _ _ _ _ (by rw [← hv]; exact hq),
      same_option_consumed d⟩
    · intro t ht
      simp only [List.nil_append, List.mem_append, List.mem_cons] at ht ⊢
      tauto
    · intro t ht hf _
      simp only [List.nil_append, List.mem_append, List.mem_cons] at ht ⊢
      rcases ht with ht | rfl | ht
      · exact Or.inl ht
      · exact absurd hf h2
      · exact Or.inr ht

theorem same_option_update (d : OptionValueBase) (ty : Ty) (value_ : Ref)
    (count_ : Nat) (exact_count_ : Bool) (max_count_ : Nat) (q : Option Nat) (c m : Nat)
    (hd : d.impl = OptionImpl.PositionalValueVector ty value_ count_ exact_count_ max_count_ q) :
    same_option d (PositionalValueVector.update d ty value_ c exact_count_ m q) := by
  refine ⟨rfl, rfl, rfl, rfl, ?_, ?_, ?_, ?_, ?_⟩
  · simp [OptionValueBase.value_, PositionalValueVector.update, hd]
  · simp [OptionValueBase.is_named, PositionalValueVector.update, hd]
  · simp [OptionValueBase.dependent, PositionalValueVector.update, hd]
  · simp [OptionValueBase.is_positional_vector, PositionalValueVector.update, hd]
  · intro h
    simp [OptionValueBase.is_positional_vector, hd] at h

theorem PositionalValueVector_consume_counted_effect (d : OptionValueBase) (ty : Ty)
    (value_ : Ref) (count_ : Nat) (exact_count_ : Bool) (max_count_ m : Nat) (q : Option Nat)
    (hd : d.impl = OptionImpl.PositionalValueVector ty value_ count_ exact_count_ max_count_ q)
    (store : Store) (opts : program_option_type) (r : ConsumeResult)
    (h : PositionalValueVector.consume_counted d ty value_ count_ exact_count_ m q store opts
      = Outcome.done r) :
    Effect d store opts r := by
  have hv : d.value_ = value_ := by simp [OptionValueBase.value_, hd]
  have hn : d.is_named = false := by simp [OptionValueBase.is_named, hd]
  unfold PositionalValueVector.consume_counted at h
  cases hs : PositionalValueVector.scan ty value_ m count_ 0 store [] opts with
  | undefined => rw [hs] at h; cases h
  | unfinished => rw [hs] at h; cases h
  | done s =>
    rw [hs] at h
    obtain ⟨h1, h2, h3⟩ := PositionalValueVector_scan_effect ty value_ m opts count_ 0 store []
      s (Nat.zero_le _) hs
    simp only [List.drop_zero, List.nil_append] at h1 h2
    have hsame := same_option_update d ty value_ count_ exact_count_ max_count_ q s.count_ m hd
    have hsame2 := same_option_trans hsame (same_option_consumed _)
    simp only at h
    split at h
    · simp only [Outcome.done.injEq] at h
      subst h
      exact ⟨h1, fun t ht hf _ => h2 t ht hf, fun x hx => h3 x (by rw [← hv]; exact hx), hsame⟩
    · split at h
      · simp only [Outcome.done.injEq] at h
        subst h
        exact ⟨h1, fun t ht hf _ => h2 t ht hf, fun x hx => h3 x (by rw [← hv]; exact hx),
          hsame⟩
      · simp only [Outcome.done.injEq] at h
        subst h
        exact ⟨h1, fun t ht hf _ => h2 t ht hf, fun x hx => h3 x (by rw [← hv]; exact hx),
          hsame2⟩

/-- Every `consume` that returns has the effect described by `Effect`. -/
theorem consume_effect (heap : List OptionValueBase) (d : OptionValueBase) (store : Store)
    (opts : program_option_type) (r : ConsumeResult)
    (h : d.consume heap store opts = Outcome.done r) : Effect d store opts r := by
  unfold OptionValueBase.consume at h
  split at h
  · rename_i ty value_ hd
    simp only [Outcome.done.injEq] at h
    subst h
    exact effect_of_named (by simp [OptionValueBase.is_named, hd])
      (by simp [OptionValueBase.value_, hd]) (NameValue_consume_named_effect d ty value_ store opts)
  · rename_i ty value_ max_count_ hd
    exact effect_of_named (by simp [OptionValueBase.is_named, hd])
      (by simp [OptionValueBase.value_, hd])
      (NameValueVector_consume_effect d ty value_ max_count_ store opts r h)
  · rename_i value_ hd
    simp only [Outcome.done.injEq] at h
    subst h
    exact effect_of_named (by simp [OptionValueBase.is_named, hd])
      (by simp [OptionValueBase.value_, hd]) (Flag_consume_named_effect d value_ _ store opts)
  · rename_i value_ v hd
    simp only [Outcome.done.injEq] at h
    subst h
    exact effect_of_named (by simp [OptionValueBase.is_named, hd])
      (by simp [OptionValueBase.value_, hd]) (Flag_consume_named_effect d value_ v store opts)
  · rename_i ty value_ hd
    simp only [Outcome.done.injEq] at h
    subst h
    exact PositionalValue_consume_full_effect d ty value_ hd store opts
  · rename_i ty value_ count_ exact_count_ max_count_ q hd
    unfold PositionalValueVector.consume at h
    split at h
    · split at h
      · split at h
        · cases h
        · exact PositionalValueVector_consume_counted_effect d ty value_ count_ exact_count_
            max_count_ _ _ hd store opts r h
      · simp only [Outcome.done.injEq] at h
        subst h
        exact ⟨fun t ht => ht, fun t ht _ _ => ht, fun x _ => rfl, same_option_refl d⟩
    · exact PositionalValueVector_consume_counted_effect d ty value_ count_ exact_count_
        max_count_ _ _ hd store opts r h

/-- The call `p->consume(argvv)` that returns: the object called, the result
of its `consume`, and the state left behind. -/
theorem consume_at_done {p : Nat} {st st1 : State} {ret : Bool}
    (h : consume_at p st = Outcome.done (ret, st1)) :
    ∃ d r, st.heap[p]? = some d ∧ d.consume st.heap st.store st.argvv = Outcome.done r
      ∧ ret = r.ret ∧ st1 = ⟨st.heap.set p r.self, r.store, r.opts⟩ := by
  unfold consume_at at h
  cases hd : st.heap[p]? with
  | none => simp [hd] at h
  | some d =>
    simp only [hd] at h
    cases hr : d.consume st.heap st.store st.argvv with
    | undefined => simp [hr] at h
    | unfinished => simp [hr] at h
    | done r =>
      simp only [hr, Outcome.done.injEq, Prod.mk.injEq] at h
      exact ⟨d, r, rfl, hr, h.1.symm, h.2.symm⟩


/-! ### The step budget is never used up -/

theorem NameValueVector_scan_finishes (ty : Ty) (value_ : Ref) (max_count_ : Nat)
    (restart : OptionValueBase → Store → program_option_type → Outcome ConsumeResult)
    (self : OptionValueBase) (store : Store) (suf : program_option_type) :
    ∀ (pre : program_option_type),
      (∀ self1 store1 opts1, opts1.length < pre.length + suf.length →
        restart self1 store1 opts1 ≠ Outcome.unfinished) →
      NameValueVector.scan ty value_ max_count_ restart self store pre suf
        ≠ Outcome.unfinished := by
  induction suf with
  | nil => intro pre _; simp [NameValueVector.scan]
  | cons it rest ih =>
    intro pre hre
    by_cases hm : self.name_match it = true
    · simp only [NameValueVector.scan, hm, if_true]
      have hv := NameValueVector_read_values_cases ty value_ max_count_ rest 0 store
      revert hv
      cases NameValueVector.read_values ty value_ max_count_ 0 rest store with
      | bad store1 => intro _; simp
      | stop c rest1 store1 =>
        rintro ⟨vals, rfl, _, _, _⟩
        by_cases hc : (c != max_count_) = true
        · simp [hc]
        · simp only [hc, Bool.false_eq_true, if_false]
          exact hre _ _ _ (by simp; omega)
    · have hm2 : self.name_match it = false := by simpa using hm
      simp only [NameValueVector.scan, hm2, Bool.false_eq_true, if_false]
      exact ih (pre ++ [it]) (fun s1 st1 o1 ho => hre s1 st1 o1 (by simp at ho ⊢; omega))

theorem NameValueVector_loop_finishes (ty : Ty) (value_ : Ref) (max_count_ : Nat) (fuel : Nat) :
    ∀ (self : OptionValueBase) (store : Store) (pre suf : program_option_type),
      pre.length + suf.length < fuel →
      NameValueVector.loop ty value_ max_count_ fuel self store pre suf ≠ Outcome.unfinished := by
  induction fuel with
  | zero => intro self store pre suf h; omega
  | succ fuel ih =>
    intro self store pre suf h
    rw [NameValueVector.loop]
    apply NameValueVector_scan_finishes
    intro self1 store1 opts1 hlen
    cases opts1 with
    | nil => simp
    | cons first more =>
      exact ih self1 store1 [first] more (by simp at hlen ⊢; omega)

/-- The budget `opts.length + 1` given to the loop of the vector `consume`
is enough. -/
theorem NameValueVector_consume_finishes (self : OptionValueBase) (ty : Ty) (value_ : Ref)
    (max_count_ : Nat) (store : Store) (opts : program_option_type) :
    NameValueVector.consume self ty value_ max_count_ store opts ≠ Outcome.unfinished :=
  NameValueVector_loop_finishes ty value_ max_count_ _ self store [] opts (by simp)

theorem PositionalValueVector_scan_finishes (ty : Ty) (value_ : Ref) (max_count_ : Nat)
    (suf : program_option_type) :
    ∀ (count_ mark : Nat) (store : Store) (scanned : program_option_type),
      PositionalValueVector.scan ty value_ max_count_ count_ mark store scanned suf
        ≠ Outcome.unfinished := by
  induction suf with
  | nil => intro count_ mark store scanned; simp [PositionalValueVector.scan]
  | cons it rest ih =>
    intro count_ mark store scanned
    simp only [PositionalValueVector.scan]
    split
    · split
      · split
        · simp
        · exact ih _ _ _ _
      · exact ih _ _ _ _
    · simp

theorem PositionalValueVector_consume_counted_finishes (self : OptionValueBase) (ty : Ty)
    (value_ : Ref) (count_ : Nat) (exact_count_ : Bool) (max_count_ : Nat) (q : Option Nat)
    (store : Store) (opts : program_option_type) :
    PositionalValueVector.consume_counted self ty value_ count_ exact_count_ max_count_ q store
      opts ≠ Outcome.unfinished := by
  unfold PositionalValueVector.consume_counted
  have := PositionalValueVector_scan_finishes ty value_ max_count_ opts count_ 0 store []
  revert this
  cases PositionalValueVector.scan ty value_ max_count_ count_ 0 store [] opts with
  | undefined => intro _; simp
  | unfinished => intro h; exact absurd rfl h
  | done s =>
    intro _
    simp only
    split
    · simp
    · split <;> simp

theorem consume_finishes (heap : List OptionValueBase) (d : OptionValueBase) (store : Store)
    (opts : program_option_type) : d.consume heap store opts ≠ Outcome.unfinished := by
  unfold OptionValueBase.consume
  split
  · simp
  · exact NameValueVector_consume_finishes _ _ _ _ _ _
  · simp
  · simp
  · simp
  · unfold PositionalValueVector.consume
    split
    · split
      · split
        · simp
        · exact PositionalValueVector_consume_counted_finishes _ _ _ _ _ _ _ _ _
      · simp
    · exact PositionalValueVector_consume_counted_finishes _ _ _ _ _ _ _ _ _

theorem consume_at_finishes (p : Nat) (st : State) : consume_at p st ≠ Outcome.unfinished := by
  unfold consume_at
  cases st.heap[p]? with
  | none => simp
  | some d =>
    simp only
    have := consume_finishes st.heap d st.store st.argvv
    revert this
    cases d.consume st.heap st.store st.argvv with
    | undefined => intro _; simp
    | unfinished => intro h; exact absurd rfl h
    | done r => intro _; simp

theorem consume_named_finishes (ps : List Nat) :
    ∀ st : State, consume_named ps st ≠ Outcome.unfinished := by
  induction ps with
  | nil => intro st; simp [consume_named]
  | cons p ps ih =>
    intro st
    rw [consume_named]
    have := consume_at_finishes p st
    revert this
    cases consume_at p st with
    | undefined => intro _; simp
    | unfinished => intro h; exact absurd rfl h
    | done x =>
      intro _
      obtain ⟨ret, st1⟩ := x
      simp only
      split
      · exact ih st1
      · simp

theorem consume_positionals_finishes (ps : List Nat) :
    ∀ st : State, consume_positionals ps st ≠ Outcome.unfinished := by
  induction ps with
  | nil => intro st; simp [consume_positionals]
  | cons p ps ih =>
    intro st
    rw [consume_positionals]
    have := consume_at_finishes p st
    revert this
    cases consume_at p st with
    | undefined => intro _; simp
    | unfinished => intro h; exact absurd rfl h
    | done x =>
      intro _
      obtain ⟨ret, st1⟩ := x
      exact ih st1

/-- How `process_arguments` ends: in undefined behaviour, with -1 after a
named `consume` returned false, or with the checks of `finish` after both
loops; never with the step budget used up. -/
theorem process_arguments_cases (m : ProgramOptionManager) (store : Store) (args : List Str) :
    m.process_arguments store args = Outcome.undefined
      ∨ (∃ st1, consume_named m.prepare.opts_ ⟨m.prepare.heap,
            store.set Ref.help (Val.scalar (Scalar.bool false)),
            preprocess m.prepare.heap m.prepare.opts_ args⟩ = Outcome.done (false, st1)
          ∧ m.process_arguments store args = Outcome.done ⟨-1, Report.named_error st1.argvv,
            ⟨st1.heap, m.prepare.opts_, m.prepare.positionals_⟩, st1.store, st1.argvv⟩)
      ∨ (∃ st1 st2, consume_named m.prepare.opts_ ⟨m.prepare.heap,
            store.set Ref.help (Val.scalar (Scalar.bool false)),
            preprocess m.prepare.heap m.prepare.opts_ args⟩ = Outcome.done (true, st1)
          ∧ consume_positionals m.prepare.positionals_ st1 = Outcome.done st2
          ∧ m.process_arguments store args = Outcome.done (finish m.prepare st2)) := by
  unfold ProgramOptionManager.process_arguments
  simp only
  have h1 := consume_named_finishes m.prepare.opts_ ⟨m.prepare.heap,
    store.set Ref.help (Val.scalar (Scalar.bool false)),
    preprocess m.prepare.heap m.prepare.opts_ args⟩
  revert h1
  cases consume_named m.prepare.opts_ ⟨m.prepare.heap,
    store.set Ref.help (Val.scalar (Scalar.bool false)),
    preprocess m.prepare.heap m.prepare.opts_ args⟩ with
  | undefined => intro _; left; rfl
  | unfinished => intro h; exact absurd rfl h
  | done x =>
    intro _
    obtain ⟨ret, st1⟩ := x
    cases ret with
    | false => right; left; exact ⟨st1, rfl, by simp⟩
    | true =>
      have h2 := consume_positionals_finishes m.prepare.positionals_ st1
      revert h2
      cases hpos : consume_positionals m.prepare.positionals_ st1 with
      | undefined => intro _; left; simp [hpos]
      | unfinished => intro h; exact absurd rfl h
      | done st2 => intro _; right; right; exact ⟨st1, st2, rfl, hpos, by simp [hpos]⟩


theorem finish_store (m : ProgramOptionManager) (st : State) : (finish m st).store = st.store := by
  unfold finish
  simp only
  split
  · rfl
  · split <;> rfl

/-- A token of at most two characters is never split. -/
theorem mem_preprocess_short (heap : List OptionValueBase) (opts_ : List Nat) (args : List Str)
    (t : Str) (ht : t ∈ args) (hlen : t.length ≤ 2) : t ∈ preprocess heap opts_ args := by
  obtain ⟨a, b, rfl⟩ := List.append_of_mem ht
  have h1 : preprocess heap opts_ [t] = [t] := by
    have hs : splits heap opts_ t = false := by
      cases h : splits heap opts_ t with
      | false => rfl
      | true =>
        obtain ⟨_, _, _, _, _, h2⟩ := (splits_iff _ _ _).mp h
        omega
    simp [preprocess, back_insert_args, hs]
  have : a ++ t :: b = a ++ ([t] ++ b) := by simp
  rw [this, preprocess_append, preprocess_append, h1]
  simp

theorem Flag_consume_ret (self : OptionValueBase) (value_ : Ref) (v : Scalar) (store : Store)
    (opts : program_option_type) : (Flag.consume self value_ v store [] opts).ret = true := by
  rcases Flag_consume_cases self value_ v store [] opts with ⟨_, h⟩ | ⟨_, _, _, _, _, _, h⟩ <;>
    rw [h]

theorem Flag_consume_hit (self : OptionValueBase) (value_ : Ref) (v : Scalar) (store : Store)
    (opts : program_option_type) (t : Str) (ht : t ∈ opts) (hm : self.name_match t = true) :
    (Flag.consume self value_ v store [] opts).store value_ = Val.scalar v := by
  rcases Flag_consume_cases self value_ v store [] opts with ⟨h0, _⟩ | ⟨_, _, _, _, _, _, h⟩
  · rw [h0 t ht] at hm; cases hm
  · rw [h]; simp [Store.set]

theorem flags_prepare :
    flags_manager.prepare =
      ⟨[OptionValueBase.named ['O'] ['O', 'N', 'E'] false
          (OptionImpl.FlagValue (Ref.var 0) (Scalar.int 1)),
        OptionValueBase.named ['T'] ['T', 'W', 'O'] false
          (OptionImpl.FlagValue (Ref.var 0) (Scalar.int 2)),
        help_option], [0, 1, 2], []⟩ := by
  decide

/-! ### C8: a value that is no number -/

theorem name_match_of_same {d d1 : OptionValueBase} (h : same_option d d1) (t : Str) :
    d1.name_match t = d.name_match t := by
  simp only [OptionValueBase.name_match, h.1, h.2.1]

/-- One `consume` seen from the help flag: the heap stays as the help flag
needs it, `help` stays true once set, the token `-h` stays in the buffer until
`help` is set, and the help flag itself sets `help` when `-h` is there. -/
theorem help_step (n p : Nat) (st st1 : State) (ret : Bool)
    (h : consume_at p st = Outcome.done (ret, st1)) (hh : help_heap n st.heap) :
    help_heap n st1.heap
      ∧ (st.store Ref.help = Val.scalar (Scalar.bool true) →
          st1.store Ref.help = Val.scalar (Scalar.bool true))
      ∧ (['-', 'h'] ∈ st.argvv →
          ['-', 'h'] ∈ st1.argvv ∨ st1.store Ref.help = Val.scalar (Scalar.bool true))
      ∧ (p = n → ['-', 'h'] ∈ st.argvv → st1.store Ref.help = Val.scalar (Scalar.bool true)) := by
  obtain ⟨d, r, hd, hr, _, rfl⟩ := consume_at_done h
  have eff := consume_effect _ _ _ _ _ hr
  obtain ⟨hh1, dh, hdh, hsame⟩ := hh
  by_cases hpn : p = n
  · subst hpn
    rw [hd] at hdh
    cases hdh
    have himpl : d.impl = OptionImpl.NameValueBool Ref.help := hsame.2.2.2.2.2.2.2.2 rfl
    have hmatch : d.name_match ['-', 'h'] = true := by
      rw [name_match_of_same hsame]; decide
    have hr2 : r = Flag.consume d Ref.help (Scalar.bool true) st.store [] st.argvv := by
      unfold OptionValueBase.consume at hr
      rw [himpl] at hr
      simp only [Outcome.done.injEq] at hr
      exact hr.symm
    have hstore : (st.store Ref.help = Val.scalar (Scalar.bool true) →
          r.store Ref.help = Val.scalar (Scalar.bool true))
        ∧ (['-', 'h'] ∈ st.argvv → r.store Ref.help = Val.scalar (Scalar.bool true)) := by
      rw [hr2]
      rcases Flag_consume_cases d Ref.help (Scalar.bool true) st.store [] st.argvv
        with ⟨h0, e⟩ | ⟨_, _, _, _, _, _, e⟩
      · rw [e]
        refine ⟨fun hs => hs, fun hin => ?_⟩
        rw [h0 _ hin] at hmatch
        cases hmatch
      · rw [e]
        exact ⟨fun _ => by simp [Store.set], fun _ => by simp [Store.set]⟩
    refine ⟨⟨?_, ?_⟩, hstore.1, fun hin => Or.inr (hstore.2 hin), fun _ hin => hstore.2 hin⟩
    · intro q dq hq hqn
      rw [List.getElem?_set_ne (Ne.symm hqn)] at hq
      exact hh1 q dq hq hqn
    · refine ⟨r.self, ?_, same_option_trans hsame eff.same⟩
      rw [List.getElem?_set_self (List.getElem?_eq_some.mp hd).1]
  · obtain ⟨hd1, hd2⟩ := hh1 p d hd hpn
    have hst : r.store Ref.help = st.store Ref.help := eff.frame Ref.help (Ne.symm hd2)
    refine ⟨⟨?_, ?_⟩, fun hs => by rw [← hs]; exact hst, ?_, fun e => absurd e hpn⟩
    · intro q dq hq hqn
      by_cases hqp : p = q
      · subst hqp
        rw [List.getElem?_set_self (List.getElem?_eq_some.mp hd).1] at hq
        cases hq
        refine ⟨fun hnm => ?_, ?_⟩
        · rw [name_match_of_same eff.same]
          exact hd1 (by rw [← eff.same.2.2.2.2.2.1]; exact hnm)
        · rw [eff.same.2.2.2.2.1]; exact hd2
      · rw [List.getElem?_set_ne hqp] at hq
        exact hh1 q dq hq hqn
    · refine ⟨dh, ?_, hsame⟩
      rw [List.getElem?_set_ne hpn]
      exact hdh
    · intro hin
      exact Or.inl (eff.keep _ hin (by decide) hd1)

theorem help_named (n : Nat) (ps : List Nat) :
    ∀ (st st1 : State), consume_named ps st = Outcome.done (true, st1) →
      help_heap n st.heap →
      help_heap n st1.heap
        ∧ (st.store Ref.help = Val.scalar (Scalar.bool true) →
            st1.store Ref.help = Val.scalar (Scalar.bool true))
        ∧ (n ∈ ps → ['-', 'h'] ∈ st.argvv →
            st1.store Ref.help = Val.scalar (Scalar.bool true))
        ∧ (['-', 'h'] ∈ st.argvv →
            ['-', 'h'] ∈ st1.argvv ∨ st1.store Ref.help = Val.scalar (Scalar.bool true)) := by
  induction ps with
  | nil =>
    intro st st1 h hh
    simp only [consume_named, Outcome.done.injEq, Prod.mk.injEq, true_and] at h
    subst h
    exact ⟨hh, fun hs => hs, fun hn => absurd hn (List.not_mem_nil n), fun hin => Or.inl hin⟩
  | cons p ps ih =>
    intro st st1 h hh
    rw [consume_named] at h
    cases hc : consume_at p st with
    | undefined => rw [hc] at h; cases h
    | unfinished => rw [hc] at h; cases h
    | done x =>
      obtain ⟨ret, st2⟩ := x
      rw [hc] at h
      simp only at h
      cases ret with
      | false => simp at h
      | true =>
        simp only [if_true] at h
        obtain ⟨s1, s2, s3, s4⟩ := help_step n p st st2 true hc hh
        obtain ⟨i1, i2, i3, i4⟩ := ih st2 st1 h s1
        refine ⟨i1, fun hs => i2 (s2 hs), fun hn hin => ?_, fun hin => ?_⟩
        · rcases List.mem_cons.mp hn with rfl | hn
          · exact i2 (s4 rfl hin)
          · rcases s3 hin with h1 | h1
            · exact i3 hn h1
            · exact i2 h1
        · rcases s3 hin with h1 | h1
          · exact i4 h1
          · exact Or.inr (i2 h1)

theorem help_positionals (n : Nat) (ps : List Nat) :
    ∀ (st st1 : State), consume_positionals ps st = Outcome.done st1 →
      help_heap n st.heap →
      st.store Ref.help = Val.scalar (Scalar.bool true) →
      st1.store Ref.help = Val.scalar (Scalar.bool true) := by
  induction ps with
  | nil =>
    intro st st1 h _ hs
    simp only [consume_positionals, Outcome.done.injEq] at h
    subst h
    exact hs
  | cons p ps ih =>
    intro st st1 h hh hs
    rw [consume_positionals] at h
    cases hc : consume_at p st with
    | undefined => rw [hc] at h; cases h
    | unfinished => rw [hc] at h; cases h
    | done x =>
      obtain ⟨ret, st2⟩ := x
      rw [hc] at h
      obtain ⟨s1, s2, _, _⟩ := help_step n p st st2 ret hc hh
      exact ih st2 st1 h s1 (s2 hs)

theorem help_heap_prepare (m : ProgramOptionManager)
    (h1 : ∀ d ∈ m.heap, d.is_named = true → d.name_match ['-', 'h'] = false)
    (h2 : ∀ d ∈ m.heap, d.value_ ≠ Ref.help) : help_heap m.heap.length m.prepare.heap := by
  rw [prepare_heap]
  refine ⟨?_, help_option, ?_, same_option_refl _⟩
  · intro q d hq hqn
    have hlt : q < m.heap.length := by
      have := (List.getElem?_eq_some.mp hq).1
      simp only [List.length_append, List.length_singleton] at this
      omega
    rw [List.getElem?_append_left hlt] at hq
    have hmem := List.getElem?_mem hq
    exact ⟨h1 d hmem, h2 d hmem⟩
  · rw [List.getElem?_append_right (Nat.le_refl _)]
    simp [help_option]

/-- C6 (as amended): when the argument list holds the token `-h`, no
registered named option is itself matched by `-h`, and the local `help` is the
destination of the help flag only, `process_arguments` never returns 1: if it
returns at all (it may run into undefined behaviour), it returns 0 even with
required options missing or tokens left over, or it returns -1 because the
`consume` of a named option returned false. -/
theorem C6_help_requested (m : ProgramOptionManager) (store : Store) (args : List Str)
    (h1 : ∀ d ∈ m.heap, d.is_named = true → d.name_match ['-', 'h'] = false)
    (h2 : ∀ d ∈ m.heap, d.value_ ≠ Ref.help) (hin : ['-', 'h'] ∈ args) :
    m.process_arguments store args = Outcome.undefined
      ∨ ∃ r, m.process_arguments store args = Outcome.done r
        ∧ ((r.retval = 0 ∧ r.report = Report.help)
          ∨ (r.retval = -1 ∧ r.report = Report.named_error r.argvv)) := by
  have hh := help_heap_prepare m h1 h2
  have hbuf := mem_preprocess_short m.prepare.heap m.prepare.opts_ args _ hin (by decide)
  rcases process_arguments_cases m store args with hu | ⟨st1, _, hr⟩ | ⟨st1, st2, hn, hp, hr⟩
  · exact Or.inl hu
  · exact Or.inr ⟨_, hr, Or.inr ⟨rfl, rfl⟩⟩
  · right
    refine ⟨_, hr, Or.inl ?_⟩
    obtain ⟨i1, _, i3, _⟩ := help_named m.heap.length _ _ _ hn hh
    have hs1 := i3 ((mem_prepare_opts m _).mpr (Or.inr rfl)) hbuf
    have hs2 := help_positionals m.heap.length _ _ _ hp i1 hs1
    simp [finish, hs2]

/-- C6 for the demonstration program on `-h` alone: 0, although `count` is
required and missing. -/
theorem C6_help_requested_witness :
    demo_manager.process_arguments empty_vectors [['-', 'h']] = Outcome.undefined
      ∨ ∃ r, demo_manager.process_arguments empty_vectors [['-', 'h']] = Outcome.done r
        ∧ ((r.retval = 0 ∧ r.report = Report.help)
          ∨ (r.retval = -1 ∧ r.report = Report.named_error r.argvv)) :=
  C6_help_requested demo_manager empty_vectors [['-', 'h']] (by decide) (by decide) (by decide)

/-- The demonstration program on `-h` alone does return, with 0. -/
theorem demo_help_alone :
    (demo_manager.process_arguments empty_vectors [['-', 'h']]).map (fun r => r.retval)
      = Outcome.done 0 := by
  decide


/-! ### C5: required options that are missing -/

/-- A descriptor other than a positional vector for which the buffer holds
nothing is left as it is by its `consume`. -/
theorem consume_omitted (heap : List OptionValueBase) (d : OptionValueBase) (store : Store)
    (opts : program_option_type) (r : ConsumeResult) (ho : omitted d opts)
    (hk : d.is_positional_vector = false) (h : d.consume heap store opts = Outcome.done r) :
    r.self = d := by
  cases hn : d.is_named with
  | true =>
    rw [consume_no_match heap d store opts hn (ho.1 hn)] at h
    simp only [Outcome.done.injEq] at h
    rw [← h]
  | false =>
    unfold OptionValueBase.consume at h
    split at h
    · rename_i hd; simp [OptionValueBase.is_named, hd] at hn
    · rename_i hd; simp [OptionValueBase.is_named, hd] at hn
    · rename_i hd; simp [OptionValueBase.is_named, hd] at hn
    · rename_i hd; simp [OptionValueBase.is_named, hd] at hn
    · rename_i ty value_ hd
      rcases PositionalValue_consume_cases d ty value_ store [] opts with ⟨_, e⟩
        | ⟨a, x, af, rfl, _, h2, _⟩
      · rw [e] at h
        simp only [Outcome.done.injEq] at h
        rw [← h]
      · exact absurd (ho.2 hn x (by simp)) h2
    · rename_i hd; simp [OptionValueBase.is_positional_vector, hd] at hk

theorem omit_step (p : Nat) (d : OptionValueBase) (hk : d.is_positional_vector = false)
    (q : Nat) (st st1 : State) (ret : Bool) (h : consume_at q st = Outcome.done (ret, st1))
    (hd : st.heap[p]? = some d) (ho : omitted d st.argvv) :
    st1.heap[p]? = some d ∧ omitted d st1.argvv := by
  obtain ⟨dq, r, hdq, hr, _, rfl⟩ := consume_at_done h
  have eff := consume_effect _ _ _ _ _ hr
  constructor
  · by_cases hqp : q = p
    · subst hqp
      rw [hd] at hdq
      cases hdq
      rw [consume_omitted _ _ _ _ _ ho hk hr]
      simp only
      rw [set_of_get _ _ _ hd]
      exact hd
    · simp only
      rw [List.getElem?_set_ne hqp]
      exact hd
  · exact ⟨fun hn t ht => ho.1 hn t (eff.sub t ht), fun hn t ht => ho.2 hn t (eff.sub t ht)⟩

theorem omit_named (p : Nat) (d : OptionValueBase) (hk : d.is_positional_vector = false)
    (ps : List Nat) :
    ∀ (st st1 : State) (ret : Bool), consume_named ps st = Outcome.done (ret, st1) →
      st.heap[p]? = some d → omitted d st.argvv →
      st1.heap[p]? = some d ∧ omitted d st1.argvv := by
  induction ps with
  | nil =>
    intro st st1 ret h hd ho
    simp only [consume_named, Outcome.done.injEq, Prod.mk.injEq] at h
    rw [← h.2]
    exact ⟨hd, ho⟩
  | cons q ps ih =>
    intro st st1 ret h hd ho
    rw [consume_named] at h
    cases hc : consume_at q st with
    | undefined => rw [hc] at h; cases h
    | unfinished => rw [hc] at h; cases h
    | done x =>
      obtain ⟨ret2, st2⟩ := x
      rw [hc] at h
      obtain ⟨s1, s2⟩ := omit_step p d hk q st st2 ret2 hc hd ho
      cases ret2 with
      | false =>
        simp only [Bool.false_eq_true, if_false, Outcome.done.injEq, Prod.mk.injEq] at h
        rw [← h.2]
        exact ⟨s1, s2⟩
      | true =>
        simp only [if_true] at h
        exact ih st2 st1 ret h s1 s2

theorem omit_positionals (p : Nat) (d : OptionValueBase) (hk : d.is_positional_vector = false)
    (ps : List Nat) :
    ∀ (st st1 : State), consume_positionals ps st = Outcome.done st1 →
      st.heap[p]? = some d → omitted d st.argvv →
      st1.heap[p]? = some d ∧ omitted d st1.argvv := by
  induction ps with
  | nil =>
    intro st st1 h hd ho
    simp only [consume_positionals, Outcome.done.injEq] at h
    rw [← h]
    exact ⟨hd, ho⟩
  | cons q ps ih =>
    intro st st1 h hd ho
    rw [consume_positionals] at h
    cases hc : consume_at q st with
    | undefined => rw [hc] at h; cases h
    | unfinished => rw [hc] at h; cases h
    | done x =>
      obtain ⟨ret2, st2⟩ := x
      rw [hc] at h
      obtain ⟨s1, s2⟩ := omit_step p d hk q st st2 ret2 hc hd ho
      exact ih st2 st1 h s1 s2

theorem first_missing_some (heap : List OptionValueBase) (ps : List Nat) (p : Nat)
    (d : OptionValueBase) (hp : p ∈ ps) (hd : heap[p]? = some d) (hreq : d.required_ = true)
    (hc : d.consumed_ = false) : ∃ d1, first_missing heap ps = some d1 := by
  induction ps with
  | nil => cases hp
  | cons q ps ih =>
    rw [first_missing]
    rcases List.mem_cons.mp hp with rfl | hp
    · rw [hd]
      simp [hreq, hc]
    · cases heap[q]? with
      | none => exact ih hp
      | some dq =>
        simp only
        split
        · exact ⟨dq, rfl⟩
        · exact ih hp

/-- The final check fails when some required descriptor is not consumed. -/
theorem check_required_missing (heap : List OptionValueBase) (positionals_ opts_ : List Nat)
    (p : Nat) (d : OptionValueBase) (hp : p ∈ opts_ ∨ p ∈ positionals_) (hd : heap[p]? = some d)
    (hreq : d.required_ = true) (hc : d.consumed_ = false) :
    (check_required heap positionals_ opts_).1 = -1 := by
  unfold check_required
  cases h1 : first_missing heap positionals_ with
  | some d1 => rfl
  | none =>
    simp only
    cases h2 : first_missing heap opts_ with
    | some d2 => rfl
    | none =>
      rcases hp with hp | hp
      · obtain ⟨d1, e⟩ := first_missing_some heap opts_ p d hp hd hreq hc
        rw [e] at h2; cases h2
      · obtain ⟨d1, e⟩ := first_missing_some heap positionals_ p d hp hd hreq hc
        rw [e] at h1; cases h1

theorem finish_missing (m : ProgramOptionManager) (st : State) (p : Nat) (d : OptionValueBase)
    (hp : p ∈ m.opts_ ∨ p ∈ m.positionals_) (hd : st.heap[p]? = some d)
    (hreq : d.required_ = true) (hc : d.consumed_ = false) :
    (finish m st).retval = -1 ∨ ((finish m st).retval = 0 ∧ (finish m st).report = Report.help) := by
  unfold finish
  simp only
  split
  · exact Or.inr ⟨rfl, rfl⟩
  · split
    · exact Or.inl rfl
    · exact Or.inl (check_required_missing _ _ _ p d hp hd hreq hc)

/-- On an empty buffer every `consume` returns, writes nothing and leaves the
buffer empty, provided its `count_dependent_` points into the heap. -/
theorem consume_empty (heap : List OptionValueBase) (d : OptionValueBase) (store : Store)
    (hq : ∀ q, d.dependent = some q → q < heap.length) :
    ∃ r, d.consume heap store [] = Outcome.done r ∧ r.store = store ∧ r.opts = [] := by
  cases hn : d.is_named with
  | true =>
    exact ⟨_, consume_no_match heap d store [] hn (fun t ht => absurd ht (List.not_mem_nil t)),
      rfl, rfl⟩
  | false =>
    unfold OptionValueBase.consume
    split
    · rename_i hd; simp [OptionValueBase.is_named, hd] at hn
    · rename_i hd; simp [OptionValueBase.is_named, hd] at hn
    · rename_i hd; simp [OptionValueBase.is_named, hd] at hn
    · rename_i hd; simp [OptionValueBase.is_named, hd] at hn
    · exact ⟨_, rfl, rfl, rfl⟩
    · rename_i ty value_ count_ exact_count_ max_count_ dep hd
      have hcounted : ∀ mx, ∃ r, PositionalValueVector.consume_counted d ty value_ count_
          exact_count_ mx dep store [] = Outcome.done r ∧ r.store = store ∧ r.opts = [] := by
        intro mx
        simp only [PositionalValueVector.consume_counted, PositionalValueVector.scan,
          Bool.not_true, Bool.false_eq_true, if_false, List.drop_nil]
        split
        · exact ⟨_, rfl, rfl, rfl⟩
        · exact ⟨_, rfl, rfl, rfl⟩
      unfold PositionalValueVector.consume
      split
      · cases dep with
        | none => exact ⟨_, rfl, rfl, rfl⟩
        | some q =>
          have hlt : q < heap.length := hq q (by simp [OptionValueBase.dependent, hd])
          simp only [List.getElem?_eq_getElem hlt]
          exact hcounted _
      · exact hcounted _

theorem empty_step (p : Nat) (st : State) (hv : dependents_valid st.heap)
    (hp : p < st.heap.length) (he : st.argvv = []) :
    ∃ ret st1, consume_at p st = Outcome.done (ret, st1) ∧ dependents_valid st1.heap
      ∧ st1.heap.length = st.heap.length ∧ st1.argvv = [] ∧ st1.store = st.store := by
  have hd : st.heap[p]? = some st.heap[p] := List.getElem?_eq_getElem hp
  obtain ⟨r, hr, hs, ho⟩ := consume_empty st.heap st.heap[p] st.store
    (hv _ (List.getElem_mem hp))
  have eff := consume_effect _ _ _ _ _ hr
  refine ⟨r.ret, ⟨st.heap.set p r.self, r.store, r.opts⟩, ?_, ?_, by simp, ho, hs⟩
  · unfold consume_at
    rw [hd, he]
    simp only [hr]
  · intro d hdm q hq
    simp only [List.length_set]
    rcases List.mem_or_eq_of_mem_set hdm with h | h
    · exact hv d h q hq
    · subst h
      rw [eff.same.2.2.2.2.2.2.1] at hq
      exact hv _ (List.getElem_mem hp) q hq

theorem empty_named (ps : List Nat) :
    ∀ (st : State), dependents_valid st.heap → (∀ p ∈ ps, p < st.heap.length) →
      st.argvv = [] →
      ∃ ret st1, consume_named ps st = Outcome.done (ret, st1) ∧ dependents_valid st1.heap
        ∧ st1.heap.length = st.heap.length ∧ st1.argvv = [] ∧ st1.store = st.store := by
  induction ps with
  | nil => intro st hv _ he; exact ⟨true, st, rfl, hv, rfl, he, rfl⟩
  | cons p ps ih =>
    intro st hv hp he
    obtain ⟨ret, st1, h1, h2, h3, h4, h5⟩ := empty_step p st hv (hp p (List.mem_cons_self _ _)) he
    cases ret with
    | false =>
      refine ⟨false, st1, ?_, h2, h3, h4, h5⟩
      rw [consume_named, h1]
      simp
    | true =>
      obtain ⟨ret2, st2, i1, i2, i3, i4, i5⟩ := ih st1 h2
        (fun q hq => by rw [h3]; exact hp q (List.mem_cons_of_mem _ hq)) h4
      refine ⟨ret2, st2, ?_, i2, i3.trans h3, i4, i5.trans h5⟩
      rw [consume_named, h1]
      simpa using i1

theorem empty_positionals (ps : List Nat) :
    ∀ (st : State), dependents_valid st.heap → (∀ p ∈ ps, p < st.heap.length) →
      st.argvv = [] →
      ∃ st1, consume_positionals ps st = Outcome.done st1 ∧ st1.argvv = []
        ∧ st1.store = st.store := by
  induction ps with
  | nil => intro st _ _ he; exact ⟨st, rfl, he, rfl⟩
  | cons p ps ih =>
    intro st hv hp he
    obtain ⟨ret, st1, h1, h2, h3, h4, h5⟩ := empty_step p st hv (hp p (List.mem_cons_self _ _)) he
    obtain ⟨st2, i1, i4, i5⟩ := ih st1 h2
      (fun q hq => by rw [h3]; exact hp q (List.mem_cons_of_mem _ hq)) h4
    refine ⟨st2, ?_, i4, i5.trans h5⟩
    rw [consume_positionals, h1]
    simpa using i1

theorem valid_prepare (m : ProgramOptionManager) (h : m.valid) :
    dependents_valid m.prepare.heap ∧ (∀ p ∈ m.prepare.opts_, p < m.prepare.heap.length)
      ∧ (∀ p ∈ m.prepare.positionals_, p < m.prepare.heap.length) := by
  obtain ⟨h1, h2, h3⟩ := h
  have hlen : m.prepare.heap.length = m.heap.length + 1 := by rw [prepare_heap]; simp
  refine ⟨?_, ?_, ?_⟩
  · intro d hd q hq
    rw [hlen]
    rw [prepare_heap, List.mem_append, List.mem_singleton] at hd
    rcases hd with hd | rfl
    · exact Nat.lt_succ_of_lt (h3 d hd q hq)
    · simp [OptionValueBase.dependent, help_option, OptionValueBase.named] at hq
  · intro p hp
    rw [hlen]
    rcases (mem_prepare_opts m p).mp hp with hp | rfl
    · exact Nat.lt_succ_of_lt (h1 p hp)
    · exact Nat.lt_succ_self _
  · intro p hp
    rw [hlen]
    exact Nat.lt_succ_of_lt (h2 p hp)

/-- C5 (as amended): let `d` be a registered descriptor with `required`
set that is not a positional vector (a single value, a named vector, a flag, a
flag with a value, or a single positional). On an argument list whose token
buffer holds nothing for `d`, `process_arguments` never returns 1: if it
returns, it returns -1, or 0 because help was requested. On the empty argument
list it does return, with -1. -/
theorem C5_missing_required (m : ProgramOptionManager) (store : Store) (p : Nat)
    (d : OptionValueBase) (hp : p ∈ m.opts_ ∨ p ∈ m.positionals_) (hd : m.heap[p]? = some d)
    (hreq : d.required_ = true) (hc : d.consumed_ = false)
    (hk : d.is_positional_vector = false) :
    (∀ args, omitted d (preprocess m.prepare.heap m.prepare.opts_ args) →
        m.process_arguments store args = Outcome.undefined
          ∨ ∃ r, m.process_arguments store args = Outcome.done r
            ∧ (r.retval = -1 ∨ (r.retval = 0 ∧ r.report = Report.help)))
      ∧ (m.valid → ∃ r, m.process_arguments store [] = Outcome.done r ∧ r.retval = -1) := by
  have hd0 := prepare_get m p d hd
  have hp0 : p ∈ m.prepare.opts_ ∨ p ∈ m.prepare.positionals_ := by
    rcases hp with hp | hp
    · exact Or.inl ((mem_prepare_opts m p).mpr (Or.inl hp))
    · exact Or.inr hp
  constructor
  · intro args ho
    rcases process_arguments_cases m store args with hu | ⟨st1, _, hr⟩ | ⟨st1, st2, hn, hps, hr⟩
    · exact Or.inl hu
    · exact Or.inr ⟨_, hr, Or.inl rfl⟩
    · right
      refine ⟨_, hr, ?_⟩
      obtain ⟨a1, a2⟩ := omit_named p d hk _ _ _ _ hn hd0 ho
      obtain ⟨b1, _⟩ := omit_positionals p d hk _ _ _ hps a1 a2
      exact finish_missing _ _ p d hp0 b1 hreq hc
  · intro hvalid
    obtain ⟨v1, v2, v3⟩ := valid_prepare m hvalid
    have hom : omitted d ([] : program_option_type) :=
      ⟨fun _ t ht => absurd ht (List.not_mem_nil t), fun _ t ht => absurd ht (List.not_mem_nil t)⟩
    obtain ⟨ret, st1, e1, e2, e3, e4, e5⟩ := empty_named m.prepare.opts_
      ⟨m.prepare.heap, store.set Ref.help (Val.scalar (Scalar.bool false)), []⟩ v1 v2 rfl
    have hpre : preprocess m.prepare.heap m.prepare.opts_ [] = [] := rfl
    cases ret with
    | false =>
      refine ⟨⟨-1, Report.named_error st1.argvv,
        ⟨st1.heap, m.prepare.opts_, m.prepare.positionals_⟩, st1.store, st1.argvv⟩, ?_, rfl⟩
      unfold ProgramOptionManager.process_arguments
      simp only [hpre, e1]
      rfl
    | true =>
      obtain ⟨st2, f1, f4, f5⟩ := empty_positionals m.prepare.positionals_ st1 e2
        (fun q hq => by rw [e3]; exact v3 q hq) e4
      obtain ⟨a1, a2⟩ := omit_named p d hk _ _ _ _ e1 hd0 hom
      obtain ⟨b1, _⟩ := omit_positionals p d hk _ _ _ f1 a1 a2
      refine ⟨finish m.prepare st2, ?_, ?_⟩
      · unfold ProgramOptionManager.process_arguments
        simp only [hpre, e1, f1]
        rfl
      · have hhelp : st2.store Ref.help = Val.scalar (Scalar.bool false) := by
          rw [f5, e5]; simp [Store.set]
        unfold finish
        simp only [hhelp, f4]
        exact check_required_missing _ _ _ p d hp0 b1 hreq hc

theorem required_manager_valid : required_manager.valid := by
  refine ⟨by decide, by decide, ?_⟩
  have h : ∀ d ∈ required_manager.heap, d.dependent = none := by decide
  intro d hd q hq
  rw [h d hd] at hq
  cases hq

/-- C5 for the required flag `-b` of `required_manager` on `-c 5`, which holds
nothing for `-b`, and for its required positional `file` on the empty argument
list, which gives -1. -/
theorem C5_missing_required_witness :
    (required_manager.process_arguments empty_vectors [['-', 'c'], ['5']] = Outcome.undefined
      ∨ ∃ r, required_manager.process_arguments empty_vectors [['-', 'c'], ['5']]
          = Outcome.done r
        ∧ (r.retval = -1 ∨ (r.retval = 0 ∧ r.report = Report.help)))
    ∧ ∃ r, required_manager.process_arguments empty_vectors [] = Outcome.done r
        ∧ r.retval = -1 :=
  ⟨(C5_missing_required required_manager empty_vectors 2
      (OptionValueBase.named ['b'] ['b', 'o', 'o', 'l'] true (OptionImpl.NameValueBool (Ref.var 2)))
      (by decide) rfl rfl rfl rfl).1 [['-', 'c'], ['5']] (by unfold omitted; decide),
    (C5_missing_required required_manager empty_vectors 4
      (OptionValueBase.positional ['f', 'i', 'l', 'e'] true
        (OptionImpl.PositionalValue Ty.string (Ref.var 4)))
      (by decide) rfl rfl rfl rfl).2 required_manager_valid⟩

/-! ### The vector option alone on the command line (C2 in general) -/

theorem extract_int_decimal (n : Nat) (hn : (n : Int) ≤ INT_MAX) :
    extract Ty.int (decimal n) = ⟨some (Scalar.int n), false, true⟩ := by
  have hds := decimal_digits n
  obtain ⟨d, ds1, hcons⟩ := List.exists_cons_of_ne_nil (decimal_ne_nil n)
  have hd : isdigit d = true := hds d (by rw [hcons]; exact List.mem_cons_self _ _)
  have hsp : (decimal n).dropWhile isspace = decimal n := by
    rw [hcons, List.dropWhile_cons, isdigit_not_space hd]; rfl
  have hsg : read_sign (decimal n) = (false, decimal n) := by
    rw [hcons]; exact read_sign_of_ne d ds1 (isdigit_ne_minus hd) (isdigit_ne_plus hd)
  have htk : (decimal n).takeWhile isdigit = decimal n := takeWhile_all _ _ hds
  have hdr : (decimal n).dropWhile isdigit = [] := dropWhile_all _ _ hds
  have hne : (decimal n).isEmpty = false := by rw [hcons]; rfl
  have h1 : ¬ ((n : Int) < INT_MIN) := by
    have : INT_MIN < 0 := by decide
    omega
  have h2 : ¬ (INT_MAX < (n : Int)) := by omega
  simp only [extract, extract_int, hsp, hsg, htk, hdr, hne, digits_value_decimal,
    Bool.false_eq_true, if_false, h1, h2]
  rfl

/-- The inner loop of the vector `consume` over `max_count_` decimal numerals
after which the buffer ends: all are taken. -/
theorem read_values_decimals (value_ : Ref) (max_count_ : Nat) (vs : List Nat)
    (hvs : ∀ v ∈ vs, (v : Int) ≤ INT_MAX) :
    ∀ (count : Nat) (store : Store), count + vs.length = max_count_ →
      NameValueVector.read_values Ty.int value_ max_count_ count (vs.map decimal) store
        = Values.stop max_count_ [] (store.push_all value_ (vs.map (fun v => Scalar.int v))) := by
  induction vs with
  | nil =>
    intro count store h
    simp only [List.length_nil, Nat.add_zero] at h
    simp [NameValueVector.read_values, Store.push_all, h]
  | cons v vs ih =>
    intro count store h
    simp only [List.length_cons] at h
    have hlt : count < max_count_ := by omega
    have hf : (front (decimal v) != '-') = true := by
      have := front_decimal v
      simpa using this
    simp only [List.map_cons, NameValueVector.read_values, hf, hlt, decide_True, Bool.and_self,
      if_true, extract_int_decimal v (hvs v (List.mem_cons_self _ _)), extracted_tmp,
      Extracted.bad, Bool.not_false, Bool.not_true, Bool.and_false, Bool.false_and,
      Bool.false_eq_true, if_false]
    rw [ih (fun u hu => hvs u (List.mem_cons_of_mem _ hu)) (count + 1) _ (by omega)]
    rfl

theorem vector_prepare (count : Nat) (required : Bool) :
    (vector_manager count required).prepare =
      ⟨[OptionValueBase.named ['v'] ['v', 'e', 'c', 't', 'o', 'r'] required
          (OptionImpl.NameValueVector Ty.int (Ref.var 0) count), help_option], [1, 0], []⟩ := by
  rfl

/-- For every arity `k` and every `k` decimal numerals that fit an `int`,
`process_arguments` on `-v` followed by the numerals, with `-v` the only
registered option, ends in undefined behaviour: the erase empties the buffer
and the loop header increments the iterator past its end. -/
theorem vector_alone_undefined (k : Nat) (required : Bool) (store : Store) (vs : List Nat)
    (hk : vs.length = k) (hvs : ∀ v ∈ vs, (v : Int) ≤ INT_MAX) :
    (vector_manager k required).process_arguments store (['-', 'v'] :: vs.map decimal)
      = Outcome.undefined := by
  have hfront : ∀ a ∈ vs.map decimal, (front a == '-') = false := by
    intro a ha
    obtain ⟨v, _, rfl⟩ := List.mem_map.mp ha
    exact front_decimal v
  have hpre : preprocess (vector_manager k required).prepare.heap
      (vector_manager k required).prepare.opts_ (['-', 'v'] :: vs.map decimal)
        = ['-', 'v'] :: vs.map decimal := by
    have e : ['-', 'v'] :: vs.map decimal = [['-', 'v']] ++ vs.map decimal := rfl
    rw [e, preprocess_append, preprocess_plain _ _ _ hfront, vector_prepare]
    rfl
  have hhelp : ∀ t ∈ ['-', 'v'] :: vs.map decimal, help_option.name_match t = false := by
    intro t ht
    rcases List.mem_cons.mp ht with rfl | ht
    · decide
    · obtain ⟨v, _, rfl⟩ := List.mem_map.mp ht
      exact name_match_digits help_option _ (decimal_digits v) (by decide) (by decide)
        (by decide) (by decide)
  unfold ProgramOptionManager.process_arguments
  simp only [hpre]
  rw [vector_prepare]
  have h1 := consume_at_no_match 1
    [OptionValueBase.named ['v'] ['v', 'e', 'c', 't', 'o', 'r'] required
      (OptionImpl.NameValueVector Ty.int (Ref.var 0) k), help_option]
    (store.set Ref.help (Val.scalar (Scalar.bool false))) (['-', 'v'] :: vs.map decimal)
    help_option rfl rfl hhelp
  have h2 := read_values_decimals (Ref.var 0) k vs hvs 0
    (store.set Ref.help (Val.scalar (Scalar.bool false))) (by omega)
  simp only [consume_named, h1, if_true]
  simp [consume_at, OptionValueBase.consume, OptionValueBase.named, NameValueVector.consume,
    NameValueVector.loop, NameValueVector.scan, OptionValueBase.name_match, substr, h2]

/-! ### A number followed by other characters (C9 in general) -/

/-- For every `n` that fits an `unsigned int` and every tail that starts with
a character that is no digit, `process_arguments` on `-c` and the numeral of
`n` followed by the tail returns 1 with the truncated value `n` stored. -/
theorem truncated_value_accepted (required : Bool) (store : Store) (n : Nat) (c : Char)
    (rest : Str) (hn : n ≤ UINT_MAX) (hc : isdigit c = false) :
    ∃ r, (count_manager required).process_arguments store
        [['-', 'c'], decimal n ++ c :: rest] = Outcome.done r
      ∧ r.retval = 1 ∧ r.store (Ref.var 0) = Val.scalar (Scalar.uint n) ∧ r.argvv = [] := by
  have hx : extract Ty.uint (decimal n ++ c :: rest) = ⟨some (Scalar.uint n), false, false⟩ := by
    have h := extract_uint_digits (decimal n) (c :: rest) (decimal_digits n) (decimal_ne_nil n)
      (fun a tl e => by cases e; exact hc) (by rw [digits_value_decimal]; exact hn)
    rw [digits_value_decimal] at h
    exact h
  have hf : (front (decimal n ++ c :: rest) == '-') = false := by
    obtain ⟨d, ds1, hcons⟩ := List.exists_cons_of_ne_nil (decimal_ne_nil n)
    have hd : isdigit d = true := decimal_digits n d (by rw [hcons]; exact List.mem_cons_self _ _)
    rw [hcons]
    simp only [List.cons_append, front, List.headD_cons, beq_eq_false_iff_ne, ne_eq]
    exact isdigit_ne_minus hd
  have hpre : preprocess (count_manager required).prepare.heap
      (count_manager required).prepare.opts_ [['-', 'c'], decimal n ++ c :: rest]
        = [['-', 'c'], decimal n ++ c :: rest] := by
    rw [count_prepare]
    simp only [preprocess, List.foldl, back_insert_args, splits_of_front hf]
    rfl
  unfold ProgramOptionManager.process_arguments
  simp only [hpre]
  rw [count_prepare]
  simp [consume_named, consume_at, OptionValueBase.consume, NameValue.consume,
    OptionValueBase.named, OptionValueBase.name_match, substr, hf, hx, Extracted.bad,
    Flag.consume, consume_positionals, finish, Extracted.assign, Store.set, check_required,
    first_missing]


/-! ### C11, C12, C18: the fixed-arity vector option -/

/-- The inner loop of the vector `consume` over fewer tokens than
`max_count_` asks for, after which the buffer ends or a token begins with
`-`: it stops with the count of the tokens, unless a conversion fails. -/
theorem read_values_short (ty : Ty) (value_ : Ref) (max_count_ : Nat) (tail : program_option_type)
    (ht : tail = [] ∨ ∃ x xs, tail = x :: xs ∧ front x = '-') :
    ∀ (vals : program_option_type) (count : Nat) (store : Store),
      (∀ t ∈ vals, front t ≠ '-') → count + vals.length < max_count_ →
      (∃ s, NameValueVector.read_values ty value_ max_count_ count (vals ++ tail) store
          = Values.bad s)
        ∨ (∃ s, NameValueVector.read_values ty value_ max_count_ count (vals ++ tail) store
          = Values.stop (count + vals.length) tail s) := by
  intro vals
  induction vals with
  | nil =>
    intro count store _ _
    right
    rcases ht with rfl | ⟨x, xs, rfl, hx⟩
    · exact ⟨store, by simp [NameValueVector.read_values]⟩
    · exact ⟨store, by simp [NameValueVector.read_values, hx]⟩
  | cons next after ih =>
    intro count store hv hc
    simp only [List.length_cons] at hc
    have hf : (front next != '-') = true := by
      simpa using hv next (List.mem_cons_self _ _)
    have hlt : count < max_count_ := by omega
    rw [List.cons_append]
    simp only [NameValueVector.read_values, hf, hlt, decide_True, Bool.and_self, if_true]
    by_cases hb : (extract ty next).bad = true
    · simp only [hb, if_true]
      exact Or.inl ⟨_, rfl⟩
    · simp only [hb, Bool.false_eq_true, if_false]
      rcases ih (count + 1) (store.push_back value_ (extracted_tmp ty (extract ty next)))
          (fun t h => hv t (List.mem_cons_of_mem _ h)) (by omega) with
        ⟨s, h1⟩ | ⟨s, h1⟩
      · exact Or.inl ⟨s, h1⟩
      · refine Or.inr ⟨s, ?_⟩
        rw [h1, List.length_cons]
        congr 1
        omega

/-- The inner loop of the vector `consume` over `max_count_` tokens that
convert: all are taken and what follows them is left. -/
theorem read_values_full (ty : Ty) (value_ : Ref) (max_count_ : Nat) (tail : program_option_type) :
    ∀ (toks : program_option_type) (vals : List Scalar) (count : Nat) (store : Store),
      List.Forall₂ (reads ty) toks vals → count + toks.length = max_count_ →
      NameValueVector.read_values ty value_ max_count_ count (toks ++ tail) store
        = Values.stop max_count_ tail (store.push_all value_ vals) := by
  intro toks vals count store h
  induction h generalizing count store with
  | nil =>
    intro hc
    simp only [List.length_nil, Nat.add_zero] at hc
    cases tail with
    | nil => simp [NameValueVector.read_values, Store.push_all, hc]
    | cons x xs => simp [NameValueVector.read_values, Store.push_all, hc]
  | @cons t v toks vals hr _ ih =>
    intro hc
    simp only [List.length_cons] at hc
    obtain ⟨h1, h2, h3⟩ := hr
    have hf : (front t != '-') = true := by simpa using h1
    have hlt : count < max_count_ := by omega
    rw [List.cons_append]
    simp only [NameValueVector.read_values, hf, hlt, decide_True, Bool.and_self, if_true, h3, h2,
      Bool.false_eq_true, if_false]
    rw [ih (count + 1) _ (by omega)]
    rfl

/-- The scan of the vector `consume` steps over tokens that do not match. -/
theorem NameValueVector_scan_skip (ty : Ty) (value_ : Ref) (max_count_ : Nat)
    (restart : OptionValueBase → Store → program_option_type → Outcome ConsumeResult)
    (self : OptionValueBase) (store : Store) (a suf : program_option_type)
    (h : ∀ t ∈ a, self.name_match t = false) :
    ∀ pre, NameValueVector.scan ty value_ max_count_ restart self store pre (a ++ suf)
      = NameValueVector.scan ty value_ max_count_ restart self store (pre ++ a) suf := by
  induction a with
  | nil => intro pre; simp
  | cons it rest ih =>
    intro pre
    have hit := h it (List.mem_cons_self _ _)
    rw [List.cons_append]
    simp only [NameValueVector.scan, hit, Bool.false_eq_true, if_false]
    rw [ih (fun t ht => h t (List.mem_cons_of_mem _ ht))]
    simp

/-- An extraction leaves its operand alone exactly when the token is empty or
blank. -/
theorem extract_value_none (ty : Ty) (t : Str) :
    (extract ty t).value = none ↔ t.dropWhile isspace = [] := by
  cases h : t.dropWhile isspace with
  | nil => cases ty <;> simp [extract, extract_uint, extract_int, extract_string, h]
  | cons c cs =>
    simp only [reduceCtorEq, iff_false]
    cases ty with
    | uint =>
      simp only [extract, extract_uint, h, List.isEmpty_cons, Bool.false_eq_true, if_false]
      by_cases h1 : (List.takeWhile isdigit (read_sign (c :: cs)).2).isEmpty = true
      · simp [h1]
      · by_cases h2 : UINT_MAX < digits_value (List.takeWhile isdigit (read_sign (c :: cs)).2)
        · simp [h1, h2]
        · simp [h1, h2]
    | int =>
      simp only [extract, extract_int, h, List.isEmpty_cons, Bool.false_eq_true, if_false]
      by_cases h1 : (List.takeWhile isdigit (read_sign (c :: cs)).2).isEmpty = true
      · simp [h1]
      · simp only [h1, Bool.false_eq_true, if_false]
        by_cases h2 : (if (read_sign (c :: cs)).1 = true then
            -(digits_value (List.takeWhile isdigit (read_sign (c :: cs)).2) : Int)
            else (digits_value (List.takeWhile isdigit (read_sign (c :: cs)).2) : Int)) < INT_MIN
        · simp [h2]
        · by_cases h3 : INT_MAX < (if (read_sign (c :: cs)).1 = true then
              -(digits_value (List.takeWhile isdigit (read_sign (c :: cs)).2) : Int)
              else (digits_value (List.takeWhile isdigit (read_sign (c :: cs)).2) : Int))
          · simp [h2, h3]
          · simp [h2, h3]
    | string => simp [extract, extract_string, h]

/-- The temporary of the vector loops keeps its initial value, which is
indeterminate for the arithmetic types, when the token is empty or blank. -/
theorem extracted_tmp_blank (ty : Ty) (t : Str) (h : t.dropWhile isspace = []) :
    extracted_tmp ty (extract ty t) = ty.default_init := by
  have hv := (extract_value_none ty t).mpr h
  simp [extracted_tmp, hv]

/-- C11: when the first token matching a fixed-arity vector option of arity
`k` is followed by fewer than `k` tokens that do not begin with `-`, after
which the buffer ends or a token begins with `-`, `consume` returns false,
with the buffer and `consumed_` unchanged. -/
theorem C11_partial_fill_rejected (self : OptionValueBase) (ty : Ty) (value_ : Ref) (k : Nat)
    (store : Store) (before : program_option_type) (it : Str) (vals tail : program_option_type)
    (hb : ∀ t ∈ before, self.name_match t = false) (hit : self.name_match it = true)
    (hv : ∀ t ∈ vals, front t ≠ '-') (hm : vals.length < k)
    (ht : tail = [] ∨ ∃ x xs, tail = x :: xs ∧ front x = '-') :
    ∃ r, NameValueVector.consume self ty value_ k store (before ++ it :: (vals ++ tail))
        = Outcome.done r
      ∧ r.ret = false ∧ r.self = self ∧ r.opts = before ++ it :: (vals ++ tail) := by
  have hne : vals.length ≠ k := by omega
  have hne2 : (vals.length != k) = true := by simpa using hne
  simp only [NameValueVector.consume, NameValueVector.loop]
  rw [NameValueVector_scan_skip _ _ _ _ _ _ _ _ hb]
  simp only [NameValueVector.scan, hit, if_true, List.nil_append]
  rcases read_values_short ty value_ k tail ht vals 0 store hv (by omega) with
    ⟨s, h1⟩ | ⟨s, h1⟩
  · rw [h1]
    exact ⟨_, rfl, rfl, rfl, rfl⟩
  · rw [h1]
    simp only [Nat.zero_add, hne2, if_true]
    exact ⟨_, rfl, rfl, rfl, rfl⟩

/-- C11 at `-v 1 2` with arity 3. -/
theorem C11_partial_fill_rejected_witness :
    ∃ r, NameValueVector.consume (option_v 3) Ty.int (Ref.var 0) 3 empty_vectors
        ([] ++ ['-', 'v'] :: ([['1'], ['2']] ++ [])) = Outcome.done r
      ∧ r.ret = false ∧ r.self = option_v 3
      ∧ r.opts = [] ++ ['-', 'v'] :: ([['1'], ['2']] ++ []) :=
  C11_partial_fill_rejected (option_v 3) Ty.int (Ref.var 0) 3 empty_vectors [] ['-', 'v']
    [['1'], ['2']] [] (fun t ht => absurd ht (List.not_mem_nil t)) (by decide) (by decide)
    (by decide) (Or.inl rfl)

/-- One match of a fixed-arity vector option followed by `k` tokens that
convert: the values are appended, the name and the values are erased, and the
rescan, which needs a token to stand on, finds no other match. -/
theorem NameValueVector_consume_once (self : OptionValueBase) (ty : Ty) (value_ : Ref) (k : Nat)
    (store : Store) (before : program_option_type) (it : Str) (toks : program_option_type)
    (vals : List Scalar) (rest : program_option_type)
    (hb : ∀ t ∈ before, self.name_match t = false) (hit : self.name_match it = true)
    (hv : List.Forall₂ (reads ty) toks vals) (hk : toks.length = k)
    (hr : ∀ t ∈ rest, self.name_match t = false) (hne : before ++ rest ≠ []) :
    NameValueVector.consume self ty value_ k store (before ++ it :: (toks ++ rest))
      = Outcome.done ⟨true, { self with consumed_ := true }, store.push_all value_ vals,
          before ++ rest⟩ := by
  simp only [NameValueVector.consume, NameValueVector.loop]
  rw [NameValueVector_scan_skip _ _ _ _ _ _ _ _ hb]
  simp only [NameValueVector.scan, hit, if_true, List.nil_append,
    read_values_full ty value_ k rest toks vals 0 store hv (by omega), bne_self_eq_false,
    Bool.false_eq_true, if_false]
  obtain ⟨first, more, hfm⟩ := List.exists_cons_of_ne_nil hne
  have hmore : ∀ t ∈ more, self.name_match t = false := by
    intro t ht
    have : t ∈ before ++ rest := by rw [hfm]; exact List.mem_cons_of_mem _ ht
    rcases List.mem_append.mp this with h | h
    · exact hb t h
    · exact hr t h
  rw [hfm]
  simp only [List.length_append, List.length_cons, NameValueVector.loop]
  rw [NameValueVector_scan_no_match _ _ _ _ _ _ _ _ (fun t ht => by
    rw [name_match_consumed]; exact hmore t ht)]
  simp

/-- C12 fails at `-v 1 2 3 4` with arity 3: `consume` returns true with the
destination `[1, 2, 3]`, `consumed_` set and the token `4` left in the buffer;
with `-v` the only registered option `process_arguments` then returns -1 for
the unprocessed token. -/
theorem C12_counterexample :
    (NameValueVector.consume (option_v 3) Ty.int (Ref.var 0) 3 empty_vectors
        [['-', 'v'], ['1'], ['2'], ['3'], ['4']]).map (fun r => r.ret) ≠ Outcome.done false
      ∧ (NameValueVector.consume (option_v 3) Ty.int (Ref.var 0) 3 empty_vectors
          [['-', 'v'], ['1'], ['2'], ['3'], ['4']]).map
          (fun r => (r.ret, r.self.consumed_, r.store (Ref.var 0), r.opts))
        = Outcome.done (true, true, Val.vec [Scalar.int 1, Scalar.int 2, Scalar.int 3], [['4']])
      ∧ ((vector_manager 3 false).process_arguments empty_vectors
          [['-', 'v'], ['1'], ['2'], ['3'], ['4']]).map
          (fun r => (r.retval, r.report, r.store (Ref.var 0)))
        = Outcome.done (-1, Report.unprocessed [['4']],
            Val.vec [Scalar.int 1, Scalar.int 2, Scalar.int 3]) := by
  decide

/-- C12 (as amended): when the first token matching a fixed-arity vector
option of arity `k` is followed by `k` well-formed tokens that do not begin
with `-` and then by at least one more token, and no other token of the
buffer matches the option, `consume` returns true: it appends the first `k`
values to the destination, sets `consumed_`, erases the name and the `k`
values and leaves the token after them in the buffer. -/
theorem C12_extra_value_left (self : OptionValueBase) (ty : Ty) (value_ : Ref) (k : Nat)
    (store : Store) (before : program_option_type) (it : Str) (toks : program_option_type)
    (vals : List Scalar) (extra : Str) (tail : program_option_type)
    (hb : ∀ t ∈ before, self.name_match t = false) (hit : self.name_match it = true)
    (hv : List.Forall₂ (reads ty) toks vals) (hk : toks.length = k)
    (hr : ∀ t ∈ extra :: tail, self.name_match t = false) :
    NameValueVector.consume self ty value_ k store (before ++ it :: (toks ++ extra :: tail))
      = Outcome.done ⟨true, { self with consumed_ := true }, store.push_all value_ vals,
          before ++ extra :: tail⟩ :=
  NameValueVector_consume_once self ty value_ k store before it toks vals (extra :: tail) hb hit
    hv hk hr (by simp)

/-- C12 (as amended) at `-v 1 2 3 4` with arity 3. -/
theorem C12_extra_value_left_witness :
    NameValueVector.consume (option_v 3) Ty.int (Ref.var 0) 3 empty_vectors
        ([] ++ ['-', 'v'] :: ([['1'], ['2'], ['3']] ++ ['4'] :: []))
      = Outcome.done ⟨true, { option_v 3 with consumed_ := true },
          empty_vectors.push_all (Ref.var 0) [Scalar.int 1, Scalar.int 2, Scalar.int 3],
          [] ++ ['4'] :: []⟩ :=
  C12_extra_value_left (option_v 3) Ty.int (Ref.var 0) 3 empty_vectors [] ['-', 'v']
    [['1'], ['2'], ['3']] [Scalar.int 1, Scalar.int 2, Scalar.int 3] ['4'] []
    (fun t ht => absurd ht (List.not_mem_nil t)) (by decide)
    (List.Forall₂.cons ⟨by decide, by decide, by decide⟩
      (List.Forall₂.cons ⟨by decide, by decide, by decide⟩
        (List.Forall₂.cons ⟨by decide, by decide, by decide⟩ List.Forall₂.nil)))
    rfl (by decide)

/-- C18 at its own witness `-v 1 2 3 -v 4 5 6` with arity 3: after the first
erase the buffer is `-v 4 5 6`, the iterator is reset to `begin()` and the loop
header increments it, so the rescan starts at `4` and never sees the second
`-v`: `consume` returns true with the destination `[1, 2, 3]` and a matching
token left in the buffer, and `process_arguments` returns -1. With a token in
front of the first `-v` both appearances are taken. -/
theorem C18_second_appearance_skipped :
    (NameValueVector.consume (option_v 3) Ty.int (Ref.var 0) 3 empty_vectors
        [['-', 'v'], ['1'], ['2'], ['3'], ['-', 'v'], ['4'], ['5'], ['6']]).map
        (fun r => (r.ret, r.self.consumed_, r.store (Ref.var 0), r.opts))
        = Outcome.done (true, true, Val.vec [Scalar.int 1, Scalar.int 2, Scalar.int 3],
            [['-', 'v'], ['4'], ['5'], ['6']])
      ∧ (option_v 3).name_match ['-', 'v'] = true
      ∧ ((vector_manager 3 false).process_arguments empty_vectors
          [['-', 'v'], ['1'], ['2'], ['3'], ['-', 'v'], ['4'], ['5'], ['6']]).map
          (fun r => (r.retval, r.report, r.store (Ref.var 0)))
        = Outcome.done (-1, Report.unprocessed [['-', 'v'], ['4'], ['5'], ['6']],
            Val.vec [Scalar.int 1, Scalar.int 2, Scalar.int 3])
      ∧ (NameValueVector.consume (option_v 3) Ty.int (Ref.var 0) 3 empty_vectors
        [['x'], ['-', 'v'], ['1'], ['2'], ['3'], ['-', 'v'], ['4'], ['5'], ['6']]).map
        (fun r => (r.ret, r.store (Ref.var 0), r.opts))
        = Outcome.done (true, Val.vec [Scalar.int 1, Scalar.int 2, Scalar.int 3, Scalar.int 4,
            Scalar.int 5, Scalar.int 6], [['x']]) :=
  ⟨by decide, by decide, by decide, by decide⟩

/-- On `-v` followed by an empty token, with arity 2 and element type `int`,
the extraction leaves `tmp` as it was declared, `push_back(tmp)` appends that
value and `consume` returns false, the count being 1. -/
theorem blank_value_rejected :
    (NameValueVector.consume (option_v 2) Ty.int (Ref.var 0) 2 empty_vectors
      [['-', 'v'], []]).map (fun r => (r.ret, r.store (Ref.var 0), r.opts))
      = Outcome.done (false, Val.vec [Scalar.indeterminate], [['-', 'v'], []]) := by
  decide

/-! ### C15, C16: results that the positional loop drops -/

/-- C15 on three inputs. With a required positional `count` and a dependent
vector that is not required, on `2 a` the `consume` of the vector returns false
(one value, exactly two asked for) and `process_arguments` returns 1 with an
empty buffer. A positional vector with the fixed count 0 and no dependency
returns false on the empty argument list and `process_arguments` returns 1.
With a positional vector of one `int` followed by a single positional string,
on `abc` the conversion fails, the `consume` of the vector returns false, the
string takes the token and `process_arguments` returns 1. -/
theorem C15_positional_failure_dropped :
    (optional_values_manager.prepare.positionals_ = [0, 1]
        ∧ (consume_positionals [0]
            (optional_values_manager.start count_and_values [['2'], ['a']])).bind
            (fun st => (consume_at 1 st).map
              (fun x => (x.1, x.2.store (Ref.var 0), x.2.store (Ref.var 1), x.2.argvv)))
          = Outcome.done (false, Val.scalar (Scalar.uint 2), Val.vec [Scalar.str ['a']], [])
        ∧ (optional_values_manager.process_arguments count_and_values [['2'], ['a']]).map
            (fun r => (r.retval, r.report, r.argvv)) = Outcome.done (1, Report.nothing, []))
      ∧ (zero_arity_manager.prepare.positionals_ = [0]
        ∧ (consume_at 0 (zero_arity_manager.start empty_vectors [])).map (fun x => x.1)
          = Outcome.done false
        ∧ (zero_arity_manager.process_arguments empty_vectors []).map
            (fun r => (r.retval, r.report, r.argvv)) = Outcome.done (1, Report.nothing, []))
      ∧ (number_then_name_manager.prepare.positionals_ = [0, 1]
        ∧ (consume_at 0 (number_then_name_manager.start empty_vectors [['a', 'b', 'c']])).map
            (fun x => (x.1, x.2.argvv)) = Outcome.done (false, [['a', 'b', 'c']])
        ∧ (number_then_name_manager.process_arguments empty_vectors [['a', 'b', 'c']]).map
            (fun r => (r.retval, r.report, r.argvv, r.store (Ref.var 1)))
          = Outcome.done (1, Report.nothing, [], Val.scalar (Scalar.str ['a', 'b', 'c']))) :=
  ⟨⟨by decide, by decide, by decide⟩, ⟨by decide, by decide, by decide⟩,
    ⟨by decide, by decide, by decide⟩⟩

/-- A dependent positional vector whose target cannot be projected to a
count: the result of `uint_assign_to` is not looked at, `max_count_` stays 0,
the loop takes no token, the test `count_ != max_count_` compares 0 with 0,
and `consume` sets `consumed_` and returns true. -/
theorem unprojectable_count_accepted (heap : List OptionValueBase) (self : OptionValueBase)
    (ty : Ty) (value_ : Ref) (exact_count_ : Bool) (q : Nat) (target : OptionValueBase)
    (store : Store) (opts : program_option_type)
    (hq : heap[q]? = some target) (hp : target.uint_assign_to store = none) :
    PositionalValueVector.consume heap self ty value_ 0 exact_count_ 0 (some q) store opts
      = Outcome.done ⟨true,
          { PositionalValueVector.update self ty value_ 0 exact_count_ 0 (some q) with
            consumed_ := true }, store, opts⟩ := by
  cases opts with
  | nil =>
    simp [PositionalValueVector.consume, hq, hp, PositionalValueVector.consume_counted,
      PositionalValueVector.scan]
  | cons t ts =>
    simp [PositionalValueVector.consume, hq, hp, PositionalValueVector.consume_counted,
      PositionalValueVector.scan]

/-- C16 for a dependent vector whose count depends on the flag `-b`: the
projection `uint_assign_to` of the flag fails, yet on the buffer `x` the
`consume` of the vector returns true and sets `consumed_`, taking no token; on
the empty argument list `process_arguments` returns 1 although the vector is
required. -/
theorem C16_unprojectable_count_accepted :
    flag_count_manager.prepare.positionals_ = [1]
      ∧ (flag_count_manager.heap[0]?).map (fun d => d.uint_assign_to count_and_values)
        = some none
      ∧ (consume_at 1 (flag_count_manager.start count_and_values [['x']])).map
          (fun x => (x.1, (x.2.heap[1]?).map (fun d => d.consumed_), x.2.store (Ref.var 1),
            x.2.argvv))
        = Outcome.done (true, some true, Val.vec [], [['x']])
      ∧ (flag_count_manager.process_arguments count_and_values []).map
          (fun r => (r.retval, r.report, r.argvv)) = Outcome.done (1, Report.nothing, []) :=
  ⟨by decide, by decide, by decide, by decide⟩

/-! ### C13: the value returned by `process_arguments` -/

/-- The search for a required descriptor that is not consumed finds none
exactly when there is none. -/
theorem first_missing_none (heap : List OptionValueBase) (ps : List Nat) :
    first_missing heap ps = none ↔ all_required_consumed heap ps := by
  induction ps with
  | nil => simp [first_missing, all_required_consumed]
  | cons q ps ih =>
    rw [first_missing]
    cases hq : heap[q]? with
    | none =>
      simp only
      rw [ih]
      constructor
      · intro h p hp d hd
        rcases List.mem_cons.mp hp with rfl | hp
        · rw [hq] at hd; cases hd
        · exact h p hp d hd
      · intro h p hp
        exact h p (List.mem_cons_of_mem _ hp)
    | some dq =>
      simp only
      by_cases hc : (dq.required_ && !dq.consumed_) = true
      · simp only [hc, if_true]
        constructor
        · intro h; cases h
        · intro h
          simp only [Bool.and_eq_true, Bool.not_eq_true'] at hc
          have := h q (List.mem_cons_self _ _) dq hq hc.1
          rw [hc.2] at this
          cases this
      · simp only [hc, Bool.false_eq_true, if_false]
        rw [ih]
        constructor
        · intro h p hp d hd hr
          rcases List.mem_cons.mp hp with rfl | hp
          · rw [hq] at hd
            cases hd
            cases hcc : dq.consumed_ with
            | true => rfl
            | false => simp [hr, hcc] at hc
          · exact h p hp d hd hr
        · intro h p hp
          exact h p (List.mem_cons_of_mem _ hp)

/-- The final branch of `process_arguments` returns 1 or -1, and 1 exactly
when every required descriptor is consumed. -/
theorem check_required_cases (heap : List OptionValueBase) (positionals_ opts_ : List Nat) :
    ((check_required heap positionals_ opts_).1 = -1 ∨ (check_required heap positionals_ opts_).1 = 1)
      ∧ ((check_required heap positionals_ opts_).1 = 1
        ↔ all_required_consumed heap (opts_ ++ positionals_)) := by
  have happ : all_required_consumed heap (opts_ ++ positionals_)
      ↔ all_required_consumed heap positionals_ ∧ all_required_consumed heap opts_ := by
    unfold all_required_consumed
    constructor
    · intro h
      exact ⟨fun p hp => h p (List.mem_append_right _ hp), fun p hp => h p (List.mem_append_left _ hp)⟩
    · rintro ⟨h1, h2⟩ p hp
      rcases List.mem_append.mp hp with hp | hp
      · exact h2 p hp
      · exact h1 p hp
  rw [happ, ← first_missing_none, ← first_missing_none]
  unfold check_required
  cases first_missing heap positionals_ with
  | some d => simp
  | none =>
    cases first_missing heap opts_ with
    | some d => simp
    | none => simp

/-- C13: `process_arguments` does not always return one of -1, 0, 1: with the
registrations of `test/main.cpp` the arguments `-v 1 2 3` end in undefined
behaviour, the `consume` of `-v` erasing the whole buffer and incrementing its
iterator past the end. For every manager and argument list this is the only
other outcome: a call that returns, returns -1, 0 or 1; it returns 1 exactly
when no `consume` of a named descriptor returned false, `help` is not set, the
token buffer is empty after both loops and every required descriptor of
`opts_` and `positionals_` is consumed; it returns 0 exactly when no `consume`
of a named descriptor returned false and `help` is set (which only the
`consume` of the help flag does). -/
theorem C13_outcome :
    (demo_manager.process_arguments (const_store 0)
        [['-', 'v'], ['1'], ['2'], ['3']]).map (fun r => r.retval) = Outcome.undefined
      ∧ ∀ (m : ProgramOptionManager) (store : Store) (args : List Str),
        m.process_arguments store args = Outcome.undefined
          ∨ ∃ r, m.process_arguments store args = Outcome.done r
            ∧ (r.retval = -1 ∨ r.retval = 0 ∨ r.retval = 1)
            ∧ (r.retval = 1 ↔ named_phase_ok m store args
                ∧ r.store Ref.help ≠ Val.scalar (Scalar.bool true) ∧ r.argvv = []
                ∧ all_required_consumed r.manager.heap
                  (r.manager.opts_ ++ r.manager.positionals_))
            ∧ (r.retval = 0 ↔ named_phase_ok m store args
                ∧ r.store Ref.help = Val.scalar (Scalar.bool true)) := by
  refine ⟨by decide, ?_⟩
  intro m store args
  rcases process_arguments_cases m store args with h | ⟨st1, h1, h2⟩ | ⟨st1, st2, h1, h3, h2⟩
  · exact Or.inl h
  · right
    have hno : ¬ named_phase_ok m store args := by
      rintro ⟨st, hst⟩
      unfold ProgramOptionManager.start at hst
      rw [h1] at hst
      cases hst
    refine ⟨_, h2, Or.inl rfl, ?_, ?_⟩
    · constructor
      · intro h; cases h
      · intro h; exact absurd h.1 hno
    · constructor
      · intro h; cases h
      · intro h; exact absurd h.1 hno
  · right
    have hok : named_phase_ok m store args := ⟨st1, h1⟩
    refine ⟨_, h2, ?_⟩
    unfold finish
    simp only
    by_cases hh : st2.store Ref.help = Val.scalar (Scalar.bool true)
    · simp [hh, hok]
    · have hh2 : (st2.store Ref.help == Val.scalar (Scalar.bool true)) = false := by
        simpa using hh
      simp only [hh2, Bool.false_eq_true, if_false]
      cases ha : st2.argvv with
      | cons t ts => simp [hh, hok]
      | nil =>
        have hc := check_required_cases st2.heap m.prepare.positionals_ m.prepare.opts_
        simp only [List.isEmpty_nil, Bool.not_true, Bool.false_eq_true, if_false]
        refine ⟨?_, ?_, ?_⟩
        · rcases hc.1 with h | h
          · exact Or.inl h
          · exact Or.inr (Or.inr h)
        · rw [hc.2]
          simp [hh, hok]
        · constructor
          · intro h
            rcases hc.1 with h' | h' <;> rw [h'] at h <;> cases h
          · intro h; exact absurd h.2 hh

/-! ### C14: the first named failure ends the call -/

/-- What one call `p->consume(argvv)` leaves alone: every other object, the
identity of every object, and every variable but the destination of `p`. -/
theorem consume_at_frame {p : Nat} {st st1 : State} {ret : Bool}
    (h : consume_at p st = Outcome.done (ret, st1)) :
    (∀ q, q ≠ p → st1.heap[q]? = st.heap[q]?)
      ∧ (∀ (q : Nat) d1, st1.heap[q]? = some d1 → ∃ d, st.heap[q]? = some d ∧ same_option d d1)
      ∧ (∀ ref, (∀ d, st.heap[p]? = some d → d.value_ ≠ ref) → st1.store ref = st.store ref) := by
  obtain ⟨d, r, hd, hr, _, rfl⟩ := consume_at_done h
  have he := consume_effect _ _ _ _ _ hr
  have hp : p < st.heap.length := (List.getElem?_eq_some.mp hd).1
  refine ⟨fun q hq => List.getElem?_set_ne (Ne.symm hq), ?_, ?_⟩
  · intro q d1 hq
    by_cases hqp : q = p
    · subst hqp
      simp only [List.getElem?_set_self hp, Option.some.injEq] at hq
      subst hq
      exact ⟨d, hd, he.same⟩
    · rw [List.getElem?_set_ne (Ne.symm hqp)] at hq
      exact ⟨d1, hq, same_option_refl d1⟩
  · intro ref href
    exact he.frame ref (Ne.symm (href d hd))

/-- What the loop over `opts_` leaves alone, wherever it stops. -/
theorem consume_named_frame (ps : List Nat) :
    ∀ (st st1 : State) (ret : Bool), consume_named ps st = Outcome.done (ret, st1) →
      (∀ q, q ∉ ps → st1.heap[q]? = st.heap[q]?)
        ∧ (∀ (q : Nat) d1, st1.heap[q]? = some d1 → ∃ d, st.heap[q]? = some d ∧ same_option d d1)
        ∧ (∀ ref, (∀ p ∈ ps, ∀ d, st.heap[p]? = some d → d.value_ ≠ ref) →
            st1.store ref = st.store ref) := by
  induction ps with
  | nil =>
    intro st st1 ret h
    simp only [consume_named, Outcome.done.injEq, Prod.mk.injEq] at h
    obtain ⟨_, rfl⟩ := h
    exact ⟨fun _ _ => rfl, fun q d1 hq => ⟨d1, hq, same_option_refl d1⟩, fun _ _ => rfl⟩
  | cons p ps ih =>
    intro st st1 ret h
    rw [consume_named] at h
    cases hc : consume_at p st with
    | undefined => simp [hc] at h
    | unfinished => simp [hc] at h
    | done x =>
      obtain ⟨ret0, st0⟩ := x
      obtain ⟨f1, f2, f3⟩ := consume_at_frame hc
      simp only [hc] at h
      cases ret0 with
      | false =>
        simp only [Bool.false_eq_true, if_false, Outcome.done.injEq, Prod.mk.injEq] at h
        obtain ⟨_, rfl⟩ := h
        exact ⟨fun q hq => f1 q (fun e => hq (e ▸ List.mem_cons_self _ _)), f2,
          fun ref href => f3 ref (href p (List.mem_cons_self _ _))⟩
      | true =>
        simp only [if_true] at h
        obtain ⟨g1, g2, g3⟩ := ih st0 st1 ret h
        refine ⟨?_, ?_, ?_⟩
        · intro q hq
          rw [g1 q (fun e => hq (List.mem_cons_of_mem _ e)),
            f1 q (fun e => hq (e ▸ List.mem_cons_self _ _))]
        · intro q d1 hq
          obtain ⟨d0, hq0, s0⟩ := g2 q d1 hq
          obtain ⟨d, hqd, s⟩ := f2 q d0 hq0
          exact ⟨d, hqd, same_option_trans s s0⟩
        · intro ref href
          rw [g3 ref ?_, f3 ref (href p (List.mem_cons_self _ _))]
          intro p1 hp1 d1 hd1
          obtain ⟨d, hqd, s⟩ := f2 p1 d1 hd1
          rw [s.2.2.2.2.1]
          exact href p1 (List.mem_cons_of_mem _ hp1) d hqd

/-- The loop over `opts_` runs through a first part that returns true and goes
on with the rest. -/
theorem consume_named_append (l1 l2 : List Nat) :
    ∀ (st st1 : State), consume_named l1 st = Outcome.done (true, st1) →
      consume_named (l1 ++ l2) st = consume_named l2 st1 := by
  induction l1 with
  | nil =>
    intro st st1 h
    simp only [consume_named, Outcome.done.injEq, Prod.mk.injEq, true_and] at h
    subst h
    rfl
  | cons p ps ih =>
    intro st st1 h
    rw [consume_named] at h
    rw [List.cons_append, consume_named]
    cases hc : consume_at p st with
    | undefined => simp [hc] at h
    | unfinished => simp [hc] at h
    | done x =>
      obtain ⟨ret0, st0⟩ := x
      simp only [hc] at h ⊢
      cases ret0 with
      | false => simp at h
      | true =>
        simp only [if_true] at h ⊢
        exact ih st0 st1 h

/-- C14 (as amended): when the `consume` of the named descriptor `p` returns
false after the descriptors `l1` in front of it in the sorted order have all
returned true, `process_arguments` returns -1 at once. Every descriptor other
than `p` and those of `l1`, so every later named descriptor and every
positional, is left as it was, `consumed_` included; and every caller variable
that is not the destination of `p` or of a descriptor of `l1` keeps its
value. -/
theorem C14_fail_fast (m : ProgramOptionManager) (store : Store) (args : List Str)
    (l1 : List Nat) (p : Nat) (l2 : List Nat)
    (hs : m.prepare.opts_ = l1 ++ p :: l2)
    (h1 : (consume_named l1 (m.start store args)).map (fun x => x.1) = Outcome.done true)
    (h2 : ((consume_named l1 (m.start store args)).bind (fun x => consume_at p x.2)).map
      (fun x => x.1) = Outcome.done false) :
    ∃ r, m.process_arguments store args = Outcome.done r
      ∧ r.retval = -1 ∧ r.report = Report.named_error r.argvv
      ∧ (∀ q, q ∉ l1 → q ≠ p → r.manager.heap[q]? = m.prepare.heap[q]?)
      ∧ (∀ i, (∀ q ∈ l1 ++ [p], ∀ d, m.prepare.heap[q]? = some d → d.value_ ≠ Ref.var i) →
          r.store (Ref.var i) = store (Ref.var i)) := by
  cases hc1 : consume_named l1 (m.start store args) with
  | undefined => simp [hc1, Outcome.map] at h1
  | unfinished => simp [hc1, Outcome.map] at h1
  | done x =>
    obtain ⟨ret1, st1⟩ := x
    simp only [hc1, Outcome.map, Outcome.done.injEq] at h1
    subst h1
    simp only [hc1, Outcome.bind] at h2
    cases hc2 : consume_at p st1 with
    | undefined => simp [hc2, Outcome.map] at h2
    | unfinished => simp [hc2, Outcome.map] at h2
    | done y =>
      obtain ⟨ret2, st2⟩ := y
      simp only [hc2, Outcome.map, Outcome.done.injEq] at h2
      subst h2
      have hall : consume_named (l1 ++ [p]) (m.start store args) = Outcome.done (false, st2) := by
        rw [consume_named_append l1 [p] _ _ hc1]
        simp [consume_named, hc2]
      have hfull : consume_named m.prepare.opts_ (m.start store args)
          = Outcome.done (false, st2) := by
        rw [hs]
        have : l1 ++ p :: l2 = l1 ++ ([p] ++ l2) := by simp
        rw [this, consume_named_append l1 ([p] ++ l2) _ _ hc1]
        simp [consume_named, hc2]
      obtain ⟨g1, g2, g3⟩ := consume_named_frame _ _ _ _ hall
      refine ⟨⟨-1, Report.named_error st2.argvv, ⟨st2.heap, m.prepare.opts_,
        m.prepare.positionals_⟩, st2.store, st2.argvv⟩, ?_, rfl, rfl, ?_, ?_⟩
      · unfold ProgramOptionManager.start at hfull
        unfold ProgramOptionManager.process_arguments
        simp only [hfull]
        rfl
      · intro q hq1 hq2
        exact g1 q (by simp [hq1, hq2])
      · intro i hi
        show st2.store (Ref.var i) = store (Ref.var i)
        rw [g3 (Ref.var i) hi]
        simp [ProgramOptionManager.start, Store.set]

/-- C14 (as amended) for the flags `-O`, `-T` and the option `-P` on `-O -P`:
`-P` fails for want of a value, the later flag `-T` is left as it was and the
caller variable 2 keeps its value. -/
theorem C14_fail_fast_witness :
    ∃ r, shared_manager.process_arguments (const_store 0) [['-', 'O'], ['-', 'P']]
        = Outcome.done r
      ∧ r.retval = -1 ∧ r.report = Report.named_error r.argvv
      ∧ r.manager.heap[2]? = shared_manager.prepare.heap[2]?
      ∧ r.store (Ref.var 2) = const_store 0 (Ref.var 2) := by
  obtain ⟨r, h1, h2, h3, h4, h5⟩ := C14_fail_fast shared_manager (const_store 0)
    [['-', 'O'], ['-', 'P']] [0] 1 [2, 3] (by decide) (by decide) (by decide)
  refine ⟨r, h1, h2, h3, h4 2 (by decide) (by decide), h5 2 ?_⟩
  intro q hq d hd
  simp only [List.singleton_append, List.mem_cons, List.mem_singleton, List.not_mem_nil,
    or_false] at hq
  rcases hq with rfl | rfl
  · have : shared_manager.prepare.heap[0]? = some (OptionValueBase.named ['O'] ['O', 'N', 'E']
        false (OptionImpl.FlagValue (Ref.var 0) (Scalar.int 1))) := by decide
    rw [this] at hd
    cases hd
    decide
  · have : shared_manager.prepare.heap[1]? = some (OptionValueBase.named ['P']
        ['P', 'O', 'R', 'T'] false (OptionImpl.NameValue Ty.uint (Ref.var 1))) := by decide
    rw [this] at hd
    cases hd
    decide

/-- C14 as stated fails on `-O -P` for the flags `-O` and `-T`, which share
their destination, and the option `-P` between them in the sorted order: `-O`
stores ONE, `-P` fails for want of a value and `process_arguments` returns -1;
the later flag `-T` is not consumed, but its destination no longer holds its
initial value. -/
theorem C14_counterexample :
    shared_manager.prepare.opts_ = [0, 1, 2, 3]
      ∧ ((consume_named [0] (shared_manager.start (const_store 0)
            [['-', 'O'], ['-', 'P']])).bind (fun x => consume_at 1 x.2)).map (fun x => x.1)
        = Outcome.done false
      ∧ (shared_manager.prepare.heap[2]?).map (fun d => (d.short_name_, d.value_))
        = some (['T'], Ref.var 0)
      ∧ (shared_manager.process_arguments (const_store 0) [['-', 'O'], ['-', 'P']]).map
          (fun r => (r.retval, (r.manager.heap[2]?).map (fun d => d.consumed_),
            r.store (Ref.var 0)))
        = Outcome.done (-1, some false, Val.scalar (Scalar.int 1))
      ∧ (shared_manager.process_arguments (const_store 0) [['-', 'O'], ['-', 'P']]).map
          (fun r => r.store (Ref.var 0)) ≠ Outcome.done (const_store 0 (Ref.var 0)) :=
  ⟨by decide, by decide, by decide, by decide, by decide⟩

/-! ### C17: single positionals in registration order -/

/-- A single positional takes the first token that does not begin with `-`. -/
theorem PositionalValue_consume_first (self : OptionValueBase) (ty : Ty) (value_ : Ref)
    (store : Store) (it : Str) (after : program_option_type) (hit : front it ≠ '-') :
    ∀ (before pre : program_option_type), (∀ t ∈ before, front t = '-') →
      PositionalValue.consume self ty value_ store pre (before ++ it :: after)
        = ⟨true, { self with consumed_ := true }, (extract ty it).assign store value_,
            pre ++ before ++ after⟩ := by
  intro before
  induction before with
  | nil =>
    intro pre _
    have hf : (front it != '-') = true := by simpa using hit
    simp [PositionalValue.consume, hf]
  | cons b bs ih =>
    intro pre hb
    have hf : (front b != '-') = false := by simpa using hb b (List.mem_cons_self _ _)
    rw [List.cons_append]
    simp only [PositionalValue.consume, hf, Bool.false_eq_true, if_false]
    rw [ih (pre ++ [b]) (fun t ht => hb t (List.mem_cons_of_mem _ ht))]
    simp

/-- The loop over `positionals_` for single positionals and as many tokens,
none of which begins with `-`: each takes the first token left. -/
theorem consume_positionals_single (ps : List Nat) :
    ∀ (xs : List (Ty × Ref)) (heap : List OptionValueBase) (store : Store) (ts : List Str),
      single_positionals heap ps xs → ts.length = xs.length → (∀ t ∈ ts, front t ≠ '-') →
      ∃ heap1, consume_positionals ps ⟨heap, store, ts⟩
          = Outcome.done ⟨heap1, assign_each store xs ts, []⟩
        ∧ (∀ p ∈ ps, ∃ d, heap1[p]? = some d ∧ d.consumed_ = true)
        ∧ (∀ (q : Nat) d, heap[q]? = some d →
            ∃ d1, heap1[q]? = some d1 ∧ d1.impl = d.impl
              ∧ (d.consumed_ = true → d1.consumed_ = true)) := by
  induction ps with
  | nil =>
    intro xs heap store ts h hl _
    cases h
    simp only [List.length_nil, List.length_eq_zero] at hl
    subst hl
    exact ⟨heap, rfl, fun p hp => absurd hp (List.not_mem_nil p),
      fun q d hq => ⟨d, hq, rfl, fun h => h⟩⟩
  | cons p ps ih =>
    intro xs heap store ts h hl hts
    unfold single_positionals at h
    cases h with
    | @cons _ x _ xs hpx hrest =>
      obtain ⟨d, hd, himpl⟩ := hpx
      cases ts with
      | nil => simp at hl
      | cons t ts =>
        have hp : p < heap.length := (List.getElem?_eq_some.mp hd).1
        have hstep : consume_at p ⟨heap, store, t :: ts⟩ = Outcome.done (true,
            ⟨heap.set p { d with consumed_ := true }, (extract x.1 t).assign store x.2, ts⟩) := by
          have := PositionalValue_consume_first d x.1 x.2 store t ts
            (hts t (List.mem_cons_self _ _)) [] [] (fun t ht => absurd ht (List.not_mem_nil t))
          simp only [List.nil_append] at this
          simp only [consume_at, hd, OptionValueBase.consume, himpl, this]
        have hkeep : ∀ (q : Nat) e, heap[q]? = some e →
            ∃ e1, (heap.set p { d with consumed_ := true })[q]? = some e1 ∧ e1.impl = e.impl
              ∧ (e.consumed_ = true → e1.consumed_ = true) := by
          intro q e hq
          by_cases hqp : q = p
          · subst hqp
            rw [hd] at hq
            cases hq
            exact ⟨_, List.getElem?_set_self hp, rfl, fun _ => rfl⟩
          · exact ⟨e, by rw [List.getElem?_set_ne (Ne.symm hqp)]; exact hq, rfl, fun h => h⟩
        have hrest1 : single_positionals (heap.set p { d with consumed_ := true }) ps xs := by
          unfold single_positionals
          refine List.Forall₂.imp ?_ hrest
          rintro q y ⟨e, hq, he⟩
          obtain ⟨e1, h1, h2, _⟩ := hkeep q e hq
          exact ⟨e1, h1, h2.trans he⟩
        obtain ⟨heap1, h1, h2, h3⟩ := ih xs _ ((extract x.1 t).assign store x.2) ts hrest1
          (by simpa using hl) (fun u hu => hts u (List.mem_cons_of_mem _ hu))
        refine ⟨heap1, ?_, ?_, ?_⟩
        · rw [consume_positionals, hstep]
          simp only
          rw [h1]
          rfl
        · intro q hq
          rcases List.mem_cons.mp hq with rfl | hq
          · obtain ⟨e1, g1, _, g3⟩ := h3 q _ (List.getElem?_set_self hp)
            exact ⟨e1, g1, g3 rfl⟩
          · exact h2 q hq
        · intro q e hq
          obtain ⟨e1, g1, g2, g3⟩ := hkeep q e hq
          obtain ⟨e2, k1, k2, k3⟩ := h3 q e1 g1
          exact ⟨e2, k1, k2.trans g2, fun h => k3 (g3 h)⟩

/-- The assignments of `assign_each` write only the destinations. -/
theorem assign_each_other (ref : Ref) :
    ∀ (xs : List (Ty × Ref)) (ts : List Str) (store : Store), ref ∉ xs.map Prod.snd →
      assign_each store xs ts ref = store ref := by
  intro xs
  induction xs with
  | nil => intro ts store _; cases ts <;> rfl
  | cons x xs ih =>
    intro ts store h
    cases ts with
    | nil => rfl
    | cons t ts =>
      simp only [List.map_cons, List.mem_cons, not_or] at h
      rw [assign_each, ih ts _ h.2, assign_other _ _ _ _ h.1]

/-- With pairwise different destinations the `i`-th destination holds the
value of the `i`-th token. -/
theorem assign_each_get :
    ∀ (xs : List (Ty × Ref)) (ts : List Str) (store : Store) (i : Nat) (x : Ty × Ref) (t : Str)
      (v : Scalar), (xs.map Prod.snd).Nodup → xs[i]? = some x → ts[i]? = some t →
      (extract x.1 t).value = some v → assign_each store xs ts x.2 = Val.scalar v := by
  intro xs
  induction xs with
  | nil => intro ts store i x t v _ h; simp at h
  | cons y ys ih =>
    intro ts store i x t v hn hx ht hv
    cases ts with
    | nil => simp at ht
    | cons u us =>
      simp only [List.map_cons, List.nodup_cons] at hn
      cases i with
      | zero =>
        simp only [List.getElem?_cons_zero, Option.some.injEq] at hx ht
        subst hx ht
        rw [assign_each, assign_each_other _ _ _ _ hn.1]
        simp [Extracted.assign, hv, Store.set]
      | succ j =>
        simp only [List.getElem?_cons_succ] at hx ht
        rw [assign_each]
        exact ih us _ j x t v hn.2 hx ht hv

theorem finish_argvv (m : ProgramOptionManager) (st : State) : (finish m st).argvv = st.argvv := by
  unfold finish
  simp only
  split
  · rfl
  · split <;> rfl

theorem finish_heap (m : ProgramOptionManager) (st : State) :
    (finish m st).manager.heap = st.heap := by
  unfold finish
  simp only
  split
  · rfl
  · split <;> rfl

/-- C17: when `positionals_` holds single positionals only and the argument
list has as many tokens, none of which begins with `-` or is matched by a named
option (the help flag included), `process_arguments` returns after the
statements `ssin >> value_` of the `i`-th token into the destination of the
`i`-th positional, in registration order, with all tokens taken and every
positional consumed; with pairwise different destinations the `i`-th
destination ends with the value of the `i`-th token. In any buffer a single
positional takes the first token that does not begin with `-`. -/
theorem C17_positional_order (m : ProgramOptionManager) (store : Store) (ts : List Str)
    (xs : List (Ty × Ref))
    (hnamed : ∀ p ∈ m.prepare.opts_, ∃ d, m.prepare.heap[p]? = some d ∧ d.is_named = true
      ∧ ∀ t ∈ ts, d.name_match t = false)
    (hpos : single_positionals m.prepare.heap m.prepare.positionals_ xs)
    (hlen : ts.length = xs.length) (hts : ∀ t ∈ ts, front t ≠ '-') :
    (∃ r, m.process_arguments store ts = Outcome.done r
        ∧ r.store = assign_each (store.set Ref.help (Val.scalar (Scalar.bool false))) xs ts
        ∧ r.argvv = []
        ∧ (∀ p ∈ m.prepare.positionals_, ∃ d, r.manager.heap[p]? = some d ∧ d.consumed_ = true)
        ∧ ((xs.map Prod.snd).Nodup → ∀ (i : Nat) x t v, xs[i]? = some x → ts[i]? = some t →
            (extract x.1 t).value = some v → r.store x.2 = Val.scalar v))
      ∧ ∀ (self : OptionValueBase) (ty : Ty) (value_ : Ref) (store1 : Store)
          (before : program_option_type) (it : Str) (after : program_option_type),
          (∀ t ∈ before, front t = '-') → front it ≠ '-' →
          PositionalValue.consume self ty value_ store1 [] (before ++ it :: after)
            = ⟨true, { self with consumed_ := true }, (extract ty it).assign store1 value_,
                before ++ after⟩ := by
  constructor
  · have hpre : preprocess m.prepare.heap m.prepare.opts_ ts = ts :=
      preprocess_plain _ _ _ (fun a ha => by simpa using hts a ha)
    have hn := consume_named_no_match m.prepare.opts_ m.prepare.heap
      (store.set Ref.help (Val.scalar (Scalar.bool false))) ts hnamed
    obtain ⟨heap1, h1, h2, _⟩ := consume_positionals_single m.prepare.positionals_ xs
      m.prepare.heap (store.set Ref.help (Val.scalar (Scalar.bool false))) ts hpos hlen hts
    refine ⟨finish m.prepare ⟨heap1,
      assign_each (store.set Ref.help (Val.scalar (Scalar.bool false))) xs ts, []⟩, ?_, ?_, ?_, ?_, ?_⟩
    · unfold ProgramOptionManager.process_arguments
      simp only [hpre, hn, Bool.not_true, Bool.false_eq_true, if_false, h1]
    · rw [finish_store]
    · rw [finish_argvv]
    · rw [finish_heap]
      exact h2
    · intro hnd i x t v hx ht hv
      rw [finish_store]
      exact assign_each_get xs ts _ i x t v hnd hx ht hv
  · intro self ty value_ store1 before it after hb hit
    have := PositionalValue_consume_first self ty value_ store1 it after hit before [] hb
    simpa using this

/-- C17 for the positionals `count` and `name` on `7 abc`. -/
theorem C17_positional_order_witness :
    ∃ r, two_positionals_manager.process_arguments (const_store 0) [['7'], ['a', 'b', 'c']]
        = Outcome.done r
      ∧ r.store (Ref.var 0) = Val.scalar (Scalar.uint 7)
      ∧ r.store (Ref.var 1) = Val.scalar (Scalar.str ['a', 'b', 'c'])
      ∧ r.argvv = [] := by
  have hopts : two_positionals_manager.prepare.opts_ = [0, 3] := by decide
  have hpos : two_positionals_manager.prepare.positionals_ = [1, 2] := by decide
  obtain ⟨⟨r, h1, _, h3, _, h5⟩, _⟩ := C17_positional_order two_positionals_manager
    (const_store 0) [['7'], ['a', 'b', 'c']] [(Ty.uint, Ref.var 0), (Ty.string, Ref.var 1)]
    (by
      intro p hp
      rw [hopts] at hp
      simp only [List.mem_cons, List.mem_singleton, List.not_mem_nil, or_false] at hp
      rcases hp with rfl | rfl
      · exact ⟨OptionValueBase.named ['b'] ['b', 'o', 'o', 'l'] false
          (OptionImpl.NameValueBool (Ref.var 2)), by decide, by decide, by decide⟩
      · exact ⟨help_option, by decide, by decide, by decide⟩)
    (by
      unfold single_positionals
      rw [hpos]
      exact List.Forall₂.cons ⟨OptionValueBase.positional ['c', 'o', 'u', 'n', 't'] true
          (OptionImpl.PositionalValue Ty.uint (Ref.var 0)), by decide, rfl⟩
        (List.Forall₂.cons ⟨OptionValueBase.positional ['n', 'a', 'm', 'e'] true
          (OptionImpl.PositionalValue Ty.string (Ref.var 1)), by decide, rfl⟩ List.Forall₂.nil))
    rfl (by decide)
  exact ⟨r, h1,
    h5 (by decide) 0 (Ty.uint, Ref.var 0) ['7'] (Scalar.uint 7) rfl rfl (by decide),
    h5 (by decide) 1 (Ty.string, Ref.var 1) ['a', 'b', 'c'] (Scalar.str ['a', 'b', 'c']) rfl rfl
      (by decide), h3⟩

/-! ### C20: the target of a dependent positional -/

/-- The search loop finds the first pointer whose descriptor passes the
test. -/
theorem find_descriptor_some (heap : List OptionValueBase) (P : OptionValueBase → Bool)
    (ptrs : List Nat) (q : Nat) :
    find_descriptor heap P ptrs = some q ↔ first_pointer heap P ptrs q := by
  unfold find_descriptor first_pointer
  induction ptrs with
  | nil => simp
  | cons p ps ih =>
    rw [List.find?_cons]
    cases hp : heap[p]? with
    | none =>
      simp only
      rw [ih]
      constructor
      · rintro ⟨l1, l2, d, h1, h2, h3, h4⟩
        refine ⟨p :: l1, l2, d, by rw [h1]; rfl, h2, h3, ?_⟩
        intro x hx e he
        rcases List.mem_cons.mp hx with rfl | hx
        · rw [hp] at he; cases he
        · exact h4 x hx e he
      · rintro ⟨l1, l2, d, h1, h2, h3, h4⟩
        cases l1 with
        | nil =>
          simp only [List.nil_append, List.cons.injEq] at h1
          obtain ⟨rfl, _⟩ := h1
          rw [hp] at h2; cases h2
        | cons a l1 =>
          simp only [List.cons_append, List.cons.injEq] at h1
          exact ⟨l1, l2, d, h1.2, h2, h3, fun x hx => h4 x (List.mem_cons_of_mem _ hx)⟩
    | some dp =>
      simp only
      cases hP : P dp with
      | true =>
        simp only [Option.some.injEq]
        constructor
        · rintro rfl
          exact ⟨[], ps, dp, rfl, hp, hP, fun x hx => absurd hx (List.not_mem_nil x)⟩
        · rintro ⟨l1, l2, d, h1, h2, h3, h4⟩
          cases l1 with
          | nil =>
            simp only [List.nil_append, List.cons.injEq] at h1
            exact h1.1
          | cons a l1 =>
            simp only [List.cons_append, List.cons.injEq] at h1
            obtain ⟨rfl, _⟩ := h1
            have := h4 p (List.mem_cons_self _ _) dp hp
            rw [hP] at this; cases this
      | false =>
        simp only
        rw [ih]
        constructor
        · rintro ⟨l1, l2, d, h1, h2, h3, h4⟩
          refine ⟨p :: l1, l2, d, by rw [h1]; rfl, h2, h3, ?_⟩
          intro x hx e he
          rcases List.mem_cons.mp hx with rfl | hx
          · rw [hp] at he; cases he; exact hP
          · exact h4 x hx e he
        · rintro ⟨l1, l2, d, h1, h2, h3, h4⟩
          cases l1 with
          | nil =>
            simp only [List.nil_append, List.cons.injEq] at h1
            obtain ⟨rfl, _⟩ := h1
            rw [hp] at h2; cases h2
            rw [hP] at h3; cases h3
          | cons a l1 =>
            simp only [List.cons_append, List.cons.injEq] at h1
            exact ⟨l1, l2, d, h1.2, h2, h3, fun x hx => h4 x (List.mem_cons_of_mem _ hx)⟩

/-- The search loop finds nothing exactly when no descriptor passes the
test. -/
theorem find_descriptor_none (heap : List OptionValueBase) (P : OptionValueBase → Bool)
    (ptrs : List Nat) :
    find_descriptor heap P ptrs = none ↔ no_pointer heap P ptrs := by
  unfold find_descriptor no_pointer
  rw [List.find?_eq_none]
  constructor
  · intro h p hp e he
    have := h p hp
    simpa [he] using this
  · intro h p hp
    cases he : heap[p]? with
    | none => simp
    | some e => simpa using h p hp e he

/-- C20: the dependent `add_option` appends a pointer to `positionals_`
exactly when some descriptor of `opts_` has the short or the long name
`opt.name` or some descriptor of `positionals_` has the help name `opt.name`;
the target bound is the first such descriptor of `opts_` (which holds the
named descriptors in registration order until `process_arguments` sorts it)
if there is one, otherwise the first such descriptor of `positionals_`; when
there is none the manager is left as it was. -/
theorem C20_dependency_resolution (m : ProgramOptionManager) (help_name : Str) (ty : Ty)
    (value : Ref) (opt : CountDependentOption) (required : Bool) :
    (((∃ p ∈ m.opts_, ∃ d, m.heap[p]? = some d
            ∧ (opt.name = d.short_name_ ∨ opt.name = d.long_name_))
          ∨ (∃ p ∈ m.positionals_, ∃ d, m.heap[p]? = some d ∧ opt.name = d.help_name_))
        ↔ (m.add_option_dependent help_name ty value opt required).positionals_
            = m.positionals_ ++ [m.heap.length])
      ∧ (∀ q, first_pointer m.heap (named_as opt.name) m.opts_ q →
          m.add_option_dependent help_name ty value opt required
            = m.push_positional (dependent_vector help_name ty value opt required q))
      ∧ (no_pointer m.heap (named_as opt.name) m.opts_ →
          ∀ q, first_pointer m.heap (helped_as opt.name) m.positionals_ q →
          m.add_option_dependent help_name ty value opt required
            = m.push_positional (dependent_vector help_name ty value opt required q))
      ∧ (no_pointer m.heap (named_as opt.name) m.opts_ →
          no_pointer m.heap (helped_as opt.name) m.positionals_ →
          m.add_option_dependent help_name ty value opt required = m) := by
  have hA : ∀ q, first_pointer m.heap (named_as opt.name) m.opts_ q →
      m.add_option_dependent help_name ty value opt required
        = m.push_positional (dependent_vector help_name ty value opt required q) := by
    intro q hq
    have := (find_descriptor_some _ _ _ _).mpr hq
    unfold named_as at this
    simp only [ProgramOptionManager.add_option_dependent, ProgramOptionManager.find_dependent,
      this, dependent_vector]
  have hB : no_pointer m.heap (named_as opt.name) m.opts_ →
      ∀ q, first_pointer m.heap (helped_as opt.name) m.positionals_ q →
      m.add_option_dependent help_name ty value opt required
        = m.push_positional (dependent_vector help_name ty value opt required q) := by
    intro hn q hq
    have h1 := (find_descriptor_none _ _ _).mpr hn
    have h2 := (find_descriptor_some _ _ _ _).mpr hq
    unfold named_as at h1
    unfold helped_as at h2
    simp only [ProgramOptionManager.add_option_dependent, ProgramOptionManager.find_dependent,
      h1, h2, dependent_vector]
  have hC : no_pointer m.heap (named_as opt.name) m.opts_ →
      no_pointer m.heap (helped_as opt.name) m.positionals_ →
      m.add_option_dependent help_name ty value opt required = m := by
    intro hn hp
    have h1 := (find_descriptor_none _ _ _).mpr hn
    have h2 := (find_descriptor_none _ _ _).mpr hp
    unfold named_as at h1
    unfold helped_as at h2
    simp only [ProgramOptionManager.add_option_dependent, ProgramOptionManager.find_dependent,
      h1, h2]
  refine ⟨?_, hA, hB, hC⟩
  cases h1 : find_descriptor m.heap (named_as opt.name) m.opts_ with
  | some q =>
    have hq := (find_descriptor_some _ _ _ _).mp h1
    rw [hA q hq]
    obtain ⟨l1, l2, d, e1, e2, e3, _⟩ := hq
    simp only [ProgramOptionManager.push_positional, iff_true]
    left
    refine ⟨q, by rw [e1]; simp, d, e2, ?_⟩
    simpa [named_as] using e3
  | none =>
    have hn := (find_descriptor_none _ _ _).mp h1
    cases h2 : find_descriptor m.heap (helped_as opt.name) m.positionals_ with
    | some q =>
      have hq := (find_descriptor_some _ _ _ _).mp h2
      rw [hB hn q hq]
      obtain ⟨l1, l2, d, e1, e2, e3, _⟩ := hq
      simp only [ProgramOptionManager.push_positional, iff_true]
      right
      refine ⟨q, by rw [e1]; simp, d, e2, ?_⟩
      simpa [helped_as] using e3
    | none =>
      have hp := (find_descriptor_none _ _ _).mp h2
      rw [hC hn hp]
      constructor
      · rintro (⟨p, hp1, d, hd, hm⟩ | ⟨p, hp1, d, hd, hm⟩)
        · have := hn p hp1 d hd
          simp [named_as, hm] at this
          rcases hm with hm | hm
          · exact absurd hm this.1
          · exact absurd hm this.2
        · have := hp p hp1 d hd
          simp [helped_as, hm] at this
      · intro h
        have := congrArg List.length h
        simp at this

/-- C20 on three registrations: with a positional and a later option both
called `n` the option is bound; the positional `count` of the demonstration
program is bound where no named option is called `count`; on an empty manager
the registration is rejected. -/
theorem C20_dependency_resolution_witness :
    both_n_manager.add_option_dependent ['v', 'a', 'l', 's'] Ty.string (Ref.var 1)
        (count_depends_on ['n']) true
        = both_n_manager.push_positional (dependent_vector ['v', 'a', 'l', 's'] Ty.string
          (Ref.var 1) (count_depends_on ['n']) true 1)
      ∧ (ProgramOptionManager.new.add_option_positional ['c', 'o', 'u', 'n', 't'] Ty.uint
          (Ref.var 0) true).add_option_dependent ['p', 'o', 's', '2'] Ty.string (Ref.var 1)
          (count_depends_on ['c', 'o', 'u', 'n', 't']) true
        = (ProgramOptionManager.new.add_option_positional ['c', 'o', 'u', 'n', 't'] Ty.uint
          (Ref.var 0) true).push_positional (dependent_vector ['p', 'o', 's', '2'] Ty.string
          (Ref.var 1) (count_depends_on ['c', 'o', 'u', 'n', 't']) true 0)
      ∧ ProgramOptionManager.new.add_option_dependent ['p', 'o', 's', '2'] Ty.string (Ref.var 1)
          (count_depends_on ['c', 'o', 'u', 'n', 't']) true = ProgramOptionManager.new :=
  ⟨(C20_dependency_resolution both_n_manager ['v', 'a', 'l', 's'] Ty.string (Ref.var 1)
      (count_depends_on ['n']) true).2.1 1
      ⟨[], [], OptionValueBase.named ['n'] ['n', 'u', 'm'] false
        (OptionImpl.NameValue Ty.uint (Ref.var 0)), by decide, by decide, by decide,
        fun p hp => absurd hp (List.not_mem_nil p)⟩,
    (C20_dependency_resolution (ProgramOptionManager.new.add_option_positional
      ['c', 'o', 'u', 'n', 't'] Ty.uint (Ref.var 0) true) ['p', 'o', 's', '2'] Ty.string
      (Ref.var 1) (count_depends_on ['c', 'o', 'u', 'n', 't']) true).2.2.1
      (fun p hp => absurd hp (List.not_mem_nil p)) 0
      ⟨[], [], OptionValueBase.positional ['c', 'o', 'u', 'n', 't'] true
        (OptionImpl.PositionalValue Ty.uint (Ref.var 0)), by decide, by decide, by decide,
        fun p hp => absurd hp (List.not_mem_nil p)⟩,
    (C20_dependency_resolution ProgramOptionManager.new ['p', 'o', 's', '2'] Ty.string
      (Ref.var 1) (count_depends_on ['c', 'o', 'u', 'n', 't']) true).2.2.2
      (fun p hp => absurd hp (List.not_mem_nil p)) (fun p hp => absurd hp (List.not_mem_nil p))⟩

/-! ### C19: the order of two named descriptors -/

/-- Assignments to different variables commute. -/
theorem set_comm (s : Store) (v w : Ref) (x y : Val) (h : w ≠ v) :
    (s.set w y).set v x = (s.set v x).set w y := by
  funext q
  simp only [Store.set]
  by_cases h1 : q = v
  · subst h1
    simp [Ne.symm h]
  · simp [h1]

/-- A write to another variable commutes with the assignment of an extracted
value. -/
theorem assign_set (e : Extracted) (s : Store) (v w : Ref) (y : Val) (h : w ≠ v) :
    e.assign (s.set w y) v = (e.assign s v).set w y := by
  unfold Extracted.assign
  cases e.value with
  | none => rfl
  | some x => exact set_comm s v w _ y h

/-- The tokens in front of the iterator of `NameValue<T>::consume` stay in
front of what the loop leaves. -/
theorem NameValue_consume_pre (self : OptionValueBase) (ty : Ty) (value_ : Ref) (store : Store) :
    ∀ (suf pre : program_option_type),
      NameValue.consume self ty value_ store pre suf
        = ⟨(NameValue.consume self ty value_ store [] suf).ret,
            (NameValue.consume self ty value_ store [] suf).self,
            (NameValue.consume self ty value_ store [] suf).store,
            pre ++ (NameValue.consume self ty value_ store [] suf).opts⟩ := by
  intro suf
  induction suf with
  | nil => intro pre; simp [NameValue.consume]
  | cons it rest ih =>
    intro pre
    by_cases hm : self.name_match it = true
    · cases rest with
      | nil => simp [NameValue.consume, hm]
      | cons next after =>
        by_cases hf : (front next == '-') = true
        · simp [NameValue.consume, hm, hf]
        · by_cases hb : (extract ty next).bad = true
          · simp [NameValue.consume, hm, hf, hb]
          · simp [NameValue.consume, hm, hf, hb]
    · have hm2 : self.name_match it = false := by simpa using hm
      simp only [NameValue.consume, hm2, Bool.false_eq_true, if_false, List.nil_append]
      rw [ih (pre ++ [it]), ih [it]]
      simp

/-- A write to another variable passes through `NameValue<T>::consume`. -/
theorem NameValue_consume_set (self : OptionValueBase) (ty : Ty) (value_ : Ref) (store : Store)
    (w : Ref) (y : Val) (h : w ≠ value_) :
    ∀ (suf pre : program_option_type),
      NameValue.consume self ty value_ (store.set w y) pre suf
        = ⟨(NameValue.consume self ty value_ store pre suf).ret,
            (NameValue.consume self ty value_ store pre suf).self,
            (NameValue.consume self ty value_ store pre suf).store.set w y,
            (NameValue.consume self ty value_ store pre suf).opts⟩ := by
  intro suf
  induction suf with
  | nil => intro pre; simp [NameValue.consume]
  | cons it rest ih =>
    intro pre
    by_cases hm : self.name_match it = true
    · cases rest with
      | nil => simp [NameValue.consume, hm]
      | cons next after =>
        by_cases hf : (front next == '-') = true
        · simp [NameValue.consume, hm, hf]
        · by_cases hb : (extract ty next).bad = true
          · simp [NameValue.consume, hm, hf, hb, assign_set _ _ _ _ _ h]
          · simp [NameValue.consume, hm, hf, hb, assign_set _ _ _ _ _ h]
    · have hm2 : self.name_match it = false := by simpa using hm
      simp only [NameValue.consume, hm2, Bool.false_eq_true, if_false]
      exact ih (pre ++ [it])

/-- The flag `consume` as a function of the buffer: it erases the first
matching token and, when there is one, assigns and sets `consumed_`. -/
theorem Flag_consume_eq (self : OptionValueBase) (value_ : Ref) (v : Scalar) (store : Store) :
    ∀ (suf pre : program_option_type),
      Flag.consume self value_ v store pre suf
        = ⟨true, if suf.any self.name_match then { self with consumed_ := true } else self,
            if suf.any self.name_match then store.set value_ (Val.scalar v) else store,
            pre ++ suf.eraseP self.name_match⟩ := by
  intro suf
  induction suf with
  | nil => intro pre; simp [Flag.consume]
  | cons it rest ih =>
    intro pre
    by_cases hm : self.name_match it = true
    · simp [Flag.consume, hm]
    · have hm2 : self.name_match it = false := by simpa using hm
      simp only [Flag.consume, hm2, Bool.false_eq_true, if_false, ih (pre ++ [it]),
        List.any_cons, Bool.false_or, List.eraseP_cons, cond_false]
      simp

/-- The `consume` of a named option that takes at most one value is the one
of a single-value option or the one of a flag. -/
theorem single_consume (heap : List OptionValueBase) (d : OptionValueBase)
    (hs : d.is_single = true) :
    (d.is_flag = false ∧ ∃ ty, ∀ store opts, d.consume heap store opts
        = Outcome.done (NameValue.consume d ty d.value_ store [] opts))
      ∨ (d.is_flag = true ∧ ∃ x, ∀ store opts, d.consume heap store opts
        = Outcome.done (Flag.consume d d.value_ x store [] opts)) := by
  unfold OptionValueBase.is_single at hs
  cases hd : d.impl with
  | NameValue ty v =>
    left
    exact ⟨by simp [OptionValueBase.is_flag, hd], ty, fun store opts => by
      simp [OptionValueBase.consume, OptionValueBase.value_, hd]⟩
  | NameValueBool v =>
    right
    exact ⟨by simp [OptionValueBase.is_flag, hd], Scalar.bool true, fun store opts => by
      simp [OptionValueBase.consume, OptionValueBase.value_, hd]⟩
  | FlagValue v x =>
    right
    exact ⟨by simp [OptionValueBase.is_flag, hd], x, fun store opts => by
      simp [OptionValueBase.consume, OptionValueBase.value_, hd]⟩
  | NameValueVector ty v k => simp [hd] at hs
  | PositionalValue ty v => simp [hd] at hs
  | PositionalValueVector ty v c e k q => simp [hd] at hs

/-- A named option that takes at most one value always returns. -/
theorem single_done (heap : List OptionValueBase) (d : OptionValueBase) (hs : d.is_single = true)
    (store : Store) (opts : program_option_type) :
    ∃ r, d.consume heap store opts = Outcome.done r := by
  rcases single_consume heap d hs with ⟨_, ty, h⟩ | ⟨_, x, h⟩
  · exact ⟨_, h store opts⟩
  · exact ⟨_, h store opts⟩

/-- On an empty buffer a named option that takes at most one value returns true
and changes nothing. -/
theorem single_nil (heap : List OptionValueBase) (d : OptionValueBase) (hs : d.is_single = true)
    (store : Store) : d.consume heap store [] = Outcome.done ⟨true, d, store, []⟩ := by
  rcases single_consume heap d hs with ⟨_, ty, h⟩ | ⟨_, x, h⟩
  · rw [h]; simp [NameValue.consume]
  · rw [h]; simp [Flag.consume]

/-- A token that does not match is stepped over. -/
theorem single_skip (heap : List OptionValueBase) (d : OptionValueBase) (hs : d.is_single = true)
    (store : Store) (t : Str) (ts : program_option_type) (hm : d.name_match t = false) :
    d.consume heap store (t :: ts)
      = (d.consume heap store ts).map (fun r => ⟨r.ret, r.self, r.store, t :: r.opts⟩) := by
  rcases single_consume heap d hs with ⟨_, ty, h⟩ | ⟨_, x, h⟩
  · rw [h, h]
    simp only [Outcome.map, Outcome.done.injEq]
    simp only [NameValue.consume, hm, Bool.false_eq_true, if_false, List.nil_append]
    rw [NameValue_consume_pre]
    simp
  · rw [h, h]
    simp [Outcome.map, Flag_consume_eq, hm, List.eraseP_cons]

/-- A write to a variable other than the destination passes through. -/
theorem single_set (heap : List OptionValueBase) (d : OptionValueBase) (hs : d.is_single = true)
    (store : Store) (opts : program_option_type) (w : Ref) (y : Val) (h : w ≠ d.value_) :
    d.consume heap (store.set w y) opts
      = (d.consume heap store opts).map (fun r => ⟨r.ret, r.self, r.store.set w y, r.opts⟩) := by
  rcases single_consume heap d hs with ⟨_, ty, hc⟩ | ⟨_, x, hc⟩
  · rw [hc, hc]
    simp only [Outcome.map, Outcome.done.injEq]
    exact NameValue_consume_set d ty d.value_ store w y h opts []
  · rw [hc, hc]
    simp only [Outcome.map, Outcome.done.injEq]
    rw [Flag_consume_eq, Flag_consume_eq]
    by_cases ha : opts.any d.name_match = true
    · simp [ha, set_comm _ _ _ _ _ h]
    · simp [ha]

/-- An assignment to a variable other than the destination passes through. -/
theorem single_assign (heap : List OptionValueBase) (d : OptionValueBase)
    (hs : d.is_single = true) (store : Store) (opts : program_option_type) (e : Extracted)
    (w : Ref) (h : w ≠ d.value_) :
    d.consume heap (e.assign store w) opts
      = (d.consume heap store opts).map (fun r => ⟨r.ret, r.self, e.assign r.store w, r.opts⟩) := by
  unfold Extracted.assign
  cases e.value with
  | none =>
    obtain ⟨r, hr⟩ := single_done heap d hs store opts
    simp [hr, Outcome.map]
  | some x => exact single_set heap d hs store opts w _ h

/-- When the first token of the buffer is matched by `a` and not by `b`, the
two orders of the calls agree. -/
theorem single_hit (heap : List OptionValueBase) (a b : OptionValueBase)
    (ha : a.is_single = true) (hb : b.is_single = true) (hv : a.value_ ≠ b.value_)
    (store : Store) (t : Str) (ts : program_option_type)
    (hat : a.name_match t = true) (hbt : b.name_match t = false)
    (hn : a.is_flag = false → ∀ nx af, ts = nx :: af → b.name_match nx = false) :
    consume_both heap a b store (t :: ts)
      = (consume_both heap b a store (t :: ts)).map PairResult.swap := by
  rcases single_consume heap a ha with ⟨hfl, ty, hca⟩ | ⟨_, x, hca⟩
  · cases ts with
    | nil =>
      simp [consume_both, hca, NameValue.consume, hat, Outcome.bind, Outcome.map,
        single_skip heap b hb _ t [] hbt, single_nil heap b hb, PairResult.swap]
    | cons nx af =>
      have hbn := hn hfl nx af rfl
      obtain ⟨rb0, hrb0⟩ := single_done heap b hb store af
      by_cases hf : (front nx == '-') = true
      · simp [consume_both, hca, NameValue.consume, hat, hf, Outcome.bind, Outcome.map,
          single_skip heap b hb _ t _ hbt, single_skip heap b hb _ nx _ hbn, hrb0,
          PairResult.swap]
      · by_cases hbad : (extract ty nx).bad = true
        · simp [consume_both, hca, NameValue.consume, hat, hf, hbad, Outcome.bind, Outcome.map,
            single_skip heap b hb _ t _ hbt, single_skip heap b hb _ nx _ hbn, hrb0,
            single_assign heap b hb store af _ _ hv, PairResult.swap]
        · simp [consume_both, hca, NameValue.consume, hat, hf, hbad, Outcome.bind, Outcome.map,
            single_skip heap b hb _ t _ hbt, single_skip heap b hb _ nx _ hbn, hrb0,
            single_assign heap b hb store af _ _ hv, PairResult.swap]
  · obtain ⟨rb0, hrb0⟩ := single_done heap b hb store ts
    simp [consume_both, hca, Flag.consume, hat, Outcome.bind, Outcome.map,
      single_skip heap b hb _ t _ hbt, hrb0, single_set heap b hb store ts _ _ hv,
      PairResult.swap]

/-- Two calls of named options that take at most one value always return. -/
theorem consume_both_done (heap : List OptionValueBase) (a b : OptionValueBase)
    (ha : a.is_single = true) (hb : b.is_single = true) (store : Store)
    (opts : program_option_type) : ∃ r, consume_both heap a b store opts = Outcome.done r := by
  obtain ⟨ra, hra⟩ := single_done heap a ha store opts
  obtain ⟨rb, hrb⟩ := single_done heap b hb ra.store ra.opts
  exact ⟨⟨ra.ret, rb.ret, ra.self, rb.self, rb.store, rb.opts⟩, by
    simp [consume_both, hra, hrb, Outcome.bind, Outcome.map]⟩

/-- A token that neither descriptor matches is stepped over by both calls. -/
theorem consume_both_skip (heap : List OptionValueBase) (a b : OptionValueBase)
    (ha : a.is_single = true) (hb : b.is_single = true) (store : Store) (t : Str)
    (ts : program_option_type) (hat : a.name_match t = false) (hbt : b.name_match t = false) :
    consume_both heap a b store (t :: ts)
      = (consume_both heap a b store ts).map
          (fun r => ⟨r.ret_a, r.ret_b, r.self_a, r.self_b, r.store, t :: r.opts⟩) := by
  obtain ⟨ra, hra⟩ := single_done heap a ha store ts
  obtain ⟨rb, hrb⟩ := single_done heap b hb ra.store ra.opts
  simp [consume_both, single_skip heap a ha _ t _ hat, single_skip heap b hb _ t _ hbt, hra, hrb,
    Outcome.bind, Outcome.map]

/-- The two orders of the calls agree, by induction on the buffer. -/
theorem consume_both_comm (heap : List OptionValueBase) (a b : OptionValueBase)
    (ha : a.is_single = true) (hb : b.is_single = true) (hv : a.value_ ≠ b.value_)
    (store : Store) :
    ∀ (opts : program_option_type),
      (∀ t ∈ opts, a.name_match t = true → b.name_match t = false) →
      (a.is_flag = false → next_free a b opts) → (b.is_flag = false → next_free b a opts) →
      consume_both heap a b store opts
        = (consume_both heap b a store opts).map PairResult.swap := by
  intro opts
  induction opts with
  | nil =>
    intro _ _ _
    simp [consume_both, single_nil heap a ha, single_nil heap b hb, Outcome.bind, Outcome.map,
      PairResult.swap]
  | cons t ts ih =>
    intro h1 h2 h3
    by_cases hat : a.name_match t = true
    · have hbt := h1 t (List.mem_cons_self _ _) hat
      exact single_hit heap a b ha hb hv store t ts hat hbt
        (fun hfl nx af e => h2 hfl [] t nx af (by rw [e]; rfl)
          (fun u hu => absurd hu (List.not_mem_nil u)) hat)
    · have hat2 : a.name_match t = false := by simpa using hat
      by_cases hbt : b.name_match t = true
      · have := single_hit heap b a hb ha (Ne.symm hv) store t ts hbt hat2
          (fun hfl nx af e => h3 hfl [] t nx af (by rw [e]; rfl)
            (fun u hu => absurd hu (List.not_mem_nil u)) hbt)
        rw [this]
        obtain ⟨r, hr⟩ := consume_both_done heap a b ha hb store (t :: ts)
        simp [hr, Outcome.map, PairResult.swap]
      · have hbt2 : b.name_match t = false := by simpa using hbt
        have hih := ih (fun u hu => h1 u (List.mem_cons_of_mem _ hu))
          (fun hfl pre it next after e hp hi => h2 hfl (t :: pre) it next after (by rw [e]; rfl)
            (fun u hu => by
              rcases List.mem_cons.mp hu with rfl | hu
              · exact hat2
              · exact hp u hu) hi)
          (fun hfl pre it next after e hp hi => h3 hfl (t :: pre) it next after (by rw [e]; rfl)
            (fun u hu => by
              rcases List.mem_cons.mp hu with rfl | hu
              · exact hbt2
              · exact hp u hu) hi)
        rw [consume_both_skip heap a b ha hb store t ts hat2 hbt2,
          consume_both_skip heap b a hb ha store t ts hbt2 hat2, hih]
        obtain ⟨r, hr⟩ := consume_both_done heap b a hb ha store ts
        simp [hr, Outcome.map, PairResult.swap]

/-- C19 (as amended): for two named descriptors that are flags or single-value
options, with different destinations, and a buffer in which no token is
matched by both and the token after the first match of a single-value option
is not matched by the other descriptor, the calls `a.consume` then `b.consume`
leave the same two return values, the same objects, the same variables and
the same buffer as the calls `b.consume` then `a.consume`; both orders
return. -/
theorem C19_order_independent (heap : List OptionValueBase) (a b : OptionValueBase)
    (store : Store) (opts : program_option_type)
    (ha : a.is_single = true) (hb : b.is_single = true) (hv : a.value_ ≠ b.value_)
    (hm : ∀ t ∈ opts, a.name_match t = true → b.name_match t = false)
    (hna : a.is_flag = false → next_free a b opts)
    (hnb : b.is_flag = false → next_free b a opts) :
    consume_both heap a b store opts = (consume_both heap b a store opts).map PairResult.swap
      ∧ ∃ r, consume_both heap a b store opts = Outcome.done r :=
  ⟨consume_both_comm heap a b ha hb hv store opts hm hna hnb,
    consume_both_done heap a b ha hb store opts⟩

/-- The token after the first match of `a` lies in the tail of the buffer. -/
theorem next_free_of_tail (a b : OptionValueBase) (opts : program_option_type)
    (h : ∀ t ∈ opts.tail, b.name_match t = false) : next_free a b opts := by
  intro pre it next after e _ _
  apply h
  rw [e]
  cases pre with
  | nil => simp
  | cons p ps => simp

/-- C19 (as amended) for the option `-u` and the flag `-b` on `-b -u 5`. -/
theorem C19_order_independent_witness :
    consume_both [] option_u flag_b (const_store 0) [['-', 'b'], ['-', 'u'], ['5']]
        = (consume_both [] flag_b option_u (const_store 0)
            [['-', 'b'], ['-', 'u'], ['5']]).map PairResult.swap
      ∧ ∃ r, consume_both [] option_u flag_b (const_store 0) [['-', 'b'], ['-', 'u'], ['5']]
          = Outcome.done r :=
  C19_order_independent [] option_u flag_b (const_store 0) [['-', 'b'], ['-', 'u'], ['5']]
    (by decide) (by decide) (by decide) (by decide)
    (fun _ => next_free_of_tail option_u flag_b _ (by decide))
    (fun h => absurd h (by decide))

/-- C19 as stated fails on `-u -b 5` for the option `-u` and the flag `-b`:
consumed first, `-u` finds `-b` where its value should be and returns false;
consumed after `-b` it takes the value 5 and the buffer ends empty. The sort
order decides the outcome of `process_arguments`: where the option is called
`-a` it is consumed in front of `-b` and `-a -b 5` returns -1, where it is
called `-u` it is consumed after `-b` and `-u -b 5` returns 1. -/
theorem C19_counterexample :
    (consume_both [] option_u flag_b (const_store 0) [['-', 'u'], ['-', 'b'], ['5']]).map
        (fun r => (r.ret_a, r.ret_b, r.store (Ref.var 2), r.opts))
        = Outcome.done (false, true, Val.scalar (Scalar.uint 0), [['-', 'u'], ['5']])
      ∧ (consume_both [] flag_b option_u (const_store 0) [['-', 'u'], ['-', 'b'], ['5']]).map
          (fun r => (r.ret_b, r.ret_a, r.store (Ref.var 2), r.opts))
        = Outcome.done (true, true, Val.scalar (Scalar.uint 5), [])
      ∧ (value_first_manager.process_arguments (const_store 0)
          [['-', 'a'], ['-', 'b'], ['5']]).map (fun r => (r.retval, r.store (Ref.var 2), r.argvv))
        = Outcome.done (-1, Val.scalar (Scalar.uint 0), [['-', 'a'], ['-', 'b'], ['5']])
      ∧ (flag_first_manager.process_arguments (const_store 0)
          [['-', 'u'], ['-', 'b'], ['5']]).map (fun r => (r.retval, r.store (Ref.var 2), r.argvv))
        = Outcome.done (1, Val.scalar (Scalar.uint 5), []) :=
  ⟨by decide, by decide, by decide, by decide⟩

/-! ### C21: the token preprocessor -/

/-- A constant test moves out of `any`. -/
theorem any_and_left (b : Bool) (g : Nat → Bool) (l : List Nat) :
    l.any (fun p => b && g p) = (b && l.any g) := by
  cases b <;> simp

/-- The loop condition of `back_insert_args` is the split condition of the
specification. -/
theorem splits_eq_spec (heap : List OptionValueBase) (opts_ : List Nat) (arg : Str) :
    splits heap opts_ arg = spec_splits heap opts_ arg := by
  match arg with
  | [] =>
    simp [splits, spec_splits, OptionValueBase.match_short_name, front]
    intro p _; cases heap[p]? <;> simp
  | [c0] =>
    simp [splits, spec_splits, OptionValueBase.match_short_name, front]
    intro p _; cases heap[p]? <;> simp
  | [c0, c1] =>
    simp [splits, spec_splits, OptionValueBase.match_short_name, front]
    intro p _; cases heap[p]? <;> simp
  | c0 :: c1 :: c2 :: rest =>
    simp only [splits, spec_splits]
    rw [← any_and_left]
    congr 1
    funext p
    cases heap[p]? with
    | none => simp
    | some d =>
      have hc : ([c1] == d.short_name_) = (d.short_name_ == [c1]) := BEq.comm
      simp [OptionValueBase.match_short_name, front, substr2, hc]

/-- The preprocessor handles the first argument and then the others. -/
theorem preprocess_cons (heap : List OptionValueBase) (opts_ : List Nat) (arg : Str)
    (args : List Str) :
    preprocess heap opts_ (arg :: args)
      = back_insert_args heap opts_ [] arg ++ preprocess heap opts_ args := by
  have := preprocess_append heap opts_ [arg] args
  simp only [List.singleton_append] at this
  rw [this]
  rfl

/-- C21: the token buffer built by `back_insert_args` is the one the
specification describes: in argument order, an argument becomes its first two
characters and its rest exactly when it has more than two characters, begins
with `-`, has a second character other than `-`, and that character is the
short name of a descriptor of `opts_`; every other argument is copied. The
preprocessor is a total function of the arguments. -/
theorem C21_preprocessor (heap : List OptionValueBase) (opts_ : List Nat) (args : List Str) :
    preprocess heap opts_ args = spec_preprocess heap opts_ args
      ∧ ∀ arg, spec_splits heap opts_ arg = true
        ↔ 2 < arg.length ∧ front arg = '-' ∧ arg.getD 1 (Char.ofNat 0) ≠ '-'
          ∧ ∃ p ∈ opts_, ∃ d, heap[p]? = some d ∧ d.short_name_ = [arg.getD 1 (Char.ofNat 0)] := by
  constructor
  · induction args with
    | nil => rfl
    | cons arg args ih =>
      rw [preprocess_cons, ih, spec_preprocess, spec_tokens, back_insert_args, splits_eq_spec]
      simp [substr, substr2]
  · intro arg
    match arg with
    | [] => simp [spec_splits]
    | [c0] => simp [spec_splits]
    | [c0, c1] => simp [spec_splits]
    | c0 :: c1 :: c2 :: rest =>
      simp only [spec_splits, Bool.and_eq_true, beq_iff_eq, bne_iff_ne, ne_eq, List.any_eq_true,
        front, List.headD_cons, List.getD_cons_succ, List.getD_cons_zero, List.length_cons]
      constructor
      · rintro ⟨⟨h0, h1⟩, p, hp, h⟩
        refine ⟨by omega, h0, h1, p, hp, ?_⟩
        cases hd : heap[p]? with
        | none => rw [hd] at h; cases h
        | some d =>
          rw [hd] at h
          exact ⟨d, rfl, by simpa using h⟩
      · rintro ⟨_, h0, h1, p, hp, d, hd, hs⟩
        refine ⟨⟨h0, h1⟩, p, hp, ?_⟩
        rw [hd]
        simpa using hs

/-- The preprocessor of the demonstration program on `-u5 --uint -x5 -b -h1`. -/
theorem preprocess_demo_example :
    preprocess demo_manager.prepare.heap demo_manager.prepare.opts_
      [['-', 'u', '5'], ['-', '-', 'u', 'i', 'n', 't'], ['-', 'x', '5'], ['-', 'b'],
        ['-', 'h', '1']]
      = [['-', 'u'], ['5'], ['-', '-', 'u', 'i', 'n', 't'], ['-', 'x', '5'], ['-', 'b'],
          ['-', 'h'], ['1']] := by
  decide

/-! ### C23: failed conversions that reach the end of the token -/

/-- C23 at `-c 99999999999`, `-c +` and `-c` followed by an empty token, for an
`unsigned int` destination that holds 7: each extraction sets failbit, but
also eofbit, so the test `!ssin.good() && !ssin.eof()` does not see the failure:
`consume` returns true, sets `consumed_` and erases both tokens, having stored
`UINT_MAX`, 0, or nothing; `process_arguments` returns 1. -/
theorem C23_failed_conversion_accepted :
    (extract Ty.uint ['9', '9', '9', '9', '9', '9', '9', '9', '9', '9', '9']
        = ⟨some (Scalar.uint UINT_MAX), true, true⟩
      ∧ (let r := NameValue.consume option_c Ty.uint (Ref.var 0) (const_store 7) []
            [['-', 'c'], ['9', '9', '9', '9', '9', '9', '9', '9', '9', '9', '9']]
         (r.ret, r.self.consumed_, r.store (Ref.var 0), r.opts))
        = (true, true, Val.scalar (Scalar.uint 4294967295), [])
      ∧ ((count_manager false).process_arguments (const_store 7)
          [['-', 'c'], ['9', '9', '9', '9', '9', '9', '9', '9', '9', '9', '9']]).map
          (fun r => (r.retval, r.store (Ref.var 0)))
        = Outcome.done (1, Val.scalar (Scalar.uint 4294967295)))
      ∧ (extract Ty.uint ['+'] = ⟨some (Scalar.uint 0), true, true⟩
        ∧ (let r := NameValue.consume option_c Ty.uint (Ref.var 0) (const_store 7) []
              [['-', 'c'], ['+']]
           (r.ret, r.self.consumed_, r.store (Ref.var 0), r.opts))
          = (true, true, Val.scalar (Scalar.uint 0), []))
      ∧ (extract Ty.uint [] = ⟨none, true, true⟩
        ∧ (let r := NameValue.consume option_c Ty.uint (Ref.var 0) (const_store 7) []
              [['-', 'c'], []]
           (r.ret, r.self.consumed_, r.store (Ref.var 0), r.opts))
          = (true, true, Val.scalar (Scalar.uint 7), [])) :=
  ⟨⟨by decide, by decide, by decide⟩, ⟨by decide, by decide⟩, ⟨by decide, by decide⟩⟩

/-! ### C26: the order of the required checks -/

/-- What the search for a missing descriptor finds is required and not consumed. -/
theorem first_missing_mem (heap : List OptionValueBase) (ps : List Nat) (d : OptionValueBase)
    (h : first_missing heap ps = some d) :
    ∃ p ∈ ps, heap[p]? = some d ∧ d.required_ = true ∧ d.consumed_ = false := by
  induction ps with
  | nil => simp [first_missing] at h
  | cons q ps ih =>
    rw [first_missing] at h
    cases hq : heap[q]? with
    | none =>
      simp only [hq] at h
      obtain ⟨p, hp, h1⟩ := ih h
      exact ⟨p, List.mem_cons_of_mem _ hp, h1⟩
    | some dq =>
      simp only [hq] at h
      by_cases hc : (dq.required_ && !dq.consumed_) = true
      · simp only [hc, if_true, Option.some.injEq] at h
        subst h
        simp only [Bool.and_eq_true, Bool.not_eq_true'] at hc
        exact ⟨q, List.mem_cons_self _ _, hq, hc.1, hc.2⟩
      · simp only [hc, Bool.false_eq_true, if_false] at h
        obtain ⟨p, hp, h1⟩ := ih h
        exact ⟨p, List.mem_cons_of_mem _ hp, h1⟩

/-- C26 (as amended): when `process_arguments` reaches the validation of
required-ness (no named `consume` failed, `help` is not set, the buffer is
empty) and some required positional is not consumed, it returns -1 and reports
the first such positional; a named option is reported only when every
required positional is consumed. -/
theorem C26_positional_reported_first (m : ProgramOptionManager) (store : Store)
    (args : List Str) :
    m.process_arguments store args = Outcome.undefined
      ∨ ∃ r, m.process_arguments store args = Outcome.done r
        ∧ (named_phase_ok m store args → r.store Ref.help ≠ Val.scalar (Scalar.bool true) →
            r.argvv = [] →
            ∀ d, first_missing r.manager.heap r.manager.positionals_ = some d →
              r.retval = -1 ∧ r.report = Report.missing_value d.help_name_)
        ∧ (∀ nm, r.report = Report.missing_option nm →
            all_required_consumed r.manager.heap r.manager.positionals_) := by
  rcases process_arguments_cases m store args with h | ⟨st1, h1, h2⟩ | ⟨st1, st2, h1, h3, h2⟩
  · exact Or.inl h
  · right
    refine ⟨_, h2, ?_, ?_⟩
    · rintro ⟨st, hst⟩
      unfold ProgramOptionManager.start at hst
      rw [h1] at hst
      cases hst
    · intro nm h
      cases h
  · right
    refine ⟨_, h2, ?_, ?_⟩
    · intro _ hh ha d hd
      rw [finish_store] at hh
      rw [finish_argvv] at ha
      rw [finish_heap] at hd
      have hh2 : (st2.store Ref.help == Val.scalar (Scalar.bool true)) = false := by
        simpa using hh
      have hp : (finish m.prepare st2).manager.positionals_ = m.prepare.positionals_ := by
        unfold finish; simp only; split
        · rfl
        · split <;> rfl
      rw [hp] at hd
      unfold finish
      simp only [hh2, ha, Bool.false_eq_true, if_false, List.isEmpty_nil, Bool.not_true,
        check_required, hd]
      exact ⟨trivial, trivial⟩
    · intro nm hrep
      rw [← first_missing_none]
      unfold finish at hrep ⊢
      simp only at hrep ⊢
      by_cases hh : (st2.store Ref.help == Val.scalar (Scalar.bool true)) = true
      · simp [hh] at hrep
      · simp only [hh, Bool.false_eq_true, if_false] at hrep ⊢
        by_cases ha : (!st2.argvv.isEmpty) = true
        · simp [ha] at hrep
        · simp only [ha, Bool.false_eq_true, if_false] at hrep ⊢
          unfold check_required at hrep
          cases hf : first_missing st2.heap m.prepare.positionals_ with
          | none => rfl
          | some d => simp [hf] at hrep

/-- C26 fails on the empty argument list for a manager with a required option
`-c` (`--count`) and a required positional `file`, neither of them consumed: the
positional is the one reported. -/
theorem C26_counterexample :
    (required_manager.process_arguments empty_vectors []).map (fun r => (r.retval, r.report))
        ≠ Outcome.done (-1, Report.missing_option ['-', '-', 'c', 'o', 'u', 'n', 't'])
      ∧ (required_manager.process_arguments empty_vectors []).map (fun r => (r.retval, r.report))
        = Outcome.done (-1, Report.missing_value ['f', 'i', 'l', 'e'])
      ∧ (required_manager.heap[0]?).map (fun d => (d.long_name_, d.required_, d.is_named))
        = some (['c', 'o', 'u', 'n', 't'], true, true) :=
  ⟨by decide, by decide, by decide⟩

/-! ### C27, C29: the rescan of the vector option -/

/-- C29 for every arity: when the buffer is a token matching the option followed
by exactly `k` well-formed values and nothing else, `consume` erases the whole
buffer, resets the iterator to `begin()`, which now equals `end()`, and the
loop header increments it past the end of the buffer: the behaviour is
undefined. -/
theorem C29_scan_position_leaves_buffer (self : OptionValueBase) (ty : Ty) (value_ : Ref)
    (k : Nat) (store : Store) (it : Str) (toks : program_option_type) (vals : List Scalar)
    (hit : self.name_match it = true) (hv : List.Forall₂ (reads ty) toks vals)
    (hk : toks.length = k) :
    NameValueVector.consume self ty value_ k store (it :: toks) = Outcome.undefined := by
  have h := read_values_full ty value_ k [] toks vals 0 store hv (by omega)
  rw [List.append_nil] at h
  simp only [NameValueVector.consume, NameValueVector.loop, NameValueVector.scan, hit, if_true, h,
    bne_self_eq_false, Bool.false_eq_true, if_false, List.nil_append]

/-- C29 at the buffer `-v 1 2 3` with arity 3. -/
theorem C29_scan_position_leaves_buffer_witness :
    NameValueVector.consume (option_v 3) Ty.int (Ref.var 0) 3 empty_vectors
      (['-', 'v'] :: [['1'], ['2'], ['3']]) = Outcome.undefined :=
  C29_scan_position_leaves_buffer (option_v 3) Ty.int (Ref.var 0) 3 empty_vectors ['-', 'v']
    [['1'], ['2'], ['3']] [Scalar.int 1, Scalar.int 2, Scalar.int 3] (by decide)
    (List.Forall₂.cons ⟨by decide, by decide, by decide⟩
      (List.Forall₂.cons ⟨by decide, by decide, by decide⟩
        (List.Forall₂.cons ⟨by decide, by decide, by decide⟩ List.Forall₂.nil)))
    rfl

/-- C27: `process_arguments` never uses up the step budget of the embedding, so
it terminates whenever its behaviour is defined; but with `-v` the only
registered option it runs into undefined behaviour on `-v 1 2 3` with arity 3
and on `-v` with arity 0, where the erase empties the buffer and the loop
header increments the iterator past its end. With a token in front, `x -v -v`
with arity 0 returns -1 for the token left over. -/
theorem C27_undefined_not_total :
    (∀ (m : ProgramOptionManager) (store : Store) (args : List Str),
        m.process_arguments store args ≠ Outcome.unfinished)
      ∧ ((vector_manager 3 false).process_arguments empty_vectors
          [['-', 'v'], ['1'], ['2'], ['3']]).map (fun r => r.retval) = Outcome.undefined
      ∧ ((vector_manager 0 false).process_arguments empty_vectors [['-', 'v']]).map
          (fun r => r.retval) = Outcome.undefined
      ∧ ((vector_manager 0 false).process_arguments empty_vectors
          [['x'], ['-', 'v'], ['-', 'v']]).map (fun r => (r.retval, r.report))
        = Outcome.done (-1, Report.unprocessed [['x']]) := by
  refine ⟨?_, by decide, by decide, by decide⟩
  intro m store args h
  rcases process_arguments_cases m store args with h1 | ⟨_, _, h1⟩ | ⟨_, _, _, _, h1⟩ <;>
    rw [h1] at h <;> cases h

/-! ### C30: the comparison of named descriptors -/

/-- C30 for the flags `-b` (`--x`), `--y` without a short name and `-a` (`--z`):
`sln_sort` puts `-b` before `--y` and `--y` before `-a` by their long names,
but `-a` before `-b` by their short names, so it is not transitive; the
insertion sort of the embedding then gives an order that depends on the
order of registration. -/
theorem C30_sln_sort_cycle :
    sln_sort sort_b_x sort_y = true ∧ sln_sort sort_y sort_a_z = true
      ∧ sln_sort sort_b_x sort_a_z = false ∧ sln_sort sort_a_z sort_b_x = true
      ∧ (std_sort sln_sort [sort_b_x, sort_y, sort_a_z]).map (fun d => d.long_name_)
        = [['x'], ['y'], ['z']]
      ∧ (std_sort sln_sort [sort_a_z, sort_b_x, sort_y]).map (fun d => d.long_name_)
        = [['z'], ['x'], ['y']] := by
  decide

/-- No string is smaller than itself. -/
theorem str_lt_irrefl (s : Str) : str_lt s s = false := by
  induction s with
  | nil => rfl
  | cons c cs ih => simp [str_lt, ih]

/-- The order of strings is transitive. -/
theorem str_lt_trans : ∀ (a b c : Str), str_lt a b = true → str_lt b c = true →
    str_lt a c = true := by
  intro a
  induction a with
  | nil =>
    intro b c h1 h2
    cases b with
    | nil => simp [str_lt] at h1
    | cons y ys =>
      cases c with
      | nil => simp [str_lt] at h2
      | cons z zs => simp [str_lt]
  | cons x xs ih =>
    intro b c h1 h2
    cases b with
    | nil => simp [str_lt] at h1
    | cons y ys =>
      cases c with
      | nil => simp [str_lt] at h2
      | cons z zs =>
        simp only [str_lt] at h1 h2 ⊢
        by_cases hxy : x.toNat < y.toNat
        · by_cases hyz : y.toNat < z.toNat
          · have : x.toNat < z.toNat := by omega
            simp [this]
          · simp only [hyz, if_false] at h2
            by_cases hzy : z.toNat < y.toNat
            · simp [hzy] at h2
            · have : x.toNat < z.toNat := by omega
              simp [this]
        · simp only [hxy, if_false] at h1
          by_cases hyx : y.toNat < x.toNat
          · simp [hyx] at h1
          · simp only [hyx, if_false] at h1
            by_cases hyz : y.toNat < z.toNat
            · have : x.toNat < z.toNat := by omega
              simp [this]
            · simp only [hyz, if_false] at h2
              by_cases hzy : z.toNat < y.toNat
              · simp [hzy] at h2
              · simp only [hzy, if_false] at h2
                have e1 : ¬ x.toNat < z.toNat := by omega
                have e2 : ¬ z.toNat < x.toNat := by omega
                simp only [e1, e2, if_false]
                exact ih ys zs h1 h2

/-- Two strings neither of which is smaller are equal. -/
theorem str_lt_incomparable : ∀ (a b : Str), str_lt a b = false → str_lt b a = false → a = b := by
  intro a
  induction a with
  | nil =>
    intro b h1 _
    cases b with
    | nil => rfl
    | cons y ys => simp [str_lt] at h1
  | cons x xs ih =>
    intro b h1 h2
    cases b with
    | nil => simp [str_lt] at h2
    | cons y ys =>
      simp only [str_lt] at h1 h2
      by_cases hxy : x.toNat < y.toNat
      · simp [hxy] at h1
      · by_cases hyx : y.toNat < x.toNat
        · simp [hyx] at h2
        · simp only [hxy, hyx, if_false] at h1 h2
          have e : x.toNat = y.toNat := by omega
          have : x = y := Char.ext (UInt32.ext e)
          rw [this, ih ys h1 h2]

/-- Where all short names are present `sln_sort` is the lexicographic
order of the short names: irreflexive, transitive, and two descriptors are
incomparable exactly when their short names are equal. -/
theorem sln_sort_short_names (a b c : OptionValueBase) (ha : a.short_name_ ≠ [])
    (hb : b.short_name_ ≠ []) (hc : c.short_name_ ≠ []) :
    sln_sort a a = false
      ∧ (sln_sort a b = true → sln_sort b c = true → sln_sort a c = true)
      ∧ (sln_sort a b = false → sln_sort b a = false → a.short_name_ = b.short_name_) := by
  have e : ∀ x y : OptionValueBase, x.short_name_ ≠ [] → y.short_name_ ≠ [] →
      sln_sort x y = str_lt x.short_name_ y.short_name_ := by
    intro x y hx hy
    simp [sln_sort, hx, hy]
  rw [e a a ha ha, e a b ha hb, e b c hb hc, e a c ha hc, e b a hb ha]
  exact ⟨str_lt_irrefl _, str_lt_trans _ _ _, str_lt_incomparable _ _⟩

/-! ### C24: what a positional vector takes -/

/-- The swap of the loop moves the accepted token behind the tokens accepted
before it and keeps the skipped tokens behind it, in another order. -/
theorem swap_at_accept (taken skipped : program_option_type) (it : Str) :
    ∃ skipped1, swap_at (taken ++ skipped ++ [it]) taken.length (taken ++ skipped).length
        = (taken ++ [it]) ++ skipped1
      ∧ List.Perm skipped1 skipped := by
  cases skipped with
  | nil =>
    refine ⟨[], ?_, List.Perm.refl _⟩
    simp only [List.append_nil]
    have : swap_at (taken ++ [it]) taken.length taken.length = taken ++ [it] := swap_at_self _ _
    simpa using this
  | cons m ms =>
    refine ⟨ms ++ [m], ?_, ?_⟩
    · have e1 : taken ++ m :: ms ++ [it] = taken ++ m :: (ms ++ [it]) := by simp
      have e2 : (taken ++ m :: ms).length = taken.length + ms.length + 1 := by
        simp only [List.length_append, List.length_cons]; omega
      rw [e1, e2, swap_at_rotate]
      simp
    · exact List.perm_append_singleton m ms

/-- The loop of the positional vector `consume` when the tokens it accepts
convert: it accepts the first `max_count_ - count_` tokens that do not begin
with `-`, in buffer order, moves them to the front of the buffer and leaves
behind them the other tokens, the skipped ones in another order. -/
theorem PositionalValueVector_scan_takes (ty : Ty) (value_ : Ref) (max_count_ : Nat) :
    ∀ (suf : program_option_type) (count_ : Nat) (store : Store)
      (taken skipped : program_option_type) (vals : List Scalar),
      (∀ t ∈ skipped, front t = '-') →
      List.Forall₂ (reads ty) ((non_flag suf).take (max_count_ - count_)) vals →
      ∃ s, PositionalValueVector.scan ty value_ max_count_ count_ taken.length store
            (taken ++ skipped) suf = Outcome.done s
        ∧ s.cont_flag = true ∧ s.count_ = count_ + vals.length
        ∧ s.mark = taken.length + vals.length
        ∧ s.store = store.push_all value_ vals
        ∧ ∃ rest, s.opts = taken ++ (non_flag suf).take (max_count_ - count_) ++ rest
          ∧ List.Perm ((non_flag suf).take (max_count_ - count_) ++ rest) (skipped ++ suf) := by
  intro suf
  induction suf with
  | nil =>
    intro count_ store taken skipped vals _ hv
    simp only [non_flag, List.filter_nil, List.take_nil] at hv ⊢
    cases hv
    exact ⟨⟨count_, taken.length, true, store, taken ++ skipped⟩, rfl, rfl, rfl, rfl, rfl,
      skipped, by simp, by simp⟩
  | cons it rest ih =>
    intro count_ store taken skipped vals hs hv
    by_cases hc : count_ < max_count_
    · by_cases hf : front it = '-'
      · have hf2 : (front it != '-') = false := by simpa using hf
        have hnf : non_flag (it :: rest) = non_flag rest := by
          simp [non_flag, List.filter_cons, hf2]
        rw [hnf] at hv ⊢
        have hs2 : ∀ t ∈ skipped ++ [it], front t = '-' := by
          intro t ht
          rcases List.mem_append.mp ht with h | h
          · exact hs t h
          · rw [List.mem_singleton.mp h]; exact hf
        obtain ⟨s, h1, h2, h3, h4, h5, rest1, h6, h7⟩ := ih count_ store taken (skipped ++ [it])
          vals hs2 hv
        refine ⟨s, ?_, h2, h3, h4, h5, rest1, h6, ?_⟩
        · simp only [PositionalValueVector.scan, hc, if_true, hf2, Bool.false_eq_true, if_false]
          rw [List.append_assoc]
          exact h1
        · simpa using h7
      · have hf2 : (front it != '-') = true := by simpa using hf
        obtain ⟨k, hk⟩ : ∃ k, max_count_ - count_ = k + 1 := ⟨max_count_ - count_ - 1, by omega⟩
        have hk2 : max_count_ - (count_ + 1) = k := by omega
        have hnf : non_flag (it :: rest) = it :: non_flag rest := by
          simp [non_flag, List.filter_cons, hf2]
        rw [hnf, hk, List.take_succ_cons] at hv ⊢
        cases hv with
        | @cons _ v _ vals1 hr hv1 =>
          obtain ⟨_, hbad, htmp⟩ := hr
          obtain ⟨skipped1, hsw, hperm⟩ := swap_at_accept taken skipped it
          have hs1 : ∀ t ∈ skipped1, front t = '-' := fun t ht => hs t (hperm.subset ht)
          rw [← hk2] at hv1
          obtain ⟨s, h1, h2, h3, h4, h5, rest1, h6, h7⟩ := ih (count_ + 1)
            (store.push_back value_ v) (taken ++ [it]) skipped1 vals1 hs1 hv1
          rw [hk2] at h6 h7
          refine ⟨s, ?_, h2, ?_, ?_, ?_, rest1, ?_, ?_⟩
          · simp only [PositionalValueVector.scan, hc, if_true, hf2, hbad, Bool.false_eq_true,
              if_false, htmp]
            rw [hsw]
            have : (taken ++ [it]).length = taken.length + 1 := by simp
            rw [this] at h1
            exact h1
          · rw [h3, List.length_cons]; omega
          · rw [h4, List.length_cons, List.length_append, List.length_singleton]; omega
          · rw [h5]; rfl
          · rw [h6]; simp
          · have h8 : List.Perm (it :: (List.take k (non_flag rest) ++ rest1))
                (it :: (skipped1 ++ rest)) := List.Perm.cons it h7
            refine h8.trans ?_
            have h9 : List.Perm (skipped1 ++ rest) (skipped ++ rest) :=
              List.Perm.append_right rest hperm
            exact (List.Perm.cons it h9).trans (List.perm_middle.symm)
    · have h0 : max_count_ - count_ = 0 := by omega
      rw [h0, List.take_zero] at hv ⊢
      cases hv
      refine ⟨⟨count_, taken.length, true, store, taken ++ skipped ++ it :: rest⟩, ?_, rfl, rfl,
        rfl, rfl, skipped ++ it :: rest, ?_, ?_⟩
      · simp only [PositionalValueVector.scan, hc, if_false]
      · simp
      · simp

/-- C24: for a positional vector on its first call (`count_` 0) whose arity `n`,
declared or read from its dependency, is at least 1, and a buffer whose first
`n` tokens not beginning with `-` convert, `consume` returns; it appends to the
destination the values of exactly the first `min(n, number of such tokens)`
tokens not beginning with `-`, in buffer order; these tokens followed by the
buffer afterwards are a permutation of the buffer before, and the tokens
beginning with `-` are the same before and after. It returns true unless the
count is exact and was not reached. -/
theorem C24_positional_vector_takes (heap : List OptionValueBase) (self : OptionValueBase)
    (ty : Ty) (value_ : Ref) (exact_count_ : Bool) (max_count_ : Nat) (dep : Option Nat)
    (store : Store) (opts : program_option_type) (n : Nat) (vals : List Scalar)
    (hn : 1 ≤ n)
    (hres : max_count_ = n ∨ (max_count_ = 0 ∧ ∃ q target, dep = some q
      ∧ heap[q]? = some target ∧ target.uint_assign_to store = some n))
    (hv : List.Forall₂ (reads ty) ((non_flag opts).take n) vals) :
    ∃ r, PositionalValueVector.consume heap self ty value_ 0 exact_count_ max_count_ dep store opts
        = Outcome.done r
      ∧ r.store = store.push_all value_ vals
      ∧ vals.length = min n (non_flag opts).length
      ∧ List.Perm ((non_flag opts).take n ++ r.opts) opts
      ∧ List.Perm (r.opts.filter (fun t => front t == '-')) (opts.filter (fun t => front t == '-'))
      ∧ (r.ret = true ↔ (exact_count_ = false ∨ vals.length = n)) := by
  have hcounted : PositionalValueVector.consume heap self ty value_ 0 exact_count_ max_count_ dep
      store opts
      = PositionalValueVector.consume_counted self ty value_ 0 exact_count_ n dep store opts := by
    rcases hres with rfl | ⟨rfl, q, target, rfl, hq, hu⟩
    · have : (max_count_ == 0) = false := by
        simp only [beq_eq_false_iff_ne, ne_eq]; omega
      simp [PositionalValueVector.consume, this]
    · simp [PositionalValueVector.consume, hq, hu]
  have hv0 : List.Forall₂ (reads ty) ((non_flag opts).take (n - 0)) vals := by simpa using hv
  obtain ⟨s, h1, h2, h3, h4, h5, rest, h6, h7⟩ := PositionalValueVector_scan_takes ty value_ n
    opts 0 store [] [] vals (fun t ht => absurd ht (List.not_mem_nil t)) hv0
  simp only [List.length_nil, List.append_nil, Nat.zero_add, Nat.sub_zero, List.nil_append]
    at h1 h3 h4 h6 h7
  have hlen : vals.length = ((non_flag opts).take n).length := (List.Forall₂.length_eq hv).symm
  have hdrop : s.opts.drop s.mark = rest := by
    rw [h6, h4, hlen, List.drop_left]
  have hperm : List.Perm ((non_flag opts).take n ++ rest) opts := h7
  have hcount : List.Perm (rest.filter (fun t => front t == '-'))
      (opts.filter (fun t => front t == '-')) := by
    have hc := hperm.filter (fun t => front t == '-')
    rw [List.filter_append] at hc
    have h0 : ((non_flag opts).take n).filter (fun t => front t == '-') = [] := by
      rw [List.filter_eq_nil_iff]
      intro t hmem
      have hm2 : t ∈ non_flag opts := List.mem_of_mem_take hmem
      have := (List.mem_filter.mp hm2).2
      simpa using this
    rw [h0, List.nil_append] at hc
    exact hc
  rw [hcounted]
  unfold PositionalValueVector.consume_counted
  simp only [h1, h2, Bool.not_true, Bool.false_eq_true, if_false, hdrop, h3]
  by_cases hx : (exact_count_ && vals.length != n) = true
  · simp only [hx, if_true]
    refine ⟨_, rfl, h5, ?_, hperm, hcount, ?_⟩
    · rw [hlen, List.length_take]
    · simp only [Bool.and_eq_true, bne_iff_ne, ne_eq] at hx
      simp [hx.1, hx.2]
  · simp only [hx, Bool.false_eq_true, if_false]
    refine ⟨_, rfl, h5, ?_, hperm, hcount, ?_⟩
    · rw [hlen, List.length_take]
    · simp only [Bool.and_eq_true, bne_iff_ne, ne_eq, not_and, not_not] at hx
      simp only [true_iff]
      cases he : exact_count_ with
      | false => exact Or.inl rfl
      | true => exact Or.inr (hx he)

/-- C24 for a vector of two strings on `-a x -b y z`. -/
theorem C24_positional_vector_takes_witness :
    ∃ r, PositionalValueVector.consume [] pair_option Ty.string (Ref.var 0) 0 false 2 none
          empty_vectors [['-', 'a'], ['x'], ['-', 'b'], ['y'], ['z']] = Outcome.done r
      ∧ r.store = empty_vectors.push_all (Ref.var 0) [Scalar.str ['x'], Scalar.str ['y']]
      ∧ [Scalar.str ['x'], Scalar.str ['y']].length
        = min 2 (non_flag [['-', 'a'], ['x'], ['-', 'b'], ['y'], ['z']]).length
      ∧ List.Perm ((non_flag [['-', 'a'], ['x'], ['-', 'b'], ['y'], ['z']]).take 2 ++ r.opts)
          [['-', 'a'], ['x'], ['-', 'b'], ['y'], ['z']]
      ∧ List.Perm (r.opts.filter (fun t => front t == '-'))
          ([['-', 'a'], ['x'], ['-', 'b'], ['y'], ['z']].filter (fun t => front t == '-'))
      ∧ (r.ret = true ↔ (false = false ∨ [Scalar.str ['x'], Scalar.str ['y']].length = 2)) :=
  C24_positional_vector_takes [] pair_option Ty.string (Ref.var 0) false 2 none empty_vectors
    [['-', 'a'], ['x'], ['-', 'b'], ['y'], ['z']] 2 [Scalar.str ['x'], Scalar.str ['y']]
    (by decide) (Or.inl rfl)
    (List.Forall₂.cons ⟨by decide, by decide, by decide⟩
      (List.Forall₂.cons ⟨by decide, by decide, by decide⟩ List.Forall₂.nil))

/-! ### C25: the order of the tokens left -/

/-- Behind the new `mark` the swap leaves the tokens that were behind the old
one, in another order. -/
theorem swap_at_drop_perm (scanned : program_option_type) (it : Str) (mark : Nat)
    (h : mark ≤ scanned.length) :
    List.Perm ((swap_at (scanned ++ [it]) mark scanned.length).drop (mark + 1))
      (scanned.drop mark) := by
  obtain ⟨sk, hsw, hp⟩ := swap_at_accept (scanned.take mark) (scanned.drop mark) it
  rw [List.take_append_drop, List.length_take_of_le h] at hsw
  rw [hsw]
  have : ((scanned.take mark ++ [it]) ++ sk).drop (mark + 1) = sk := by
    have hl : (scanned.take mark ++ [it]).length = mark + 1 := by
      simp [List.length_take_of_le h]
    rw [← hl, List.drop_left]
  rw [this]
  exact hp

/-- The loop of the positional vector `consume` keeps behind `mark`, up to
their order, only tokens that were there. -/
theorem PositionalValueVector_scan_subperm (ty : Ty) (value_ : Ref) (max_count_ : Nat)
    (suf : program_option_type) :
    ∀ (count_ mark : Nat) (store : Store) (scanned : program_option_type) (s : VectorScan),
      mark ≤ scanned.length →
      PositionalValueVector.scan ty value_ max_count_ count_ mark store scanned suf
        = Outcome.done s →
      List.Subperm (s.opts.drop s.mark) (scanned.drop mark ++ suf) := by
  induction suf with
  | nil =>
    intro count_ mark store scanned s _ h
    simp only [PositionalValueVector.scan, Outcome.done.injEq] at h
    subst h
    simp only [List.append_nil]
    exact List.Subperm.refl _
  | cons it rest ih =>
    intro count_ mark store scanned s hmark h
    have hdrop : (scanned ++ [it]).drop mark = scanned.drop mark ++ [it] := by
      rw [List.drop_append_eq_append_drop]
      have : mark - scanned.length = 0 := by omega
      simp [this]
    have hdrop2 : (scanned ++ it :: rest).drop mark = scanned.drop mark ++ it :: rest := by
      rw [List.drop_append_eq_append_drop]
      have : mark - scanned.length = 0 := by omega
      simp [this]
    by_cases hc : count_ < max_count_
    · by_cases hf : front it = '-'
      · simp only [PositionalValueVector.scan, hc, if_true, hf, bne_self_eq_false,
          Bool.false_eq_true, if_false] at h
        have h1 := ih count_ mark store (scanned ++ [it]) s (by simp; omega) h
        rw [hdrop] at h1
        simpa using h1
      · have hf2 : (front it != '-') = true := by simpa using hf
        by_cases hb : (extract ty it).bad = true
        · simp only [PositionalValueVector.scan, hc, if_true, hf2, hb,
            Outcome.done.injEq] at h
          subst h
          simp only [hdrop2]
          exact List.Subperm.refl _
        · simp only [PositionalValueVector.scan, hc, if_true, hf2, hb, Bool.false_eq_true,
            if_false] at h
          have h1 := ih (count_ + 1) (mark + 1)
            (store.push_back value_ (extracted_tmp ty (extract ty it)))
            (swap_at (scanned ++ [it]) mark scanned.length) s
            (by rw [swap_at_length]; simp; omega) h
          have h2 : List.Subperm ((swap_at (scanned ++ [it]) mark scanned.length).drop (mark + 1)
              ++ rest) (scanned.drop mark ++ it :: rest) := by
            have hp := swap_at_drop_perm scanned it mark hmark
            have h3 : List.Subperm (scanned.drop mark ++ rest) (scanned.drop mark ++ it :: rest) :=
              (List.Sublist.append_left (List.sublist_cons_self it rest) _).subperm
            exact (List.Perm.append_right rest hp).subperm.trans h3
          exact h1.trans h2
    · simp only [PositionalValueVector.scan, hc, if_false, Outcome.done.injEq] at h
      subst h
      simp only [hdrop2]
      exact List.Subperm.refl _

/-- The positional vector `consume` leaves, up to their order, only tokens of
the buffer. -/
theorem PositionalValueVector_consume_subperm (heap : List OptionValueBase)
    (self : OptionValueBase) (ty : Ty) (value_ : Ref) (count_ : Nat) (exact_count_ : Bool)
    (max_count_ : Nat) (dep : Option Nat) (store : Store) (opts : program_option_type)
    (r : ConsumeResult)
    (h : PositionalValueVector.consume heap self ty value_ count_ exact_count_ max_count_ dep
      store opts = Outcome.done r) : List.Subperm r.opts opts := by
  have key : ∀ n, PositionalValueVector.consume_counted self ty value_ count_ exact_count_ n dep
      store opts = Outcome.done r → List.Subperm r.opts opts := by
    intro n hn
    unfold PositionalValueVector.consume_counted at hn
    cases hs : PositionalValueVector.scan ty value_ n count_ 0 store [] opts with
    | undefined => simp [hs] at hn
    | unfinished => simp [hs] at hn
    | done s =>
      have h1 := PositionalValueVector_scan_subperm ty value_ n opts count_ 0 store [] s
        (Nat.le_refl _) hs
      simp only [List.drop_nil, List.nil_append] at h1
      simp only [hs] at hn
      split at hn
      · simp only [Outcome.done.injEq] at hn; subst hn; exact h1
      · split at hn
        · simp only [Outcome.done.injEq] at hn; subst hn; exact h1
        · simp only [Outcome.done.injEq] at hn; subst hn; exact h1
  unfold PositionalValueVector.consume at h
  split at h
  · split at h
    · split at h
      · cases h
      · exact key _ h
    · simp only [Outcome.done.injEq] at h; subst h; exact List.Subperm.refl _
  · exact key _ h

/-- The scan of the vector option leaves a subsequence of the buffer. -/
theorem NameValueVector_scan_sublist (ty : Ty) (value_ : Ref) (max_count_ : Nat)
    (restart : OptionValueBase → Store → program_option_type → Outcome ConsumeResult)
    (hrestart : ∀ self1 store1 opts1 r, restart self1 store1 opts1 = Outcome.done r →
      List.Sublist r.opts opts1)
    (self : OptionValueBase) (store : Store) (suf : program_option_type) :
    ∀ (pre : program_option_type) (r : ConsumeResult),
      NameValueVector.scan ty value_ max_count_ restart self store pre suf = Outcome.done r →
      List.Sublist r.opts (pre ++ suf) := by
  induction suf with
  | nil =>
    intro pre r h
    simp only [NameValueVector.scan, Outcome.done.injEq] at h
    subst h
    simp
  | cons it rest ih =>
    intro pre r h
    by_cases hm : self.name_match it = true
    · simp only [NameValueVector.scan, hm, if_true] at h
      have hv := NameValueVector_read_values_cases ty value_ max_count_ rest 0 store
      revert h hv
      cases NameValueVector.read_values ty value_ max_count_ 0 rest store with
      | bad store1 =>
        intro h _
        simp only [Outcome.done.injEq] at h
        subst h
        exact List.Sublist.refl _
      | stop c rest1 store1 =>
        intro h hv
        obtain ⟨vals, rfl, _, _, _⟩ := hv
        by_cases hc : (c != max_count_) = true
        · simp only [hc, if_true, Outcome.done.injEq] at h
          subst h
          exact List.Sublist.refl _
        · simp only [hc, Bool.false_eq_true, if_false] at h
          have h1 := hrestart _ _ _ _ h
          refine h1.trans ?_
          apply List.Sublist.append_left
          exact (List.sublist_append_right vals rest1).trans (List.sublist_cons_self it _)
    · have hm2 : self.name_match it = false := by simpa using hm
      simp only [NameValueVector.scan, hm2, Bool.false_eq_true, if_false] at h
      have := ih (pre ++ [it]) r h
      simpa using this

/-- The rescans of the vector option leave a subsequence of the buffer. -/
theorem NameValueVector_loop_sublist (ty : Ty) (value_ : Ref) (max_count_ : Nat) (fuel : Nat) :
    ∀ (self : OptionValueBase) (store : Store) (pre suf : program_option_type)
      (r : ConsumeResult),
      NameValueVector.loop ty value_ max_count_ fuel self store pre suf = Outcome.done r →
      List.Sublist r.opts (pre ++ suf) := by
  induction fuel with
  | zero => intro self store pre suf r h; simp [NameValueVector.loop] at h
  | succ fuel ih =>
    intro self store pre suf r h
    rw [NameValueVector.loop] at h
    refine NameValueVector_scan_sublist ty value_ max_count_ _ ?_ self store suf pre r h
    intro self1 store1 opts1 r1 h1
    cases opts1 with
    | nil => simp at h1
    | cons first more =>
      have := ih self1 store1 [first] more r1 h1
      simpa using this

/-- Every `consume` other than the one of a positional vector leaves a
subsequence of the buffer. -/
theorem consume_sublist (heap : List OptionValueBase) (d : OptionValueBase) (store : Store)
    (opts : program_option_type) (r : ConsumeResult)
    (hd : d.is_positional_vector = false)
    (h : d.consume heap store opts = Outcome.done r) : List.Sublist r.opts opts := by
  unfold OptionValueBase.consume at h
  split at h
  · rename_i ty value_ _
    simp only [Outcome.done.injEq] at h
    subst h
    rcases NameValue_consume_cases d ty value_ store [] opts with ⟨_, e⟩
      | ⟨_, _, _, _, _, _, _, e⟩ | ⟨_, _, _, _, _, _, _, _, _, e⟩
      | ⟨a, it, next, after, rfl, _, _, _, _, e⟩
    · rw [e]; simp
    · rw [e]; simp
    · rw [e]; simp
    · rw [e]
      simp only [List.nil_append]
      apply List.Sublist.append_left
      exact (List.sublist_cons_self next after).trans (List.sublist_cons_self it _)
  · rename_i ty value_ max_count_ _
    have := NameValueVector_loop_sublist ty value_ max_count_ _ d store [] opts r h
    simpa using this
  · rename_i value_ _
    simp only [Outcome.done.injEq] at h
    subst h
    rw [Flag_consume_eq]
    simp only [List.nil_append]
    exact List.eraseP_sublist opts
  · rename_i value_ v _
    simp only [Outcome.done.injEq] at h
    subst h
    rw [Flag_consume_eq]
    simp only [List.nil_append]
    exact List.eraseP_sublist opts
  · rename_i ty value_ _
    simp only [Outcome.done.injEq] at h
    subst h
    rcases PositionalValue_consume_cases d ty value_ store [] opts with ⟨_, e⟩
      | ⟨a, it, after, rfl, _, _, e⟩
    · rw [e]; simp
    · rw [e]
      simp only [List.nil_append]
      apply List.Sublist.append_left
      exact List.sublist_cons_self it after
  · rename_i _ _ _ _ _ _ himpl
    simp [OptionValueBase.is_positional_vector, himpl] at hd

/-- C25 (as amended): every `consume` that returns leaves only tokens of the
buffer, none of them twice; for every descriptor other than a positional
vector what it leaves is a subsequence of the buffer, so the tokens keep their
relative order. -/
theorem C25_tokens_kept (heap : List OptionValueBase) (d : OptionValueBase) (store : Store)
    (opts : program_option_type) (r : ConsumeResult)
    (h : d.consume heap store opts = Outcome.done r) :
    (d.is_positional_vector = false → List.Sublist r.opts opts) ∧ List.Subperm r.opts opts := by
  refine ⟨fun hd => consume_sublist heap d store opts r hd h, ?_⟩
  cases hd : d.is_positional_vector with
  | false => exact (consume_sublist heap d store opts r hd h).subperm
  | true =>
    unfold OptionValueBase.consume at h
    split at h
    all_goals first
      | exact PositionalValueVector_consume_subperm _ _ _ _ _ _ _ _ _ _ _ h
      | (rename_i himpl; simp [OptionValueBase.is_positional_vector, himpl] at hd)

/-- C25 (as amended) for the flag `-b` and for a positional vector of two
strings, both on `-a -b x`. -/
theorem C25_tokens_kept_witness :
    List.Sublist [['-', 'a'], ['x']] [['-', 'a'], ['-', 'b'], ['x']]
      ∧ List.Subperm [['-', 'b'], ['-', 'a']] [['-', 'a'], ['-', 'b'], ['x']] :=
  ⟨(C25_tokens_kept [] flag_b empty_vectors [['-', 'a'], ['-', 'b'], ['x']]
      ⟨true, { flag_b with consumed_ := true },
        empty_vectors.set (Ref.var 4) (Val.scalar (Scalar.bool true)), [['-', 'a'], ['x']]⟩
      rfl).1 (by decide),
    (C25_tokens_kept [] pair_option empty_vectors [['-', 'a'], ['-', 'b'], ['x']]
      ⟨true, { PositionalValueVector.update pair_option Ty.string (Ref.var 0) 1 false 2 none with
          consumed_ := true },
        empty_vectors.push_back (Ref.var 0) (Scalar.str ['x']), [['-', 'b'], ['-', 'a']]⟩
      rfl).2⟩

/-- C25 fails for a positional vector of two strings on `-a -b x`: the swap
that moves `x` to the front puts `-a` where `x` was, so `consume` leaves
`-b -a`, which is no subsequence of the buffer. -/
theorem C25_counterexample :
    (pair_option.consume [] empty_vectors [['-', 'a'], ['-', 'b'], ['x']]).map
        (fun r => (r.ret, r.store (Ref.var 0), r.opts))
        = Outcome.done (true, Val.vec [Scalar.str ['x']], [['-', 'b'], ['-', 'a']])
      ∧ ¬ List.Sublist [['-', 'b'], ['-', 'a']] [['-', 'a'], ['-', 'b'], ['x']] :=
  ⟨by decide, by decide⟩

/-! ### C22: the size of the vector after a successful call -/

/-- The inner loop of the vector `consume` appends one value per token it
counts. -/
theorem read_values_pushed (ty : Ty) (value_ : Ref) (max_count_ : Nat)
    (rest : program_option_type) :
    ∀ (count : Nat) (store : Store) (c : Nat) (rest1 : program_option_type) (store1 : Store)
      (xs : List Scalar),
      NameValueVector.read_values ty value_ max_count_ count rest store
        = Values.stop c rest1 store1 →
      store value_ = Val.vec xs →
      ∃ vals, store1 value_ = Val.vec (xs ++ vals) ∧ count + vals.length = c := by
  induction rest with
  | nil =>
    intro count store c rest1 store1 xs h hx
    simp only [NameValueVector.read_values, Values.stop.injEq] at h
    obtain ⟨rfl, _, rfl⟩ := h
    exact ⟨[], by simpa using hx, rfl⟩
  | cons next after ih =>
    intro count store c rest1 store1 xs h hx
    by_cases hc : (front next != '-' && decide (count < max_count_)) = true
    · simp only [NameValueVector.read_values, hc, if_true] at h
      by_cases hb : (extract ty next).bad = true
      · simp [hb] at h
      · simp only [hb, Bool.false_eq_true, if_false] at h
        obtain ⟨vals, h1, h2⟩ := ih (count + 1) _ c rest1 store1
          (xs ++ [extracted_tmp ty (extract ty next)]) h
          (push_back_same store value_ _ xs hx)
        exact ⟨extracted_tmp ty (extract ty next) :: vals, by simpa using h1,
          by simp only [List.length_cons]; omega⟩
    · simp only [NameValueVector.read_values, hc, Bool.false_eq_true, if_false,
        Values.stop.injEq] at h
      obtain ⟨rfl, _, rfl⟩ := h
      exact ⟨[], by simpa using hx, rfl⟩

/-- Appending `k` values keeps the size a multiple of `k`. -/
theorem holds_multiple_append {store store1 : Store} {ref : Ref} {k : Nat} {xs vals : List Scalar}
    (hx : store ref = Val.vec xs) (hm : holds_multiple store ref k)
    (h1 : store1 ref = Val.vec (xs ++ vals)) (hl : vals.length = k) :
    holds_multiple store1 ref k := by
  obtain ⟨ys, j, hy, hj⟩ := hm
  rw [hx] at hy
  cases hy
  exact ⟨xs ++ vals, j + 1, h1, by rw [List.length_append, hj, hl, Nat.succ_mul]⟩

/-- A scan of the vector option that returns true has appended `k` values for
each match. -/
theorem NameValueVector_scan_multiple (ty : Ty) (value_ : Ref) (k : Nat)
    (restart : OptionValueBase → Store → program_option_type → Outcome ConsumeResult)
    (hrestart : ∀ self1 store1 opts1 r, restart self1 store1 opts1 = Outcome.done r →
      r.ret = true → holds_multiple store1 value_ k → holds_multiple r.store value_ k)
    (self : OptionValueBase) (store : Store) (suf : program_option_type) :
    ∀ (pre : program_option_type) (r : ConsumeResult),
      NameValueVector.scan ty value_ k restart self store pre suf = Outcome.done r →
      r.ret = true → holds_multiple store value_ k → holds_multiple r.store value_ k := by
  induction suf with
  | nil =>
    intro pre r h _ hm
    simp only [NameValueVector.scan, Outcome.done.injEq] at h
    subst h
    exact hm
  | cons it rest ih =>
    intro pre r h hret hm
    by_cases hmt : self.name_match it = true
    · simp only [NameValueVector.scan, hmt, if_true] at h
      cases hrv : NameValueVector.read_values ty value_ k 0 rest store with
      | bad store1 =>
        simp only [hrv, Outcome.done.injEq] at h
        subst h
        cases hret
      | stop c rest1 store1 =>
        simp only [hrv] at h
        by_cases hc : (c != k) = true
        · simp only [hc, if_true, Outcome.done.injEq] at h
          subst h
          cases hret
        · simp only [hc, Bool.false_eq_true, if_false] at h
          have hck : c = k := by simpa using hc
          obtain ⟨xs, j, hx, hj⟩ := hm
          obtain ⟨vals, h1, h2⟩ := read_values_pushed ty value_ k rest 0 store c rest1 store1 xs
            hrv hx
          exact hrestart _ _ _ _ h hret
            (holds_multiple_append hx ⟨xs, j, hx, hj⟩ h1 (by omega))
    · have hm2 : self.name_match it = false := by simpa using hmt
      simp only [NameValueVector.scan, hm2, Bool.false_eq_true, if_false] at h
      exact ih (pre ++ [it]) r h hret hm

/-- The rescans of a vector option that returns true have appended `k` values
for each match. -/
theorem NameValueVector_loop_multiple (ty : Ty) (value_ : Ref) (k : Nat) (fuel : Nat) :
    ∀ (self : OptionValueBase) (store : Store) (pre suf : program_option_type)
      (r : ConsumeResult),
      NameValueVector.loop ty value_ k fuel self store pre suf = Outcome.done r →
      r.ret = true → holds_multiple store value_ k → holds_multiple r.store value_ k := by
  induction fuel with
  | zero => intro self store pre suf r h; simp [NameValueVector.loop] at h
  | succ fuel ih =>
    intro self store pre suf r h
    rw [NameValueVector.loop] at h
    refine NameValueVector_scan_multiple ty value_ k _ ?_ self store suf pre r h
    intro self1 store1 opts1 r1 h1
    cases opts1 with
    | nil => simp at h1
    | cons first more => exact ih self1 store1 [first] more r1 h1

/-- One call of `consume` that returns true keeps the size of the vector a
multiple of `k`, when the descriptor is a vector option of arity `k` bound to
it or is bound to another variable. -/
theorem consume_at_multiple {p : Nat} {st st1 : State} {ret : Bool} (ref : Ref) (k : Nat)
    (h : consume_at p st = Outcome.done (ret, st1))
    (hown : only_vectors st.heap [p] ref k) (hret : ret = true ∨ not_bound st.heap [p] ref)
    (hm : holds_multiple st.store ref k) : holds_multiple st1.store ref k := by
  obtain ⟨d, r, hd, hr, hrr, rfl⟩ := consume_at_done h
  have hother : d.value_ ≠ ref → holds_multiple r.store ref k := by
    intro hne
    have := (consume_effect _ _ _ _ _ hr).frame ref (Ne.symm hne)
    obtain ⟨xs, j, hx, hj⟩ := hm
    exact ⟨xs, j, by rw [this]; exact hx, hj⟩
  rcases hret with hret | hnb
  · rcases hown p (List.mem_singleton_self p) d hd with ⟨ty, himpl⟩ | hne
    · simp only [OptionValueBase.consume, himpl, NameValueVector.consume] at hr
      exact NameValueVector_loop_multiple ty ref k _ d st.store [] st.argvv r hr
        (by rw [← hrr]; exact hret) hm
    · exact hother hne
  · exact hother (hnb p (List.mem_singleton_self p) d hd)

/-- What the loop over `positionals_` leaves alone. -/
theorem consume_positionals_frame (ps : List Nat) :
    ∀ (st st1 : State), consume_positionals ps st = Outcome.done st1 →
      (∀ q, q ∉ ps → st1.heap[q]? = st.heap[q]?)
        ∧ (∀ (q : Nat) d1, st1.heap[q]? = some d1 → ∃ d, st.heap[q]? = some d ∧ same_option d d1)
        ∧ (∀ ref, (∀ p ∈ ps, ∀ d, st.heap[p]? = some d → d.value_ ≠ ref) →
            st1.store ref = st.store ref) := by
  induction ps with
  | nil =>
    intro st st1 h
    simp only [consume_positionals, Outcome.done.injEq] at h
    subst h
    exact ⟨fun _ _ => rfl, fun q d1 hq => ⟨d1, hq, same_option_refl d1⟩, fun _ _ => rfl⟩
  | cons p ps ih =>
    intro st st1 h
    rw [consume_positionals] at h
    cases hc : consume_at p st with
    | undefined => simp [hc] at h
    | unfinished => simp [hc] at h
    | done x =>
      obtain ⟨ret0, st0⟩ := x
      obtain ⟨f1, f2, f3⟩ := consume_at_frame hc
      simp only [hc] at h
      obtain ⟨g1, g2, g3⟩ := ih st0 st1 h
      refine ⟨?_, ?_, ?_⟩
      · intro q hq
        rw [g1 q (fun e => hq (List.mem_cons_of_mem _ e)),
          f1 q (fun e => hq (e ▸ List.mem_cons_self _ _))]
      · intro q d1 hq
        obtain ⟨d0, hq0, s0⟩ := g2 q d1 hq
        obtain ⟨d, hqd, s⟩ := f2 q d0 hq0
        exact ⟨d, hqd, same_option_trans s s0⟩
      · intro ref href
        rw [g3 ref ?_, f3 ref (href p (List.mem_cons_self _ _))]
        intro p1 hp1 d1 hd1
        obtain ⟨d, hqd, s⟩ := f2 p1 d1 hd1
        rw [s.2.2.2.2.1]
        exact href p1 (List.mem_cons_of_mem _ hp1) d hqd

/-- A call of `consume` does not change which descriptors are vector options
of arity `k` bound to `ref`. -/
theorem only_vectors_step {p : Nat} {st st1 : State} {ret : Bool} (ps : List Nat) (ref : Ref)
    (k : Nat) (h : consume_at p st = Outcome.done (ret, st1))
    (hown : only_vectors st.heap ps ref k) : only_vectors st1.heap ps ref k := by
  obtain ⟨_, f2, _⟩ := consume_at_frame h
  intro q hq d1 hd1
  obtain ⟨d, hd, hs⟩ := f2 q d1 hd1
  rcases hown q hq d hd with ⟨ty, himpl⟩ | hne
  · left
    refine ⟨ty, ?_⟩
    rw [hs.2.2.2.2.2.2.2.2 (by simp [OptionValueBase.is_positional_vector, himpl]), himpl]
  · right
    rw [hs.2.2.2.2.1]
    exact hne

/-- A loop over `opts_` in which every `consume` returns true keeps the size
of the vector a multiple of `k`. -/
theorem consume_named_multiple (ref : Ref) (k : Nat) (ps : List Nat) :
    ∀ (st st1 : State), consume_named ps st = Outcome.done (true, st1) →
      only_vectors st.heap ps ref k → holds_multiple st.store ref k →
      holds_multiple st1.store ref k := by
  induction ps with
  | nil =>
    intro st st1 h _ hm
    simp only [consume_named, Outcome.done.injEq, Prod.mk.injEq, true_and] at h
    subst h
    exact hm
  | cons p ps ih =>
    intro st st1 h hown hm
    rw [consume_named] at h
    cases hc : consume_at p st with
    | undefined => simp [hc] at h
    | unfinished => simp [hc] at h
    | done x =>
      obtain ⟨ret0, st0⟩ := x
      simp only [hc] at h
      cases ret0 with
      | false => simp at h
      | true =>
        simp only [if_true] at h
        have hown1 : only_vectors st.heap [p] ref k := fun q hq =>
          hown q (by rw [List.mem_singleton.mp hq]; exact List.mem_cons_self _ _)
        have hm0 := consume_at_multiple ref k hc hown1 (Or.inl rfl) hm
        have hown0 : only_vectors st0.heap ps ref k :=
          only_vectors_step ps ref k hc (fun q hq => hown q (List.mem_cons_of_mem _ hq))
        exact ih st0 st1 h hown0 hm0

/-- C22 (as amended): when the variable `i` is empty before the call and is the
destination of fixed-arity vector options of arity `k` only, then whenever
`process_arguments` returns 1 (or 0) the variable holds a multiple of `k`
values: `k` for every appearance of the option that was consumed. -/
theorem C22_multiple_of_arity (m : ProgramOptionManager) (store : Store) (args : List Str)
    (i k : Nat) (hinit : store (Ref.var i) = Val.vec [])
    (hnamed : only_vectors m.prepare.heap m.prepare.opts_ (Ref.var i) k)
    (hpos : not_bound m.prepare.heap m.prepare.positionals_ (Ref.var i)) :
    m.process_arguments store args = Outcome.undefined
      ∨ ∃ r, m.process_arguments store args = Outcome.done r
        ∧ (r.retval ≠ -1 → ∃ vals j, r.store (Ref.var i) = Val.vec vals ∧ vals.length = j * k) := by
  rcases process_arguments_cases m store args with h | ⟨st1, h1, h2⟩ | ⟨st1, st2, h1, h3, h2⟩
  · exact Or.inl h
  · right
    exact ⟨_, h2, fun hne => absurd rfl hne⟩
  · right
    refine ⟨_, h2, fun _ => ?_⟩
    rw [finish_store]
    have h0 : holds_multiple (store.set Ref.help (Val.scalar (Scalar.bool false))) (Ref.var i) k :=
      ⟨[], 0, by simp [Store.set, hinit], by simp⟩
    have hm1 := consume_named_multiple (Ref.var i) k _ _ _ h1 hnamed h0
    obtain ⟨_, g2, _⟩ := consume_named_frame _ _ _ _ h1
    obtain ⟨_, _, f3⟩ := consume_positionals_frame _ _ _ h3
    have : st2.store (Ref.var i) = st1.store (Ref.var i) := by
      apply f3
      intro p hp d1 hd1
      obtain ⟨d, hd, hs⟩ := g2 p d1 hd1
      rw [hs.2.2.2.2.1]
      exact hpos p hp d hd
    obtain ⟨vals, j, hv, hj⟩ := hm1
    exact ⟨vals, j, by rw [this]; exact hv, hj⟩

/-- In the demonstration program the only named option bound to `v` is `-v`, of
arity 3. -/
theorem demo_only_vectors :
    only_vectors demo_manager.prepare.heap demo_manager.prepare.opts_ (Ref.var 3) 3 := by
  rw [demo_prepare]
  intro p hp d hd
  simp only [List.mem_cons, List.mem_singleton, List.not_mem_nil, or_false] at hp
  rcases hp with rfl | rfl | rfl | rfl | rfl | rfl <;>
    simp only [List.getElem?_cons_succ, List.getElem?_cons_zero, Option.some.injEq] at hd <;>
    subst hd
  · right; decide
  · right; decide
  · right; decide
  · right; decide
  · right; decide
  · left; exact ⟨Ty.int, rfl⟩

/-- In the demonstration program no positional is bound to `v`. -/
theorem demo_not_bound :
    not_bound demo_manager.prepare.heap demo_manager.prepare.positionals_ (Ref.var 3) := by
  rw [demo_prepare]
  intro p hp d hd
  simp only [List.mem_cons, List.mem_singleton, List.not_mem_nil, or_false] at hp
  rcases hp with rfl | rfl <;>
    simp only [List.getElem?_cons_succ, List.getElem?_cons_zero, Option.some.injEq] at hd <;>
    subst hd <;> decide

/-- C22 (as amended) for the demonstration program on `0 -v 1 2 3 -v 4 5 6`. -/
theorem C22_multiple_of_arity_witness :
    demo_manager.process_arguments empty_vectors
        [['0'], ['-', 'v'], ['1'], ['2'], ['3'], ['-', 'v'], ['4'], ['5'], ['6']]
        = Outcome.undefined
      ∨ ∃ r, demo_manager.process_arguments empty_vectors
          [['0'], ['-', 'v'], ['1'], ['2'], ['3'], ['-', 'v'], ['4'], ['5'], ['6']]
          = Outcome.done r
        ∧ (r.retval ≠ -1 → ∃ vals j, r.store (Ref.var 3) = Val.vec vals ∧ vals.length = j * 3) :=
  C22_multiple_of_arity demo_manager empty_vectors
    [['0'], ['-', 'v'], ['1'], ['2'], ['3'], ['-', 'v'], ['4'], ['5'], ['6']] 3 3 rfl
    demo_only_vectors demo_not_bound

/-- C22 fails on `0 -v 1 2 3 -v 4 5 6` in the demonstration program: both
appearances of `-v` are consumed, `process_arguments` returns 1 and the
destination, empty before the call, holds six values for the arity 3. -/
theorem C22_counterexample :
    (demo_manager.process_arguments empty_vectors
        [['0'], ['-', 'v'], ['1'], ['2'], ['3'], ['-', 'v'], ['4'], ['5'], ['6']]).map
        (fun r => (r.retval, r.store (Ref.var 3), r.argvv))
      = Outcome.done (1, Val.vec [Scalar.int 1, Scalar.int 2, Scalar.int 3, Scalar.int 4,
          Scalar.int 5, Scalar.int 6], []) := by
  decide

/-! ### C28: the order of a dependent positional and its target -/

/-- A list with an element appended, split at an element: the element is the
appended one or lies in the list. -/
theorem concat_eq_split {α : Type} (xs l1 l2 : List α) (a p : α)
    (h : xs ++ [a] = l1 ++ p :: l2) :
    (l2 = [] ∧ l1 = xs ∧ p = a) ∨ ∃ l3, l2 = l3 ++ [a] ∧ xs = l1 ++ p :: l3 := by
  induction xs generalizing l1 with
  | nil =>
    cases l1 with
    | nil =>
      simp only [List.nil_append, List.cons.injEq] at h
      exact Or.inl ⟨h.2.symm, rfl, h.1.symm⟩
    | cons y ys =>
      simp only [List.nil_append, List.cons_append, List.cons.injEq] at h
      cases ys <;> simp at h
  | cons x xs ih =>
    cases l1 with
    | nil =>
      simp only [List.cons_append, List.nil_append, List.cons.injEq] at h
      right
      exact ⟨xs, h.2.symm, by rw [h.1]; rfl⟩
    | cons y ys =>
      simp only [List.cons_append, List.cons.injEq] at h
      rcases ih ys h.2 with ⟨e1, e2, e3⟩ | ⟨l3, e1, e2⟩
      · left
        exact ⟨e1, by rw [h.1, e2], e3⟩
      · right
        exact ⟨l3, e1, by rw [h.1, e2]; rfl⟩

/-- Appending to the heap does not change the object a valid pointer points
to. -/
theorem get_append_old {α : Type} (l : List α) (d : α) (p : Nat) (h : p < l.length) :
    (l ++ [d])[p]? = l[p]? := List.getElem?_append_left h

/-- The empty manager has the invariant. -/
theorem new_ordered : ProgramOptionManager.new.ordered := by
  refine ⟨⟨?_, ?_, ?_⟩, ?_⟩
  · intro p hp; cases hp
  · intro p hp; cases hp
  · intro d hd; cases hd
  · intro l1 p l2 d q h
    cases l1 <;> simp [ProgramOptionManager.new] at h

/-- Registering a named descriptor keeps the invariant. -/
theorem push_opt_ordered (m : ProgramOptionManager) (d : OptionValueBase) (h : m.ordered)
    (hd : d.dependent = none) : (m.push_opt d).ordered := by
  obtain ⟨⟨v1, v2, v3⟩, ho⟩ := h
  refine ⟨⟨?_, ?_, ?_⟩, ?_⟩
  · intro p hp
    simp only [ProgramOptionManager.push_opt, List.mem_append, List.mem_singleton,
      List.length_append, List.length_singleton] at hp ⊢
    rcases hp with hp | rfl
    · have := v1 p hp; omega
    · omega
  · intro p hp
    simp only [ProgramOptionManager.push_opt, List.length_append, List.length_singleton] at hp ⊢
    have := v2 p hp; omega
  · intro e he q hq
    simp only [ProgramOptionManager.push_opt, List.mem_append, List.mem_singleton,
      List.length_append, List.length_singleton] at he ⊢
    rcases he with he | rfl
    · have := v3 e he q hq; omega
    · rw [hd] at hq; cases hq
  · intro l1 p l2 e q hl he hq
    simp only [ProgramOptionManager.push_opt] at hl he ⊢
    have hp : p < m.heap.length := v2 p (by rw [hl]; simp)
    rw [get_append_old _ _ _ hp] at he
    rcases ho l1 p l2 e q hl he hq with h1 | h1
    · exact Or.inl (List.mem_append_left _ h1)
    · exact Or.inr h1

/-- Registering a positional keeps the invariant when its target, if it has
one, is already registered. -/
theorem push_positional_ordered (m : ProgramOptionManager) (d : OptionValueBase) (h : m.ordered)
    (hd : ∀ q, d.dependent = some q → q < m.heap.length ∧ (q ∈ m.opts_ ∨ q ∈ m.positionals_)) :
    (m.push_positional d).ordered := by
  obtain ⟨⟨v1, v2, v3⟩, ho⟩ := h
  refine ⟨⟨?_, ?_, ?_⟩, ?_⟩
  · intro p hp
    simp only [ProgramOptionManager.push_positional, List.length_append,
      List.length_singleton] at hp ⊢
    have := v1 p hp; omega
  · intro p hp
    simp only [ProgramOptionManager.push_positional, List.mem_append, List.mem_singleton,
      List.length_append, List.length_singleton] at hp ⊢
    rcases hp with hp | rfl
    · have := v2 p hp; omega
    · omega
  · intro e he q hq
    simp only [ProgramOptionManager.push_positional, List.mem_append, List.mem_singleton,
      List.length_append, List.length_singleton] at he ⊢
    rcases he with he | rfl
    · have := v3 e he q hq; omega
    · have := (hd q hq).1; omega
  · intro l1 p l2 e q hl he hq
    simp only [ProgramOptionManager.push_positional] at hl he ⊢
    rcases concat_eq_split _ _ _ _ _ hl with ⟨_, e2, e3⟩ | ⟨l3, _, e2⟩
    · subst e3
      rw [List.getElem?_concat_length] at he
      cases he
      rw [e2]
      exact (hd q hq).2
    · have hp : p < m.heap.length := v2 p (by rw [e2]; simp)
      rw [get_append_old _ _ _ hp] at he
      exact ho l1 p l3 e q e2 he hq

/-- What the search loops of the dependent `add_option` find is registered. -/
theorem find_dependent_registered (m : ProgramOptionManager) (name : Str) (q : Nat)
    (h : m.find_dependent name = some q) :
    q < m.heap.length ∧ (q ∈ m.opts_ ∨ q ∈ m.positionals_) := by
  unfold ProgramOptionManager.find_dependent at h
  cases h1 : find_descriptor m.heap (fun d => name == d.short_name_ || name == d.long_name_)
      m.opts_ with
  | some q1 =>
    simp only [h1, Option.some.injEq] at h
    subst h
    obtain ⟨l1, l2, d, e1, e2, _, _⟩ := (find_descriptor_some _ _ _ _).mp h1
    exact ⟨(List.getElem?_eq_some.mp e2).1, Or.inl (by rw [e1]; simp)⟩
  | none =>
    simp only [h1] at h
    obtain ⟨l1, l2, d, e1, e2, _, _⟩ := (find_descriptor_some _ _ _ _).mp h
    exact ⟨(List.getElem?_eq_some.mp e2).1, Or.inr (by rw [e1]; simp)⟩

/-- Registering a dependent positional keeps the invariant. -/
theorem add_option_dependent_ordered (m : ProgramOptionManager) (h : m.ordered)
    (help_name : Str) (ty : Ty) (value : Ref) (opt : CountDependentOption) (required : Bool) :
    (m.add_option_dependent help_name ty value opt required).ordered := by
  unfold ProgramOptionManager.add_option_dependent
  cases hf : m.find_dependent opt.name with
  | none => exact h
  | some q =>
    simp only
    apply push_positional_ordered m _ h
    intro q1 hq1
    simp only [OptionValueBase.dependent, OptionValueBase.positional, Option.some.injEq] at hq1
    subst hq1
    exact find_dependent_registered m opt.name q hf

/-- The invariant does not depend on the order of `opts_` nor on the state of
the descriptors. -/
theorem ordered_of_related (heap heap1 : List OptionValueBase) (opts_ opts1 positionals_ : List Nat)
    (h : ProgramOptionManager.ordered ⟨heap, opts_, positionals_⟩)
    (hopts : ∀ p, p ∈ opts1 ↔ p ∈ opts_) (hlen : heap1.length = heap.length)
    (hrel : ∀ (q : Nat) d1, heap1[q]? = some d1 → ∃ d, heap[q]? = some d ∧ same_option d d1) :
    ProgramOptionManager.ordered ⟨heap1, opts1, positionals_⟩ := by
  obtain ⟨⟨v1, v2, v3⟩, ho⟩ := h
  refine ⟨⟨?_, ?_, ?_⟩, ?_⟩
  · intro p hp
    have := v1 p ((hopts p).mp hp)
    simp only at this ⊢
    omega
  · intro p hp
    have := v2 p hp
    simp only at this ⊢
    omega
  · intro d1 hd1 q hq
    obtain ⟨n, hn, hget⟩ := List.getElem_of_mem hd1
    have hsome : heap1[n]? = some d1 := by
      rw [List.getElem?_eq_getElem hn, hget]
    obtain ⟨d, hd, hs⟩ := hrel n d1 hsome
    have hmem : d ∈ heap := List.getElem?_mem hd
    have := v3 d hmem q (by rw [← hs.2.2.2.2.2.2.1]; exact hq)
    simp only at this ⊢
    omega
  · intro l1 p l2 d1 q hl hd1 hq
    simp only at hl hd1 ⊢
    obtain ⟨d, hd, hs⟩ := hrel p d1 hd1
    rcases ho l1 p l2 d q hl hd (by rw [← hs.2.2.2.2.2.2.1]; exact hq) with h1 | h1
    · exact Or.inl ((hopts q).mpr h1)
    · exact Or.inr h1

/-- Registering the help flag and sorting `opts_` keeps the invariant. -/
theorem prepare_ordered (m : ProgramOptionManager) (h : m.ordered) : m.prepare.ordered := by
  have h1 : (m.add_option_flag ['h'] ['h', 'e', 'l', 'p'] Ref.help false).ordered :=
    push_opt_ordered m _ h rfl
  have := ordered_of_related _ m.prepare.heap _ m.prepare.opts_ _ h1
    (fun p => by
      rw [mem_prepare_opts]
      simp [ProgramOptionManager.add_option_flag, ProgramOptionManager.push_opt])
    rfl (fun q d1 hq => ⟨d1, hq, same_option_refl d1⟩)
  exact this

/-- A call of `consume` does not change the number of descriptors. -/
theorem consume_at_length {p : Nat} {st st1 : State} {ret : Bool}
    (h : consume_at p st = Outcome.done (ret, st1)) : st1.heap.length = st.heap.length := by
  obtain ⟨d, r, _, _, _, rfl⟩ := consume_at_done h
  simp

/-- The loop over `opts_` does not change the number of descriptors. -/
theorem consume_named_length (ps : List Nat) :
    ∀ (st st1 : State) (ret : Bool), consume_named ps st = Outcome.done (ret, st1) →
      st1.heap.length = st.heap.length := by
  induction ps with
  | nil =>
    intro st st1 ret h
    simp only [consume_named, Outcome.done.injEq, Prod.mk.injEq] at h
    rw [← h.2]
  | cons p ps ih =>
    intro st st1 ret h
    rw [consume_named] at h
    cases hc : consume_at p st with
    | undefined => simp [hc] at h
    | unfinished => simp [hc] at h
    | done x =>
      obtain ⟨ret0, st0⟩ := x
      simp only [hc] at h
      cases ret0 with
      | false =>
        simp only [Bool.false_eq_true, if_false, Outcome.done.injEq, Prod.mk.injEq] at h
        rw [← h.2]
        exact consume_at_length hc
      | true =>
        simp only [if_true] at h
        rw [ih st0 st1 ret h, consume_at_length hc]

/-- The loop over `positionals_` does not change the number of descriptors. -/
theorem consume_positionals_length (ps : List Nat) :
    ∀ (st st1 : State), consume_positionals ps st = Outcome.done st1 →
      st1.heap.length = st.heap.length := by
  induction ps with
  | nil =>
    intro st st1 h
    simp only [consume_positionals, Outcome.done.injEq] at h
    rw [← h]
  | cons p ps ih =>
    intro st st1 h
    rw [consume_positionals] at h
    cases hc : consume_at p st with
    | undefined => simp [hc] at h
    | unfinished => simp [hc] at h
    | done x =>
      obtain ⟨ret0, st0⟩ := x
      simp only [hc] at h
      rw [ih st0 st1 h, consume_at_length hc]

/-- The manager that `process_arguments` leaves behind. -/
theorem finish_manager (m : ProgramOptionManager) (st : State) :
    (finish m st).manager = ⟨st.heap, m.opts_, m.positionals_⟩ := by
  unfold finish
  simp only
  split
  · rfl
  · split <;> rfl

/-- The manager that `process_arguments` leaves behind has the invariant. -/
theorem process_arguments_ordered (m : ProgramOptionManager) (h : m.ordered) (store : Store)
    (args : List Str) (r : Result) (hr : m.process_arguments store args = Outcome.done r) :
    r.manager.ordered := by
  have hp := prepare_ordered m h
  rcases process_arguments_cases m store args with h0 | ⟨st1, h1, h2⟩ | ⟨st1, st2, h1, h3, h2⟩
  · rw [h0] at hr; cases hr
  · rw [h2] at hr
    simp only [Outcome.done.injEq] at hr
    subst hr
    obtain ⟨_, g2, _⟩ := consume_named_frame _ _ _ _ h1
    exact ordered_of_related m.prepare.heap st1.heap m.prepare.opts_ m.prepare.opts_
      m.prepare.positionals_ hp (fun _ => Iff.rfl) (consume_named_length _ _ _ _ h1) g2
  · rw [h2] at hr
    simp only [Outcome.done.injEq] at hr
    subst hr
    rw [finish_manager]
    obtain ⟨_, g2, _⟩ := consume_named_frame _ _ _ _ h1
    obtain ⟨_, f2, _⟩ := consume_positionals_frame _ _ _ h3
    refine ordered_of_related m.prepare.heap st2.heap m.prepare.opts_ m.prepare.opts_
      m.prepare.positionals_ hp (fun _ => Iff.rfl) ?_ ?_
    · rw [consume_positionals_length _ _ _ h3, consume_named_length _ _ _ _ h1]
    · intro q d1 hq
      obtain ⟨d0, hq0, s0⟩ := f2 q d1 hq
      obtain ⟨d, hqd, s⟩ := g2 q d0 hq0
      exact ⟨d, hqd, same_option_trans s s0⟩

/-- The loop over `positionals_` calls the `consume` of a positional after
those of the positionals in front of it. -/
theorem consume_positionals_append (l1 : List Nat) (p : Nat) (l2 : List Nat) :
    ∀ (st : State), consume_positionals (l1 ++ p :: l2) st
      = (consume_positionals l1 st).bind (fun st1 =>
          (consume_at p st1).bind (fun x => consume_positionals l2 x.2)) := by
  induction l1 with
  | nil =>
    intro st
    simp only [List.nil_append, consume_positionals, Outcome.bind]
    cases consume_at p st with
    | undefined => rfl
    | unfinished => rfl
    | done x => rfl
  | cons a l1 ih =>
    intro st
    rw [List.cons_append, consume_positionals, consume_positionals]
    cases consume_at a st with
    | undefined => rfl
    | unfinished => rfl
    | done x =>
      simp only
      exact ih x.2

/-- C28: the empty manager has the dependency ordering invariant (every
dependent positional is bound to a target that is a descriptor of `opts_` or
stands in front of it in `positionals_`, all pointers being valid); every
overload of `add_option`, the registration of the help flag with the sort of
`opts_`, and `process_arguments` as a whole keep it. Hence, in
`process_arguments`, the target of a dependent positional is in the sorted
`opts_`, whose loop has ended before the loop over `positionals_` starts, or
among the positionals in front of it, whose `consume` is called before
its own. -/
theorem C28_dependency_order :
    ProgramOptionManager.new.ordered
      ∧ (∀ m : ProgramOptionManager, m.ordered →
          (∀ s l ty v r, (m.add_option_value s l ty v r).ordered)
          ∧ (∀ s l v r, (m.add_option_flag s l v r).ordered)
          ∧ (∀ s l ty v c r, (m.add_option_vector s l ty v c r).ordered)
          ∧ (∀ s l v x r, (m.add_option_flag_value s l v x r).ordered)
          ∧ (∀ n ty v r, (m.add_option_positional n ty v r).ordered)
          ∧ (∀ n ty v c r, (m.add_option_positional_vector n ty v c r).ordered)
          ∧ (∀ n ty v opt r, (m.add_option_dependent n ty v opt r).ordered)
          ∧ m.prepare.ordered
          ∧ (∀ store args r, m.process_arguments store args = Outcome.done r →
              r.manager.ordered))
      ∧ (∀ m : ProgramOptionManager, m.ordered → ∀ l1 p l2 d q,
          m.prepare.positionals_ = l1 ++ p :: l2 → m.prepare.heap[p]? = some d →
          d.dependent = some q →
          (q ∈ m.prepare.opts_ ∨ q ∈ l1)
            ∧ ∀ st, consume_positionals m.prepare.positionals_ st
              = (consume_positionals l1 st).bind (fun st1 =>
                  (consume_at p st1).bind (fun x => consume_positionals l2 x.2))) := by
  refine ⟨new_ordered, ?_, ?_⟩
  · intro m h
    refine ⟨?_, ?_, ?_, ?_, ?_, ?_, ?_, prepare_ordered m h, ?_⟩
    · intro s l ty v r
      exact push_opt_ordered m _ h rfl
    · intro s l v r
      exact push_opt_ordered m _ h rfl
    · intro s l ty v c r
      exact push_opt_ordered m _ h rfl
    · intro s l v x r
      exact push_opt_ordered m _ h rfl
    · intro n ty v r
      exact push_positional_ordered m _ h (fun q hq => by cases hq)
    · intro n ty v c r
      exact push_positional_ordered m _ h (fun q hq => by cases hq)
    · intro n ty v opt r
      exact add_option_dependent_ordered m h n ty v opt r
    · intro store args r hr
      exact process_arguments_ordered m h store args r hr
  · intro m h l1 p l2 d q hl hd hq
    refine ⟨(prepare_ordered m h).2 l1 p l2 d q hl hd hq, ?_⟩
    intro st
    rw [hl]
    exact consume_positionals_append l1 p l2 st

/-- C28 for the registrations of the demonstration program. -/
theorem C28_dependency_order_witness :
    demo_manager.ordered ∧ demo_manager.prepare.ordered := by
  have h1 := (C28_dependency_order.2.1 _ C28_dependency_order.1).2.2.2.2.1
    ['c', 'o', 'u', 'n', 't'] Ty.uint (Ref.var 0) true
  have h2 := (C28_dependency_order.2.1 _ h1).2.2.2.2.2.2.1
    ['p', 'o', 's', '2'] Ty.string (Ref.var 1) (count_depends_on ['c', 'o', 'u', 'n', 't']) true
  have h3 := (C28_dependency_order.2.1 _ h2).1 ['u'] ['u', 'i', 'n', 't'] Ty.uint (Ref.var 2) false
  have h4 := (C28_dependency_order.2.1 _ h3).2.2.1 ['v'] ['v', 'e', 'c', 't', 'o', 'r'] Ty.int
    (Ref.var 3) 3 false
  have h5 := (C28_dependency_order.2.1 _ h4).2.1 ['b'] ['b', 'o', 'o', 'l'] (Ref.var 4) false
  have h6 := (C28_dependency_order.2.1 _ h5).2.2.2.1 ['O'] ['O', 'N', 'E'] (Ref.var 5)
    (Scalar.int 1) false
  have h7 := (C28_dependency_order.2.1 _ h6).2.2.2.1 ['T'] ['T', 'W', 'O'] (Ref.var 5)
    (Scalar.int 2) false
  exact ⟨h7, (C28_dependency_order.2.1 _ h7).2.2.2.2.2.2.2.1⟩

/-! ### C7: two flags that write one destination -/

/-- The order of strings is asymmetric. -/
theorem str_lt_asymm (a b : Str) (h : str_lt a b = true) : str_lt b a = false := by
  cases hba : str_lt b a with
  | false => rfl
  | true =>
    have := str_lt_trans a b a h hba
    rw [str_lt_irrefl] at this
    cases this

/-- Not being smaller is transitive for strings. -/
theorem str_lt_negtrans (a b c : Str) (h1 : str_lt a b = false) (h2 : str_lt b c = false) :
    str_lt a c = false := by
  cases hac : str_lt a c with
  | false => rfl
  | true =>
    cases hba : str_lt b a with
    | true =>
      have := str_lt_trans b a c hba hac
      rw [h2] at this
      cases this
    | false =>
      have e := str_lt_incomparable a b h1 hba
      subst e
      rw [h2] at hac
      cases hac

/-- Insertion into a list sorted by a key keeps it sorted, where the
comparison is the order of the keys. -/
theorem sorted_insert_pairwise {α : Type} (lt : α → α → Bool) (key : α → Str) (x : α) :
    ∀ (l : List α), (∀ a ∈ x :: l, ∀ b ∈ x :: l, lt a b = str_lt (key a) (key b)) →
      l.Pairwise (fun a b => str_lt (key b) (key a) = false) →
      (sorted_insert lt x l).Pairwise (fun a b => str_lt (key b) (key a) = false) := by
  intro l
  induction l with
  | nil => intro _ _; simp [sorted_insert]
  | cons y ys ih =>
    intro hlt hs
    obtain ⟨hy, hys⟩ := List.pairwise_cons.mp hs
    have hyx : lt y x = str_lt (key y) (key x) :=
      hlt y (List.mem_cons_of_mem _ (List.mem_cons_self _ _)) x (List.mem_cons_self _ _)
    unfold sorted_insert
    by_cases h : lt y x = true
    · simp only [h, if_true]
      refine List.pairwise_cons.mpr ⟨?_, ?_⟩
      · intro z hz
        rcases List.mem_cons.mp ((sorted_insert_perm lt x ys).mem_iff.mp hz) with rfl | hz
        · exact str_lt_asymm _ _ (by rw [← hyx]; exact h)
        · exact hy z hz
      · refine ih (fun a ha b hb => hlt a ?_ b ?_) hys
        · rcases List.mem_cons.mp ha with rfl | ha
          · exact List.mem_cons_self _ _
          · exact List.mem_cons_of_mem _ (List.mem_cons_of_mem _ ha)
        · rcases List.mem_cons.mp hb with rfl | hb
          · exact List.mem_cons_self _ _
          · exact List.mem_cons_of_mem _ (List.mem_cons_of_mem _ hb)
    · have h2 : str_lt (key y) (key x) = false := by
        rw [← hyx]; simpa using h
      simp only [h, if_false]
      refine List.pairwise_cons.mpr ⟨?_, hs⟩
      intro z hz
      rcases List.mem_cons.mp hz with rfl | hz
      · exact h2
      · exact str_lt_negtrans _ _ _ (hy z hz) h2

/-- The sort orders by the key, where the comparison is the order of the
keys. -/
theorem std_sort_pairwise {α : Type} (lt : α → α → Bool) (key : α → Str) :
    ∀ (l : List α), (∀ a ∈ l, ∀ b ∈ l, lt a b = str_lt (key a) (key b)) →
      (std_sort lt l).Pairwise (fun a b => str_lt (key b) (key a) = false) := by
  intro l
  induction l with
  | nil => intro _; simp [std_sort]
  | cons x xs ih =>
    intro hlt
    unfold std_sort
    apply sorted_insert_pairwise
    · intro a ha b hb
      refine hlt a ?_ b ?_
      · rcases List.mem_cons.mp ha with rfl | ha
        · exact List.mem_cons_self _ _
        · exact List.mem_cons_of_mem _ ((std_sort_perm lt xs).mem_iff.mp ha)
      · rcases List.mem_cons.mp hb with rfl | hb
        · exact List.mem_cons_self _ _
        · exact List.mem_cons_of_mem _ ((std_sort_perm lt xs).mem_iff.mp hb)
    · exact ih (fun a ha b hb => hlt a (List.mem_cons_of_mem _ ha) b (List.mem_cons_of_mem _ hb))

/-- Where both descriptors exist and have short names, `sln_sort` on pointers
is the order of the short names. -/
theorem sln_sort_ptr_short (heap : List OptionValueBase) (a b : Nat)
    (ha : short_name_at heap a ≠ []) (hb : short_name_at heap b ≠ []) :
    sln_sort_ptr heap a b = str_lt (short_name_at heap a) (short_name_at heap b) := by
  unfold short_name_at at ha hb ⊢
  unfold sln_sort_ptr
  cases hx : heap[a]? with
  | none => rw [hx] at ha; exact absurd rfl ha
  | some x =>
    cases hy : heap[b]? with
    | none => rw [hy] at hb; exact absurd rfl hb
    | some y =>
      rw [hx] at ha
      rw [hy] at hb
      simp only at ha hb ⊢
      simp [sln_sort, ha, hb]

/-- With distinct short names, the sorted `opts_` is ordered by short name and
holds no pointer twice. -/
theorem prepare_sorted (m : ProgramOptionManager)
    (h : distinct_short_names m.prepare.heap m.prepare.opts_) :
    m.prepare.opts_.Pairwise (fun a b =>
        str_lt (short_name_at m.prepare.heap b) (short_name_at m.prepare.heap a) = false)
      ∧ m.prepare.opts_.Nodup := by
  refine ⟨?_, List.Nodup.of_map _ h.2⟩
  have hne : ∀ p ∈ m.opts_ ++ [m.heap.length], short_name_at m.prepare.heap p ≠ [] := by
    intro p hp e
    apply h.1
    rw [List.mem_map]
    exact ⟨p, (prepare_opts_perm m).mem_iff.mpr hp, e⟩
  exact std_sort_pairwise _ _ _ (fun a ha b hb => sln_sort_ptr_short _ a b (hne a ha) (hne b hb))


/-- A loop over `opts_` that runs to its end runs through its first part and
then through the rest. -/
theorem consume_named_split (l1 l2 : List Nat) :
    ∀ (st st1 : State), consume_named (l1 ++ l2) st = Outcome.done (true, st1) →
      ∃ st2, consume_named l1 st = Outcome.done (true, st2)
        ∧ consume_named l2 st2 = Outcome.done (true, st1) := by
  induction l1 with
  | nil => intro st st1 h; exact ⟨st, rfl, h⟩
  | cons p ps ih =>
    intro st st1 h
    rw [List.cons_append, consume_named] at h
    rw [consume_named]
    cases hc : consume_at p st with
    | undefined => simp [hc] at h
    | unfinished => simp [hc] at h
    | done x =>
      obtain ⟨ret0, st0⟩ := x
      simp only [hc] at h ⊢
      cases ret0 with
      | false => simp at h
      | true =>
        simp only [if_true] at h ⊢
        exact ih st0 st1 h

/-- The loop over descriptors none of which is matched by the token `t`, which
begins with `-`, leaves `t` in the buffer. -/
theorem consume_named_keeps (t : Str) (hdash : front t = '-') (ps : List Nat) :
    ∀ (st st1 : State) (ret : Bool), consume_named ps st = Outcome.done (ret, st1) →
      (∀ p ∈ ps, ∀ d, st.heap[p]? = some d → d.name_match t = false) →
      t ∈ st.argvv → t ∈ st1.argvv := by
  induction ps with
  | nil =>
    intro st st1 ret h _ ht
    simp only [consume_named, Outcome.done.injEq, Prod.mk.injEq] at h
    obtain ⟨_, rfl⟩ := h
    exact ht
  | cons p ps ih =>
    intro st st1 ret h hno ht
    rw [consume_named] at h
    cases hc : consume_at p st with
    | undefined => simp [hc] at h
    | unfinished => simp [hc] at h
    | done x =>
      obtain ⟨ret0, st0⟩ := x
      obtain ⟨_, f2, _⟩ := consume_at_frame hc
      obtain ⟨d, r, hd, hr, _, hst⟩ := consume_at_done hc
      have he := consume_effect _ _ _ _ _ hr
      have ht0 : t ∈ st0.argvv := by
        rw [hst]
        exact he.keep t ht hdash (fun _ => hno p (List.mem_cons_self _ _) d hd)
      simp only [hc] at h
      cases ret0 with
      | false =>
        simp only [Bool.false_eq_true, if_false, Outcome.done.injEq, Prod.mk.injEq] at h
        obtain ⟨_, rfl⟩ := h
        exact ht0
      | true =>
        simp only [if_true] at h
        refine ih st0 st1 ret h ?_ ht0
        intro p1 hp1 d1 hd1
        obtain ⟨d0, hd0, s⟩ := f2 p1 d1 hd1
        rw [name_match_of_same s]
        exact hno p1 (List.mem_cons_of_mem _ hp1) d0 hd0

/-- The loop over `opts_` with an assigned-value flag at `q` whose token is in
the buffer, matched by no descriptor in front of `q`, and whose destination no
descriptor behind `q` is bound to: the destination ends with the constant of
the flag. -/
theorem consume_named_last_writer (q : Nat) (dT : OptionValueBase) (ref : Ref) (v : Scalar)
    (t : Str) (l1 l3 : List Nat) (st st1 : State)
    (h : consume_named (l1 ++ q :: l3) st = Outcome.done (true, st1))
    (hd : st.heap[q]? = some dT) (himpl : dT.impl = OptionImpl.FlagValue ref v)
    (hmatch : dT.name_match t = true) (hq1 : q ∉ l1)
    (h1 : ∀ p ∈ l1, ∀ d, st.heap[p]? = some d → d.name_match t = false)
    (h3 : ∀ p ∈ l3, ∀ d, st.heap[p]? = some d → d.value_ ≠ ref)
    (hdash : front t = '-') (ht : t ∈ st.argvv) :
    st1.store ref = Val.scalar v := by
  obtain ⟨st2, ha, hb⟩ := consume_named_split l1 (q :: l3) st st1 h
  have ht2 := consume_named_keeps t hdash l1 st st2 true ha h1 ht
  obtain ⟨f1, f2, _⟩ := consume_named_frame l1 st st2 true ha
  have hd2 : st2.heap[q]? = some dT := by rw [f1 q hq1]; exact hd
  rw [consume_named] at hb
  cases hc : consume_at q st2 with
  | undefined => simp [hc] at hb
  | unfinished => simp [hc] at hb
  | done x =>
    obtain ⟨ret0, st0⟩ := x
    simp only [hc] at hb
    cases ret0 with
    | false => simp at hb
    | true =>
      simp only [if_true] at hb
      obtain ⟨_, g2, _⟩ := consume_at_frame hc
      obtain ⟨d, r, hdq, hr, _, hst⟩ := consume_at_done hc
      rw [hd2] at hdq
      cases hdq
      have hr2 : r = Flag.consume dT ref v st2.store [] st2.argvv := by
        unfold OptionValueBase.consume at hr
        rw [himpl] at hr
        simp only [Outcome.done.injEq] at hr
        exact hr.symm
      have hs0 : st0.store ref = Val.scalar v := by
        rw [hst]
        simp only
        rw [hr2]
        exact Flag_consume_hit dT ref v st2.store st2.argvv t ht2 hmatch
      obtain ⟨_, _, k3⟩ := consume_named_frame l3 st0 st1 true hb
      rw [k3 ref ?_, hs0]
      intro p hp d1 hd1
      obtain ⟨d0, hd0, s0⟩ := g2 p d1 hd1
      obtain ⟨d00, hd00, s00⟩ := f2 p d0 hd0
      rw [s0.2.2.2.2.1, s00.2.2.2.2.1]
      exact h3 p hp d00 hd00


/-- C7 (as amended): let the named options and the help flag have short names,
no two the same, and let `q` be an assigned-value flag (`-T`, writing `v` =
TWO into `ref`) such that every other descriptor bound to `ref` is a named
option with a smaller short name (`-O`). When the token buffer
`process_arguments` starts with holds a token `t` that begins with `-` and,
among the named options, is matched by `q` only, then a call in which every
named `consume` returns true, in particular every call that returns 0 or 1,
leaves `v` in `ref`, wherever `t` stands among the arguments: the named
descriptors are consumed in the sorted order, so `q` writes last. -/
theorem C7_last_in_sorted_order_wins (m : ProgramOptionManager) (store : Store) (args : List Str)
    (q : Nat) (dT : OptionValueBase) (ref : Ref) (v : Scalar) (t : Str)
    (hq : q ∈ m.opts_) (hd : m.heap[q]? = some dT) (himpl : dT.impl = OptionImpl.FlagValue ref v)
    (hnames : distinct_short_names m.prepare.heap m.prepare.opts_)
    (hlast : sorts_last m.prepare.heap m.prepare.opts_ q ref)
    (hpos : not_bound m.prepare.heap m.prepare.positionals_ ref)
    (ht : t ∈ (m.start store args).argvv) (hdash : front t = '-')
    (hmatch : dT.name_match t = true)
    (honly : only_match m.prepare.heap m.prepare.opts_ q t) :
    m.process_arguments store args = Outcome.undefined
      ∨ ∃ r, m.process_arguments store args = Outcome.done r
        ∧ (named_phase_ok m store args → r.store ref = Val.scalar v)
        ∧ (r.retval ≠ -1 → r.store ref = Val.scalar v) := by
  rcases process_arguments_cases m store args with hu | ⟨st1, h1, hr⟩ | ⟨st1, st2, h1, h2, hr⟩
  · exact Or.inl hu
  · right
    refine ⟨_, hr, ?_, fun h => absurd rfl h⟩
    rintro ⟨st, hst⟩
    unfold ProgramOptionManager.start at hst
    rw [h1] at hst
    cases hst
  · right
    have hq2 : q ∈ m.prepare.opts_ := (mem_prepare_opts m q).mpr (Or.inl hq)
    obtain ⟨l1, l3, e⟩ := List.append_of_mem hq2
    obtain ⟨hsorted, hnodup⟩ := prepare_sorted m hnames
    rw [e] at hsorted hnodup
    have hq1 : q ∉ l1 := by
      intro hmem
      have := (List.nodup_append.mp hnodup).2.2
      exact this hmem (List.mem_cons_self _ _)
    have hq3 : q ∉ l3 := (List.nodup_cons.mp (List.nodup_append.mp hnodup).2.1).1
    have hs3 : ∀ p ∈ l3, str_lt (short_name_at m.prepare.heap p)
        (short_name_at m.prepare.heap q) = false :=
      (List.pairwise_cons.mp (List.pairwise_append.mp hsorted).2.1).1
    have hd2 : m.prepare.heap[q]? = some dT := prepare_get m q dT hd
    have hstore : st1.store ref = Val.scalar v := by
      refine consume_named_last_writer q dT ref v t l1 l3 (m.start store args) st1 ?_ hd2 himpl
        hmatch hq1 ?_ ?_ hdash ht
      · rw [← e]; exact h1
      · intro p hp d hpd
        refine honly p ?_ (fun epq => hq1 (epq ▸ hp)) d hpd
        rw [e]; exact List.mem_append_left _ hp
      · intro p hp d hpd hval
        have hpq : p ≠ q := fun epq => hq3 (epq ▸ hp)
        have hlt := hlast p (by rw [e]; exact List.mem_append_right _ (List.mem_cons_of_mem _ hp))
          hpq d hpd hval
        have hge := hs3 p hp
        have hkey : short_name_at m.prepare.heap p = d.short_name_ := by
          unfold short_name_at
          rw [show m.prepare.heap[p]? = some d from hpd]
        rw [hkey, hlt] at hge
        cases hge
    have hfin : (finish m.prepare st2).store ref = Val.scalar v := by
      rw [finish_store]
      obtain ⟨_, f2, f3⟩ := consume_positionals_frame _ _ _ h2
      obtain ⟨_, g2, _⟩ := consume_named_frame _ _ _ _ h1
      rw [f3 ref ?_, hstore]
      intro p hp d1 hd1
      obtain ⟨d0, hd0, s0⟩ := g2 p d1 hd1
      rw [s0.2.2.2.2.1]
      exact hpos p hp d0 hd0
    exact ⟨_, hr, fun _ => hfin, fun _ => hfin⟩

/-- The named options of the demonstration program and the help flag have the
short names `O`, `T`, `b`, `h`, `u` and `v`. -/
theorem demo_distinct_short_names :
    distinct_short_names demo_manager.prepare.heap demo_manager.prepare.opts_ :=
  ⟨by decide, by decide⟩

/-- In the demonstration program the only other descriptor bound to `st` is
`-O`, whose short name is smaller than that of `-T`. -/
theorem demo_sorts_last :
    sorts_last demo_manager.prepare.heap demo_manager.prepare.opts_ 6 (Ref.var 5) := by
  rw [demo_prepare]
  intro p hp hpq d hd
  simp only [List.mem_cons, List.mem_singleton, List.not_mem_nil, or_false] at hp
  rcases hp with rfl | rfl | rfl | rfl | rfl | rfl <;>
    simp only [List.getElem?_cons_succ, List.getElem?_cons_zero, Option.some.injEq] at hd <;>
    subst hd <;> first | exact absurd rfl hpq | decide

/-- In the demonstration program no positional is bound to `st`. -/
theorem demo_flags_not_bound :
    not_bound demo_manager.prepare.heap demo_manager.prepare.positionals_ (Ref.var 5) := by
  rw [demo_prepare]
  intro p hp d hd
  simp only [List.mem_cons, List.mem_singleton, List.not_mem_nil, or_false] at hp
  rcases hp with rfl | rfl <;>
    simp only [List.getElem?_cons_succ, List.getElem?_cons_zero, Option.some.injEq] at hd <;>
    subst hd <;> decide

/-- In the demonstration program the token `-T` is matched by the flag `-T`
only. -/
theorem demo_only_match :
    only_match demo_manager.prepare.heap demo_manager.prepare.opts_ 6 ['-', 'T'] := by
  rw [demo_prepare]
  intro p hp hpq d hd
  simp only [List.mem_cons, List.mem_singleton, List.not_mem_nil, or_false] at hp
  rcases hp with rfl | rfl | rfl | rfl | rfl | rfl <;>
    simp only [List.getElem?_cons_succ, List.getElem?_cons_zero, Option.some.injEq] at hd <;>
    subst hd <;> first | exact absurd rfl hpq | decide

/-- C7 (as amended) for the demonstration program on `-O -T 1 x` and on
`-T -O 1 x`: both calls return 1 and leave TWO. -/
theorem C7_last_in_sorted_order_wins_witness :
    ((demo_manager.process_arguments count_and_values [['-', 'O'], ['-', 'T'], ['1'], ['x']]
          = Outcome.undefined
        ∨ ∃ r, demo_manager.process_arguments count_and_values
            [['-', 'O'], ['-', 'T'], ['1'], ['x']] = Outcome.done r
          ∧ (named_phase_ok demo_manager count_and_values [['-', 'O'], ['-', 'T'], ['1'], ['x']] →
              r.store (Ref.var 5) = Val.scalar (Scalar.int 2))
          ∧ (r.retval ≠ -1 → r.store (Ref.var 5) = Val.scalar (Scalar.int 2)))
      ∧ (demo_manager.process_arguments count_and_values
          [['-', 'O'], ['-', 'T'], ['1'], ['x']]).map (fun r => (r.retval, r.store (Ref.var 5)))
        = Outcome.done (1, Val.scalar (Scalar.int 2)))
    ∧ ((demo_manager.process_arguments count_and_values [['-', 'T'], ['-', 'O'], ['1'], ['x']]
          = Outcome.undefined
        ∨ ∃ r, demo_manager.process_arguments count_and_values
            [['-', 'T'], ['-', 'O'], ['1'], ['x']] = Outcome.done r
          ∧ (named_phase_ok demo_manager count_and_values [['-', 'T'], ['-', 'O'], ['1'], ['x']] →
              r.store (Ref.var 5) = Val.scalar (Scalar.int 2))
          ∧ (r.retval ≠ -1 → r.store (Ref.var 5) = Val.scalar (Scalar.int 2)))
      ∧ (demo_manager.process_arguments count_and_values
          [['-', 'T'], ['-', 'O'], ['1'], ['x']]).map (fun r => (r.retval, r.store (Ref.var 5)))
        = Outcome.done (1, Val.scalar (Scalar.int 2))) :=
  ⟨⟨C7_last_in_sorted_order_wins demo_manager count_and_values
      [['-', 'O'], ['-', 'T'], ['1'], ['x']] 6
      (OptionValueBase.named ['T'] ['T', 'W', 'O'] false
        (OptionImpl.FlagValue (Ref.var 5) (Scalar.int 2)))
      (Ref.var 5) (Scalar.int 2) ['-', 'T'] (by decide) (by decide) rfl
      demo_distinct_short_names demo_sorts_last demo_flags_not_bound (by decide) (by decide) (by decide) demo_only_match,
    by decide⟩,
   ⟨C7_last_in_sorted_order_wins demo_manager count_and_values
      [['-', 'T'], ['-', 'O'], ['1'], ['x']] 6
      (OptionValueBase.named ['T'] ['T', 'W', 'O'] false
        (OptionImpl.FlagValue (Ref.var 5) (Scalar.int 2)))
      (Ref.var 5) (Scalar.int 2) ['-', 'T'] (by decide) (by decide) rfl
      demo_distinct_short_names demo_sorts_last demo_flags_not_bound (by decide) (by decide) (by decide) demo_only_match,
    by decide⟩⟩

end ArgParsy
